import Mathlib

/-!
# qini: an INI-style configuration parser (Go), embedded in Lean

The development follows `qini.go`.

Modelling conventions.

* A Go `string` is modelled by the list of its runes (`Str`); the text is taken to be
  valid UTF-8, so the byte tests `line[0]`, `line[len(line)-1]` against ASCII
  characters coincide with tests on the first and the last rune.
* A Go map is modelled by a partial function: `none` is an absent key.
* The `bufio.Reader` is modelled by the list of the lines that the successive calls of
  `ReadLine` return before the first error; once the list is exhausted every further
  call fails.
* A run-time panic of the Go program (index out of range, write to a nil map) is
  the result `none` of the corresponding Lean function.
* The case tables of the Go standard library (`unicode.ToLower`, `unicode.ToUpper`)
  are parameters `lower` and `upper`; the width of `int` is the parameter `intSize`.
* The four regular expressions are values of a small abstract syntax (`Regex`) and are
  run by a backtracking matcher that lists the matches in the order of preference of
  Go's `regexp` package (leftmost-first, greedy repetition).
-/

namespace Qini

/-- Go `string`: the sequence of the runes of a valid UTF-8 text. -/
abbrev Str := List Char

/-- The backslash, the continuation marker. -/
def backslash : Char := Char.ofNat 92

/-- The single quote character. -/
def squote : Char := Char.ofNat 39

/-- The double quote character. -/
def dquote : Char := Char.ofNat 34

/-- Go `unicode.IsSpace`: the runes with the Unicode White_Space property. -/
def IsSpace (r : Char) : Bool :=
  let n := r.toNat
  (0x09 ≤ n && n ≤ 0x0D) || n == 0x20 || n == 0x85 || n == 0xA0 || n == 0x1680 ||
    (0x2000 ≤ n && n ≤ 0x200A) || n == 0x2028 || n == 0x2029 || n == 0x202F ||
    n == 0x205F || n == 0x3000

/-- Go `strings.TrimFunc`: drop the leading and the trailing runes that satisfy `f`. -/
def TrimFunc (f : Char → Bool) (s : Str) : Str :=
  (s.dropWhile f).rdropWhile f

/-- Go `strings.ToLower`, rune by rune through the case table `lower`. -/
def ToLower (lower : Char → Char) (s : Str) : Str := s.map lower

/-- Go `strings.ToUpper`, rune by rune through the case table `upper`. -/
def ToUpper (upper : Char → Char) (s : Str) : Str := s.map upper

/-! ## Regular expressions -/

/-- One-character items of the patterns: a literal, `[...]`, `[^...]` and `.`. -/
inductive CharClass where
  | lit (c : Char)
  | oneOf (cs : List Char)
  | noneOf (cs : List Char)
  | anyCharNotNL

/-- Whether a one-character item matches the rune `x`. -/
def CharClass.accepts : CharClass → Char → Bool
  | .lit c, x => x == c
  | .oneOf cs, x => cs.contains x
  | .noneOf cs, x => !cs.contains x
  | .anyCharNotNL, x => x != Char.ofNat 10

/-- The fragment of the pattern syntax that the four patterns use: `^`, `$`,
one-character items and their greedy repetitions `*` and `+`, `r?`, concatenation
and numbered capture groups. -/
inductive Regex where
  | beginText
  | endText
  | one (a : CharClass)
  | star (a : CharClass)
  | plus (a : CharClass)
  | quest (r : Regex)
  | cat (r s : Regex)
  | capture (i : Nat) (r : Regex)

/-- A thread of the matcher: the number of runes consumed, the text that is left and
the capture groups that are closed (most recent first). -/
structure MState where
  pos : Nat
  rest : Str
  caps : List (Nat × Str)

/-- Greedy repetition `a*`: every way to consume a run of accepted runes, the longest
first. -/
def starFrom (a : CharClass) (caps : List (Nat × Str)) : Nat → Str → List MState
  | pos, [] => [⟨pos, [], caps⟩]
  | pos, c :: cs =>
    if a.accepts c then starFrom a caps (pos + 1) cs ++ [⟨pos, c :: cs, caps⟩]
    else [⟨pos, c :: cs, caps⟩]

/-- The backtracking matcher: all the ways in which `r` matches at the thread `st`,
in the order in which a leftmost-first matcher prefers them. -/
def Regex.run : Regex → MState → List MState
  | .beginText, st => if st.pos = 0 then [st] else []
  | .endText, st =>
    match st.rest with
    | [] => [st]
    | _ :: _ => []
  | .one a, st =>
    match st.rest with
    | c :: cs => if a.accepts c then [⟨st.pos + 1, cs, st.caps⟩] else []
    | [] => []
  | .star a, st => starFrom a st.caps st.pos st.rest
  | .plus a, st =>
    match st.rest with
    | c :: cs => if a.accepts c then starFrom a st.caps (st.pos + 1) cs else []
    | [] => []
  | .quest r, st => r.run st ++ [st]
  | .cat r s, st => (r.run st).flatMap (fun st1 => s.run st1)
  | .capture i r, st =>
    (r.run st).map
      (fun st1 => ⟨st1.pos, st1.rest, (i, st.rest.take (st1.pos - st.pos)) :: st1.caps⟩)

/-- The class `[ \t]`. -/
def blank : CharClass := .oneOf [' ', '\t']

/-- The class `[^= \t]`. -/
def keyChar : CharClass := .noneOf ['=', ' ', '\t']

/-- The class `[^#;]`. -/
def valueChar : CharClass := .noneOf ['#', ';']

/-- The common head of the four patterns followed by `tl`:
`^([^= \t]+)[ \t]*=[ \t]*` and then `tl`. -/
def keyEquals (tl : Regex) : Regex :=
  .cat .beginText (.cat (.capture 1 (.plus keyChar)) (.cat (.star blank)
    (.cat (.one (.lit '=')) (.cat (.star blank) tl))))

/-- The pattern `^([^= \t]+)[ \t]*=[ \t]*"([^"]*)"$`. -/
def regDoubleQuote : Regex :=
  keyEquals (.cat (.one (.lit dquote)) (.cat (.capture 2 (.star (.noneOf [dquote])))
    (.cat (.one (.lit dquote)) .endText)))

/-- The pattern `^([^= \t]+)[ \t]*=[ \t]*'([^']*)'$`. -/
def regSingleQuote : Regex :=
  keyEquals (.cat (.one (.lit squote)) (.cat (.capture 2 (.star (.noneOf [squote])))
    (.cat (.one (.lit squote)) .endText)))

/-- The pattern `^([^= \t]+)[ \t]*=[ \t]*([^#;]+)`. -/
def regNoQuote : Regex :=
  keyEquals (.capture 2 (.plus valueChar))

/-- The pattern `^([^= \t]+)[ \t]*=[ \t]*([#;].*)?`. -/
def regNoValue : Regex :=
  keyEquals (.quest (.capture 2 (.cat (.one (.oneOf ['#', ';'])) (.star .anyCharNotNL))))

/-- Go `re.FindAllStringSubmatch(s, 1)`: `none` when the pattern has no match (the
result is `nil`), else the entry `m[0]` of the result, that is the matched text
followed by the text of the groups 1 and 2 (empty for a group that took no part). -/
def FindAllStringSubmatch (re : Regex) (s : Str) : Option (List Str) :=
  match re.run ⟨0, s, []⟩ with
  | [] => none
  | st :: _ => some [s.take st.pos, (st.caps.lookup 1).getD [], (st.caps.lookup 2).getD []]

/-! ## The store and the parser -/

/-- One section: the map from lower-cased key names to raw values. -/
abbrev Section := Str → Option Str

/-- The type `QIni`: the cursor `currSection` and the map `data`. -/
structure QIni where
  currSection : Str
  data : Str → Option Section

/-- The method `addSection`. -/
def addSection (lower : Char → Char) (ini : QIni) (sec : Str) : QIni :=
  let sec := ToLower lower sec
  match ini.data sec with
  | some _ => ⟨sec, ini.data⟩
  | none => ⟨sec, fun s => if s = sec then some (fun _ => none) else ini.data s⟩

/-- The method `addValue`; writing into an absent (nil) section map panics. -/
def addValue (lower : Char → Char) (ini : QIni) (key value : Str) : Option QIni :=
  match ini.data ini.currSection with
  | none => none
  | some m =>
    some ⟨ini.currSection, fun s =>
      if s = ini.currSection then
        some (fun k => if k = ToLower lower key then some value else m k)
      else ini.data s⟩

/-- The method `parseLine`; `line[0]` on the empty line panics. -/
def parseLine (lower : Char → Char) (ini : QIni) (line : Str) : Option QIni :=
  match line.head?, line.getLast? with
  | some first, some last =>
    if first = ';' ∨ first = '#' then some ini
    else if first = '[' ∧ last = ']' then
      some (addSection lower ini (TrimFunc IsSpace line.tail.dropLast))
    else
      match FindAllStringSubmatch regDoubleQuote line with
      | some m => addValue lower ini (m.getD 1 []) (m.getD 2 [])
      | none =>
      match FindAllStringSubmatch regSingleQuote line with
      | some m => addValue lower ini (m.getD 1 []) (m.getD 2 [])
      | none =>
      match FindAllStringSubmatch regNoQuote line with
      | some m => addValue lower ini (m.getD 1 []) (TrimFunc IsSpace (m.getD 2 []))
      | none =>
      match FindAllStringSubmatch regNoValue line with
      | some m => addValue lower ini (m.getD 1 []) []
      | none => some ini
  | _, _ => none

/-- The continuation loop of `parseReader` once `ReadLine` only fails: every turn
tests the last rune (the argument is the line reversed) and removes a marker; the
test panics on the empty line. -/
def eofLoop : Str → Option Str
  | [] => none
  | c :: r => if c = backslash then eofLoop r else some (c :: r).reverse

/-- The continuation loop `for line[len(line)-1] == '\\'` of `parseReader`, from the
accumulated line and the lines still to be read: the logical line and the lines left,
or `none` when the test of the last rune panics on an empty line. -/
def forLoop : Str → List Str → Option (Str × List Str)
  | line, [] => (eofLoop line.reverse).map (fun l => (l, []))
  | line, b :: reader =>
    match line.getLast? with
    | none => none
    | some c =>
      if c = backslash then forLoop (line.dropLast ++ TrimFunc IsSpace b) reader
      else some (line, b :: reader)

/-- The continuation loop never gives lines back to the reader. -/
theorem forLoop_length (line : Str) (reader : List Str) (l : Str) (r : List Str)
    (h : forLoop line reader = some (l, r)) : r.length ≤ reader.length := by
  induction reader generalizing line with
  | nil =>
    simp only [forLoop, Option.map_eq_some'] at h
    obtain ⟨a, _, ha⟩ := h
    cases ha
    simp
  | cons b reader ih =>
    simp only [forLoop] at h
    split at h
    · cases h
    · split at h
      · have := ih _ h
        simp only [List.length_cons]
        omega
      · cases h
        simp

/-- The method `parseReader`, for any classifier in the place of `parseLine`: one
recursive call per physical line that starts a logical line or is blank. -/
def parseReaderWith {σ : Type} (classify : σ → Str → Option σ) (st : σ)
    (reader : List Str) : Option σ :=
  match reader with
  | [] => some st
  | b :: rest =>
    let line := TrimFunc IsSpace b
    if line.length > 0 then
      match h : forLoop line rest with
      | none => none
      | some (l, r) =>
        match classify st l with
        | none => none
        | some st1 => parseReaderWith classify st1 r
    else parseReaderWith classify st rest
termination_by reader.length
decreasing_by
  · have := forLoop_length _ _ _ _ h
    simp only [List.length_cons]
    omega
  · simp

/-- The method `parseReader`. -/
def parseReader (lower : Char → Char) (ini : QIni) (reader : List Str) : Option QIni :=
  parseReaderWith (parseLine lower) ini reader

/-- The logical lines that `parseReader` hands to its classifier, in order (`none`
when the continuation loop panics). -/
def logicalLines (reader : List Str) : Option (List Str) :=
  parseReaderWith (fun acc l => some (acc ++ [l])) [] reader

/-- The store that `Load` builds before it reads the file. -/
def initial : QIni :=
  ⟨"default".toList, fun s => if s = "default".toList then some (fun _ => none) else none⟩

/-- The function `Load`; `file` is `none` when the file cannot be opened, else the
lines of the file. -/
def Load (lower : Char → Char) (file : Option (List Str)) : Option QIni :=
  match file with
  | some reader => parseReader lower initial reader
  | none => some initial

/-- The method `GetValue`: the value and the error (`none` for the nil error). -/
def GetValue (lower : Char → Char) (ini : QIni) (sec key : Str) : Str × Option Str :=
  let notFound : Str × Option Str :=
    ([], some ("the section ".toList ++ sec ++ " not exists the key ".toList ++ key))
  match ini.data (ToLower lower sec) with
  | some s =>
    match s (ToLower lower key) with
    | some v => (v, none)
    | none => notFound
  | none => notFound

/-- The method `DefaultString`. -/
def DefaultString (lower : Char → Char) (ini : QIni) (sec key value : Str) : Str :=
  match GetValue lower ini sec key with
  | (v, none) => v
  | (_, some _) => value

/-- The method `DefaultBool`. -/
def DefaultBool (lower upper : Char → Char) (ini : QIni) (sec key : Str) (value : Bool) :
    Bool :=
  match GetValue lower ini sec key with
  | (v, none) =>
    let lowerStr := ToUpper upper v
    if lowerStr = "T".toList ∨ lowerStr = "TRUE".toList ∨ lowerStr = "Y".toList ∨
        lowerStr = "YES".toList ∨ lowerStr = "1".toList then true
    else false
  | (_, some _) => value

/-- The value of a decimal digit. -/
def digitVal (c : Char) : Option Nat :=
  if 48 ≤ c.toNat ∧ c.toNat ≤ 57 then some (c.toNat - 48) else none

/-- The digit loop of Go `strconv.ParseUint` in base 10, from the value `acc` read so
far: `none` on a rune that is not a decimal digit. -/
def parseDigits : Nat → Str → Option Nat
  | acc, [] => some acc
  | acc, c :: cs =>
    match digitVal c with
    | none => none
    | some d => parseDigits (acc * 10 + d) cs

/-- Go `strconv.ParseInt(s, 10, bitSize)`: `none` for a syntax or a range error. -/
def ParseInt (s : Str) (bitSize : Nat) : Option Int :=
  match s with
  | [] => none
  | c :: cs =>
    let neg : Bool := c = '-'
    let ds := if c = '+' ∨ c = '-' then cs else c :: cs
    match ds with
    | [] => none
    | _ :: _ =>
      match parseDigits 0 ds with
      | none => none
      | some un =>
        let cutoff := 2 ^ (bitSize - 1)
        if !neg && cutoff ≤ un then none
        else if neg && cutoff < un then none
        else some (if neg then -(un : Int) else (un : Int))

/-- Go `strconv.Atoi`, for an `int` of `intSize` bits. -/
def Atoi (intSize : Nat) (s : Str) : Option Int := ParseInt s intSize

/-- The method `DefaultInt`. -/
def DefaultInt (lower : Char → Char) (intSize : Nat) (ini : QIni) (sec key : Str)
    (value : Int) : Int :=
  match GetValue lower ini sec key with
  | (v, none) =>
    match Atoi intSize v with
    | some i => i
    | none => value
  | (_, some _) => value

/-- The method `DefaultInt64`. -/
def DefaultInt64 (lower : Char → Char) (ini : QIni) (sec key : Str) (value : Int) : Int :=
  match GetValue lower ini sec key with
  | (v, none) =>
    match ParseInt v 64 with
    | some i => i
    | none => value
  | (_, some _) => value

/-- The key and the value that the key-value branch of `parseLine` writes for `line`:
the four patterns tried in the order of the source; `none` when none of them matches. -/
def extractKV (line : Str) : Option (Str × Str) :=
  match FindAllStringSubmatch regDoubleQuote line with
  | some m => some (m.getD 1 [], m.getD 2 [])
  | none =>
  match FindAllStringSubmatch regSingleQuote line with
  | some m => some (m.getD 1 [], m.getD 2 [])
  | none =>
  match FindAllStringSubmatch regNoQuote line with
  | some m => some (m.getD 1 [], TrimFunc IsSpace (m.getD 2 []))
  | none =>
  match FindAllStringSubmatch regNoValue line with
  | some m => some (m.getD 1 [], [])
  | none => none

/-! ## The shape of a key-value line

The functions of this section read a line directly; `extractKV_eq_scan` below proves
that they compute what the four patterns extract. -/

/-- The key, the number of runes up to and including `=`, and the text after `=`. -/
def scanKey (line : Str) : Option (Str × Nat × Str) :=
  let K := line.takeWhile keyChar.accepts
  let T := line.dropWhile keyChar.accepts
  if K = [] then none
  else
    match T.dropWhile blank.accepts with
    | c :: R =>
      if c = '=' then some (K, K.length + (T.takeWhile blank.accepts).length + 1, R)
      else none
    | [] => none

/-- The tail `q([^q]*)q$` of the two quoted patterns, for the quote `q`. -/
def quotedTail (q : Char) : Regex :=
  .cat (.one (.lit q)) (.cat (.capture 2 (.star (.noneOf [q]))) (.cat (.one (.lit q)) .endText))

/-- The text between the quotes when the text `R` after `=` is, after blanks, exactly
a `q`, a run without `q`, and a closing `q`. -/
def quotedValue (q : Char) (R : Str) : Option Str :=
  match R.dropWhile blank.accepts with
  | c :: V =>
    if c = q ∧ V.dropWhile (CharClass.noneOf [q]).accepts = [q] then
      some (V.takeWhile (CharClass.noneOf [q]).accepts)
    else none
  | [] => none

/-- The text of group 2 of the unquoted pattern on the text `R` after `=`: the blanks
are skipped greedily, one blank is given back when no value rune follows them. -/
def noQuoteValue : Str → Option Str
  | [] => none
  | c :: cs =>
    if blank.accepts c then
      match noQuoteValue cs with
      | some v => some v
      | none => some ((c :: cs).takeWhile valueChar.accepts)
    else if valueChar.accepts c then some ((c :: cs).takeWhile valueChar.accepts)
    else none

/-- The value that the key-value branch extracts from the text `R` after `=`. -/
def scanValue (R : Str) : Str :=
  match quotedValue dquote R with
  | some v => v
  | none =>
  match quotedValue squote R with
  | some v => v
  | none =>
  match noQuoteValue R with
  | some v => TrimFunc IsSpace v
  | none => []

/-! ## Definitions on the side of the specification

`IntLiteral` says in the words of the specification what a base-10 integer literal
is and which number it denotes; `CursorOk` and `Canonical` are invariants of the store;
`IsComment`, `IsHeader` and `KeyValueLine` name the classes of lines; `cursorAfter` and
`NoRedeclare` follow the cursor through a document; `cutUnescaped` is the cut of an
unquoted value as the specification words it; `forLoopFuel` and `parseReaderFuel` are
the loop and the recursion of `parseReader` with a bound on the number of steps. -/

/-- The number that a run of decimal digits denotes (positional notation). -/
def decimalValue (ds : Str) : Nat :=
  Nat.ofDigits 10 ((ds.map (fun c => c.toNat - 48)).reverse)

/-- The text `s` is a base-10 integer literal that denotes `n`: an optional sign
followed by one or more decimal digits. -/
def IntLiteral (s : Str) (n : Int) : Prop :=
  ∃ ds : Str, ds ≠ [] ∧ (∀ c ∈ ds, 48 ≤ c.toNat ∧ c.toNat ≤ 57) ∧
    ((s = ds ∧ n = decimalValue ds) ∨ (s = '+' :: ds ∧ n = decimalValue ds) ∨
      (s = '-' :: ds ∧ n = -(decimalValue ds : Int)))

/-- The section under the cursor exists. -/
def CursorOk (ini : QIni) : Prop := ∃ m, ini.data ini.currSection = some m

/-- The line is a comment: its first rune is `;` or `#`. -/
abbrev IsComment (line : Str) : Prop := line.head? = some ';' ∨ line.head? = some '#'

/-- The line is a section header: its first rune is `[` and its last rune is `]`. -/
abbrev IsHeader (line : Str) : Prop := line.head? = some '[' ∧ line.getLast? = some ']'

/-- The line is classified as a key-value line with the key `K` and the extracted value
`v`: it is not empty, not a comment and not a header, and the first of the four
patterns that matches yields `K` and `v`. -/
def KeyValueLine (line K v : Str) : Prop :=
  line ≠ [] ∧ ¬ IsComment line ∧ ¬ IsHeader line ∧ extractKV line = some (K, v)

/-- Every section name and every key name of the store is its own lower-cased form. -/
def Canonical (lower : Char → Char) (ini : QIni) : Prop :=
  ∀ s m, ini.data s = some m →
    ToLower lower s = s ∧ ∀ k v, m k = some v → ToLower lower k = k

/-- The cursor after a non-empty line is parsed, from the cursor before: a header moves
it to the lower-cased trimmed interior, any other line leaves it. -/
def cursorAfter (lower : Char → Char) (cur : Str) (line : Str) : Str :=
  if IsHeader line then ToLower lower (TrimFunc IsSpace line.tail.dropLast) else cur

/-- No line of `lines` re-declares the key `K` while the current section is `default`,
when the cursor is `cur` before the first of them. -/
def NoRedeclare (lower : Char → Char) (K : Str) : Str → List Str → Prop
  | _, [] => True
  | cur, x :: xs =>
    ¬ (cur = "default".toList ∧
        ∃ K1 v1, KeyValueLine x K1 v1 ∧ ToLower lower K1 = ToLower lower K) ∧
      NoRedeclare lower K (cursorAfter lower cur x) xs

/-- The text up to, and not including, the first unescaped `#` or `;`, in the words of
the specification: a marker is escaped when the rune just before it is the backslash
(`escaped` tells whether the rune before the text was a backslash). -/
def cutUnescapedFrom (escaped : Bool) : Str → Str
  | [] => []
  | c :: rest =>
    if (c = '#' ∨ c = ';') ∧ escaped = false then []
    else c :: cutUnescapedFrom (decide (c = backslash)) rest

/-- The text up to the first unescaped `#` or `;`. -/
def cutUnescaped (R : Str) : Str := cutUnescapedFrom false R

/-- The number of runes still to be handled by the continuation loop: those of the
accumulated line and, for each physical line left, its trimmed text and the step that
reads it. -/
def loopMeasure (line : Str) (reader : List Str) : Nat :=
  line.length + (reader.map (fun b => (TrimFunc IsSpace b).length + 1)).sum

/-- The continuation loop of `parseReader` as written in the source, one test of the
condition per unit of `fuel`: the outer `none` means that the fuel ran out, `some none`
that the test of the last rune panicked. -/
def forLoopFuel : Nat → Str → List Str → Option (Option (Str × List Str))
  | 0, _, _ => none
  | fuel + 1, line, reader =>
    match line.getLast? with
    | none => some none
    | some c =>
      if c = backslash then
        match reader with
        | b :: rest => forLoopFuel fuel (line.dropLast ++ TrimFunc IsSpace b) rest
        | [] => forLoopFuel fuel line.dropLast []
      else some (some (line, reader))

/-- The recursion of `parseReader` with one call per unit of `fuel`; the outer `none`
means that the fuel ran out. -/
def parseReaderFuel {σ : Type} (classify : σ → Str → Option σ) :
    Nat → σ → List Str → Option (Option σ)
  | 0, _, _ => none
  | _ + 1, st, [] => some (some st)
  | fuel + 1, st, b :: rest =>
    if (TrimFunc IsSpace b).length > 0 then
      match forLoop (TrimFunc IsSpace b) rest with
      | none => some none
      | some (l, r) =>
        match classify st l with
        | none => some none
        | some st1 => parseReaderFuel classify fuel st1 r
    else parseReaderFuel classify fuel st rest

/-! ## Basic facts -/

theorem parseReaderWith_nil {σ : Type} (f : σ → Str → Option σ) (st : σ) :
    parseReaderWith f st [] = some st := by
  rw [parseReaderWith]

theorem parseReaderWith_cons {σ : Type} (f : σ → Str → Option σ) (st : σ) (b : Str)
    (rest : List Str) :
    parseReaderWith f st (b :: rest) =
      if (TrimFunc IsSpace b).length > 0 then
        match forLoop (TrimFunc IsSpace b) rest with
        | none => none
        | some (l, r) =>
          match f st l with
          | none => none
          | some st1 => parseReaderWith f st1 r
      else parseReaderWith f st rest := by
  rw [parseReaderWith]
  split
  · split <;> simp_all
  · rfl

theorem parseReaderWith_blank {σ : Type} (f : σ → Str → Option σ) (st : σ) (b : Str)
    (rest : List Str) (hb : TrimFunc IsSpace b = []) :
    parseReaderWith f st (b :: rest) = parseReaderWith f st rest := by
  rw [parseReaderWith_cons, hb]
  simp

theorem parseReaderWith_line {σ : Type} (f : σ → Str → Option σ) (st : σ) (b : Str)
    (rest : List Str) (l : Str) (r : List Str) (hne : TrimFunc IsSpace b ≠ [])
    (hl : forLoop (TrimFunc IsSpace b) rest = some (l, r)) :
    parseReaderWith f st (b :: rest) =
      (f st l).bind (fun st1 => parseReaderWith f st1 r) := by
  rw [parseReaderWith_cons, hl, if_pos (List.length_pos.mpr hne)]
  cases hf : f st l <;> simp [hf]

theorem parseReaderWith_panic {σ : Type} (f : σ → Str → Option σ) (st : σ) (b : Str)
    (rest : List Str) (hne : TrimFunc IsSpace b ≠ [])
    (hl : forLoop (TrimFunc IsSpace b) rest = none) :
    parseReaderWith f st (b :: rest) = none := by
  rw [parseReaderWith_cons, hl, if_pos (List.length_pos.mpr hne)]

theorem ToLower_ascii (lower : Char → Char)
    (hascii : ∀ c : Char, c.toNat < 128 → lower c = c.toLower) (s : Str)
    (hs : ∀ c ∈ s, c.toNat < 128) : ToLower lower s = s.map Char.toLower := by
  unfold ToLower
  exact List.map_congr_left (fun c hc => hascii c (hs c hc))

theorem parseLine_comment (lower : Char → Char) (ini : QIni) (c : Char) (cs : Str)
    (h : c = ';' ∨ c = '#') : parseLine lower ini (c :: cs) = some ini := by
  have hl : (c :: cs).getLast? = some ((c :: cs).getLast (by simp)) :=
    List.getLast?_eq_getLast _ _
  simp only [parseLine, List.head?_cons, hl, if_pos h]

theorem parseLine_header (lower : Char → Char) (ini : QIni) (line : Str)
    (h1 : line.head? = some '[') (h2 : line.getLast? = some ']') :
    parseLine lower ini line =
      some (addSection lower ini (TrimFunc IsSpace line.tail.dropLast)) := by
  simp [parseLine, h1, h2]

theorem parseLine_keyValue (lower : Char → Char) (ini : QIni) (line : Str) (first : Char)
    (h1 : line.head? = some first) (hc : ¬ (first = ';' ∨ first = '#'))
    (hh : ¬ (first = '[' ∧ line.getLast? = some ']')) :
    parseLine lower ini line =
      match extractKV line with
      | some (k, v) => addValue lower ini k v
      | none => some ini := by
  obtain ⟨last, hlast⟩ : ∃ last, line.getLast? = some last := by
    cases line with
    | nil => simp at h1
    | cons c cs => exact ⟨_, List.getLast?_eq_getLast _ (by simp)⟩
  have hh2 : ¬ (first = '[' ∧ last = ']') := by
    rintro ⟨a, b⟩
    exact hh ⟨a, by rw [hlast, b]⟩
  simp only [parseLine, h1, hlast, if_neg hc, if_neg hh2, extractKV]
  cases FindAllStringSubmatch regDoubleQuote line with
  | some m => rfl
  | none =>
    cases FindAllStringSubmatch regSingleQuote line with
    | some m => rfl
    | none =>
      cases FindAllStringSubmatch regNoQuote line with
      | some m => rfl
      | none =>
        cases FindAllStringSubmatch regNoValue line with
        | some m => rfl
        | none => rfl

theorem addSection_currSection (lower : Char → Char) (ini : QIni) (sec : Str) :
    (addSection lower ini sec).currSection = ToLower lower sec := by
  simp only [addSection]
  split <;> rfl

theorem addSection_data_curr (lower : Char → Char) (ini : QIni) (sec : Str) :
    ∃ m, (addSection lower ini sec).data (ToLower lower sec) = some m := by
  simp only [addSection]
  split
  · next m h => exact ⟨m, h⟩
  · exact ⟨fun _ => none, by simp⟩

theorem addValue_eq_some (lower : Char → Char) (ini : QIni) (key value : Str) (m : Section)
    (hm : ini.data ini.currSection = some m) :
    ∃ ini1, addValue lower ini key value = some ini1 ∧
      ini1.currSection = ini.currSection ∧
      ini1.data ini.currSection =
        some (fun k => if k = ToLower lower key then some value else m k) ∧
      ∀ s, s ≠ ini.currSection → ini1.data s = ini.data s := by
  refine ⟨⟨ini.currSection, fun s =>
      if s = ini.currSection then
        some (fun k => if k = ToLower lower key then some value else m k)
      else ini.data s⟩, by simp only [addValue, hm], rfl, by simp, ?_⟩
  intro s hs
  simp [hs]

theorem GetValue_found (lower : Char → Char) (ini : QIni) (sec key : Str) (m : Section)
    (v : Str) (hm : ini.data (ToLower lower sec) = some m)
    (hv : m (ToLower lower key) = some v) : GetValue lower ini sec key = (v, none) := by
  simp only [GetValue, hm, hv]

theorem GetValue_no_section (lower : Char → Char) (ini : QIni) (sec key : Str)
    (hm : ini.data (ToLower lower sec) = none) :
    GetValue lower ini sec key =
      ([], some ("the section ".toList ++ sec ++ " not exists the key ".toList ++ key)) := by
  simp only [GetValue, hm]

theorem GetValue_no_key (lower : Char → Char) (ini : QIni) (sec key : Str) (m : Section)
    (hm : ini.data (ToLower lower sec) = some m) (hv : m (ToLower lower key) = none) :
    GetValue lower ini sec key =
      ([], some ("the section ".toList ++ sec ++ " not exists the key ".toList ++ key)) := by
  simp only [GetValue, hm, hv]

theorem ToLower_ascii_eq (lower : Char → Char)
    (hascii : ∀ c : Char, c.toNat < 128 → lower c = c.toLower) (s t : Str)
    (hs : ∀ c ∈ s, c.toNat < 128) (ht : s.map Char.toLower = t) : ToLower lower s = t := by
  rw [← ht]
  exact List.map_congr_left (fun c hc => hascii c (hs c hc))

theorem GetValue_after_addValue (lower : Char → Char) (ini ini1 : QIni) (key value : Str)
    (h : addValue lower ini key value = some ini1) (sec key1 : Str)
    (hs : ToLower lower sec = ini.currSection)
    (hk : ToLower lower key1 = ToLower lower key) :
    GetValue lower ini1 sec key1 = (value, none) := by
  unfold addValue at h
  cases hm : ini.data ini.currSection with
  | none => simp [hm] at h
  | some m =>
    simp only [hm, Option.some.injEq] at h
    subst h
    apply GetValue_found lower _ sec key1
      (fun k => if k = ToLower lower key then some value else m k) value
    · simp only [hs, if_true]
    · simp only [hk, if_true]

theorem addValue_after_addSection (lower : Char → Char) (ini : QIni) (sec key value : Str) :
    ∃ ini1, addValue lower (addSection lower ini sec) key value = some ini1 := by
  obtain ⟨m, hm⟩ := addSection_data_curr lower ini sec
  rw [← addSection_currSection lower ini sec] at hm
  obtain ⟨ini1, h, _⟩ := addValue_eq_some lower _ key value m hm
  exact ⟨ini1, h⟩

theorem initial_data_curr : initial.data initial.currSection = some (fun _ => none) := by
  simp [initial]

theorem eofLoop_stop (c : Char) (r : Str) (hc : c ≠ backslash) :
    eofLoop (c :: r) = some (c :: r).reverse := by
  simp only [eofLoop, if_neg hc]

theorem forLoop_stop (line : Str) (reader : List Str) (hne : line ≠ [])
    (hlast : line.getLast? ≠ some backslash) : forLoop line reader = some (line, reader) := by
  obtain ⟨c, hc⟩ : ∃ c, line.getLast? = some c :=
    ⟨_, List.getLast?_eq_getLast line hne⟩
  have hcb : c ≠ backslash := fun e => hlast (e ▸ hc)
  cases reader with
  | nil =>
    have hrev : line.reverse = c :: line.dropLast.reverse := by
      have := List.dropLast_append_getLast? c hc
      rw [← this]
      simp
    simp only [forLoop, hrev, eofLoop_stop c _ hcb, Option.map_some']
    rw [← hrev, List.reverse_reverse]
  | cons b reader => simp only [forLoop, hc, if_neg hcb]

theorem forLoop_continue (L : Str) (b : Str) (reader : List Str) :
    forLoop (L ++ [backslash]) (b :: reader) = forLoop (L ++ TrimFunc IsSpace b) reader := by
  simp only [forLoop, List.getLast?_concat, if_true, List.dropLast_concat]

/-- Reading with the recording classifier from the lines `acc` already recorded. -/
theorem parseReaderWith_record (reader : List Str) (acc : List Str) :
    parseReaderWith (fun acc l => some (acc ++ [l])) acc reader =
      (logicalLines reader).map (fun ls => acc ++ ls) := by
  unfold logicalLines
  suffices H : ∀ (n : Nat) (reader : List Str), reader.length ≤ n → ∀ acc : List Str,
      parseReaderWith (fun acc l => some (acc ++ [l])) acc reader =
        (parseReaderWith (fun acc l => some (acc ++ [l])) [] reader).map
          (fun ls => acc ++ ls) from H _ reader le_rfl acc
  intro n
  induction n with
  | zero =>
    intro reader h acc
    have : reader = [] := List.length_eq_zero.mp (Nat.le_zero.mp h)
    subst this
    simp [parseReaderWith_nil]
  | succ n ih =>
    intro reader h acc
    cases reader with
    | nil => simp [parseReaderWith_nil]
    | cons b rest =>
      have hrest : rest.length ≤ n := by
        rw [List.length_cons] at h
        omega
      rw [parseReaderWith_cons, parseReaderWith_cons]
      split
      · cases hf : forLoop (TrimFunc IsSpace b) rest with
        | none => rfl
        | some p =>
          obtain ⟨l, r⟩ := p
          have hr := forLoop_length _ _ _ _ hf
          simp only [List.nil_append]
          rw [ih r (hr.trans hrest) (acc ++ [l]), ih r (hr.trans hrest) [l]]
          cases parseReaderWith (fun acc l => some (acc ++ [l])) [] r <;> simp
      · exact ih rest hrest acc

/-- A physical line that ends in the marker and starts a logical line is joined with
the next physical line when that one is not blank and does not end in the marker. -/
theorem parseReaderWith_join {σ : Type} (f : σ → Str → Option σ) (st : σ) (b c : Str)
    (post : List Str) (L M : Str) (hb : TrimFunc IsSpace b = L ++ [backslash])
    (hc : TrimFunc IsSpace c = M) (hM : M ≠ []) (hlast : M.getLast? ≠ some backslash) :
    parseReaderWith f st (b :: c :: post) =
      (f st (L ++ M)).bind (fun st1 => parseReaderWith f st1 post) := by
  apply parseReaderWith_line f st b (c :: post) (L ++ M) post
  · rw [hb]
    simp
  · rw [hb, forLoop_continue, hc]
    apply forLoop_stop
    · simp [hM]
    · rw [List.getLast?_append_of_ne_nil _ hM]
      exact hlast

/-! ## Facts about the matcher -/



theorem starFrom_flatMap_commit (a : CharClass) (f : MState → List MState)
    (hf : ∀ pos c cs caps, a.accepts c = true → f ⟨pos, c :: cs, caps⟩ = [])
    (caps : List (Nat × Str)) (pos : Nat) (rest : Str) :
    (starFrom a caps pos rest).flatMap f =
      f ⟨pos + (rest.takeWhile a.accepts).length, rest.dropWhile a.accepts, caps⟩ := by
  induction rest generalizing pos with
  | nil => simp [starFrom]
  | cons c cs ih =>
    by_cases h : a.accepts c = true
    · simp only [starFrom, h, if_true, List.flatMap_append, ih, List.takeWhile_cons_of_pos,
        List.dropWhile_cons_of_pos, List.length_cons, List.flatMap_cons, List.flatMap_nil,
        hf pos c cs caps h, List.append_nil]
      congr 2
      omega
    · simp [starFrom, h]

theorem starFrom_head (a : CharClass) (caps : List (Nat × Str)) (pos : Nat) (rest : Str) :
    ∃ tl, starFrom a caps pos rest =
      ⟨pos + (rest.takeWhile a.accepts).length, rest.dropWhile a.accepts, caps⟩ :: tl := by
  induction rest generalizing pos with
  | nil => exact ⟨[], by simp [starFrom]⟩
  | cons c cs ih =>
    by_cases h : a.accepts c = true
    · obtain ⟨tl, htl⟩ := ih (pos + 1)
      refine ⟨tl ++ [⟨pos, c :: cs, caps⟩], ?_⟩
      simp only [starFrom, h, if_true, htl, List.takeWhile_cons_of_pos,
        List.dropWhile_cons_of_pos, List.length_cons, List.cons_append]
      congr 2
      omega
    · exact ⟨[], by simp [starFrom, h]⟩

theorem starFrom_caps (a : CharClass) (caps : List (Nat × Str)) (pos : Nat) (rest : Str) :
    ∀ st ∈ starFrom a caps pos rest, st.caps = caps := by
  induction rest generalizing pos with
  | nil => simp [starFrom]
  | cons c cs ih =>
    by_cases h : a.accepts c = true
    · intro st hst
      simp only [starFrom, h, if_true, List.mem_append, List.mem_singleton] at hst
      rcases hst with hst | hst
      · exact ih _ st hst
      · rw [hst]
    · simp [starFrom, h]

theorem take_length_takeWhile (p : Char → Bool) (l : Str) :
    l.take (l.takeWhile p).length = l.takeWhile p := by
  have h : (l.takeWhile p ++ l.dropWhile p).take (l.takeWhile p).length = l.takeWhile p :=
    List.take_left _ _
  rwa [List.takeWhile_append_dropWhile] at h

theorem keyChar_not_blank (c : Char) (h : keyChar.accepts c = true) :
    blank.accepts c = false ∧ c ≠ '=' := by
  simp only [keyChar, blank, CharClass.accepts, List.contains_eq_any_beq, List.any_cons,
    List.any_nil, Bool.or_false, Bool.not_eq_true', Bool.or_eq_false_iff, beq_eq_false_iff_ne,
    ne_eq] at h ⊢
  tauto

theorem blank_ne (c : Char) (h : blank.accepts c = true) :
    c ≠ '=' ∧ c ≠ dquote ∧ c ≠ squote ∧ valueChar.accepts c = true ∧ IsSpace c = true := by
  simp only [blank, CharClass.accepts, List.contains_eq_any_beq, List.any_cons,
    List.any_nil, Bool.or_false, Bool.or_eq_true, beq_iff_eq] at h
  rcases h with h | h <;> subst h <;> decide

theorem run_one_eq_nil_of_ne (a : CharClass) (s : Regex) (pos : Nat) (c : Char) (cs : Str)
    (caps : List (Nat × Str)) (h : a.accepts c = false) :
    (Regex.cat (.one a) s).run ⟨pos, c :: cs, caps⟩ = [] := by
  simp [Regex.run, h]

theorem run_star_cat_commit (a : CharClass) (s : Regex)
    (hs : ∀ pos c cs caps, a.accepts c = true → s.run ⟨pos, c :: cs, caps⟩ = [])
    (pos : Nat) (rest : Str) (caps : List (Nat × Str)) :
    (Regex.cat (.star a) s).run ⟨pos, rest, caps⟩ =
      s.run ⟨pos + (rest.takeWhile a.accepts).length, rest.dropWhile a.accepts, caps⟩ := by
  simp only [Regex.run]
  exact starFrom_flatMap_commit a (fun st1 => s.run st1) hs caps pos rest

theorem run_keyEquals (tl : Regex) (line : Str) :
    (keyEquals tl).run ⟨0, line, []⟩ =
      match scanKey line with
      | none => []
      | some (K, n, R) => (Regex.cat (.star blank) tl).run ⟨n, R, [(1, K)]⟩ := by
  have hY : ∀ (pos : Nat) (c : Char) (cs : Str) (caps : List (Nat × Str)),
      blank.accepts c = true →
      (Regex.cat (.one (.lit '=')) (.cat (.star blank) tl)).run ⟨pos, c :: cs, caps⟩ = [] := by
    intro pos c cs caps h
    apply run_one_eq_nil_of_ne
    simp [CharClass.accepts, (blank_ne c h).1]
  have hX : ∀ (pos : Nat) (c : Char) (cs : Str) (caps : List (Nat × Str)),
      keyChar.accepts c = true →
      (Regex.cat (.star blank) (.cat (.one (.lit '=')) (.cat (.star blank) tl))).run
        ⟨pos, c :: cs, caps⟩ = [] := by
    intro pos c cs caps h
    rw [run_star_cat_commit blank _ hY]
    have hb := (keyChar_not_blank c h).1
    simp only [List.takeWhile_cons, hb, List.dropWhile_cons]
    apply run_one_eq_nil_of_ne
    simp [CharClass.accepts, (keyChar_not_blank c h).2]
  cases line with
  | nil => simp [keyEquals, Regex.run, scanKey]
  | cons c cs =>
    by_cases h : keyChar.accepts c = true
    · have hflat := starFrom_flatMap_commit keyChar
        (fun st1 => (Regex.cat (.star blank) (.cat (.one (.lit '=')) (.cat (.star blank) tl))).run
          ⟨st1.pos, st1.rest, (1, (c :: cs).take (st1.pos - 0)) :: st1.caps⟩)
        (fun pos c1 cs1 caps hc => hX pos c1 cs1 _ hc) [] 1 cs
      have hrun : (keyEquals tl).run ⟨0, c :: cs, []⟩ =
          (Regex.cat (.star blank) (.cat (.one (.lit '=')) (.cat (.star blank) tl))).run
            ⟨1 + (cs.takeWhile keyChar.accepts).length, cs.dropWhile keyChar.accepts,
              [(1, (c :: cs).take (1 + (cs.takeWhile keyChar.accepts).length - 0))]⟩ := by
        rw [← hflat]
        simp [keyEquals, Regex.run, h, List.flatMap_map]
      rw [hrun, run_star_cat_commit blank _ hY]
      have htake : (c :: cs).take (1 + (cs.takeWhile keyChar.accepts).length - 0)
          = c :: cs.takeWhile keyChar.accepts := by
        rw [Nat.sub_zero, Nat.add_comm, List.take_succ_cons, take_length_takeWhile]
      simp only [scanKey, List.takeWhile_cons_of_pos h, List.dropWhile_cons_of_pos h, htake]
      rw [if_neg (by simp)]
      cases hT : List.dropWhile blank.accepts (List.dropWhile keyChar.accepts cs) with
      | nil => simp [Regex.run]
      | cons d R =>
        by_cases hd : d = '='
        · subst hd
          simp [Regex.run, CharClass.accepts, List.length_cons, Nat.add_comm, Nat.add_left_comm]
        · simp [Regex.run, CharClass.accepts, hd]
    · simp [keyEquals, Regex.run, scanKey, h]

theorem regDoubleQuote_eq : regDoubleQuote = keyEquals (quotedTail dquote) := rfl

theorem regSingleQuote_eq : regSingleQuote = keyEquals (quotedTail squote) := rfl

theorem run_quoted (q : Char) (hq : blank.accepts q = false) (n : Nat) (R : Str)
    (caps : List (Nat × Str)) :
    ((Regex.cat (.star blank) (quotedTail q)).run ⟨n, R, caps⟩).map (fun st => st.caps) =
      match quotedValue q R with
      | some v => [(2, v) :: caps]
      | none => [] := by
  have hs : ∀ (pos : Nat) (c : Char) (cs : Str) (caps : List (Nat × Str)),
      blank.accepts c = true → (quotedTail q).run ⟨pos, c :: cs, caps⟩ = [] := by
    intro pos c cs caps h
    apply run_one_eq_nil_of_ne
    have : c ≠ q := fun e => by rw [e, hq] at h; exact Bool.noConfusion h
    simp [CharClass.accepts, this]
  have hclose : ∀ (pos : Nat) (c : Char) (cs : Str) (caps : List (Nat × Str)),
      (CharClass.noneOf [q]).accepts c = true →
      (Regex.cat (.one (.lit q)) .endText).run ⟨pos, c :: cs, caps⟩ = [] := by
    intro pos c cs caps h
    apply run_one_eq_nil_of_ne
    simpa [CharClass.accepts] using h
  rw [run_star_cat_commit blank _ hs]
  unfold quotedValue
  cases R.dropWhile blank.accepts with
  | nil => simp [quotedTail, Regex.run]
  | cons c V =>
    by_cases hc : c = q
    · subst hc
      have hflat := starFrom_flatMap_commit (.noneOf [c])
        (fun st1 => (Regex.cat (.one (.lit c)) .endText).run
          ⟨st1.pos, st1.rest,
            (2, V.take (st1.pos - (n + (R.takeWhile blank.accepts).length + 1))) :: st1.caps⟩)
        (fun pos c1 cs1 caps hc => hclose pos c1 cs1 _ hc) caps
        (n + (R.takeWhile blank.accepts).length + 1) V
      have hrun : (quotedTail c).run ⟨n + (R.takeWhile blank.accepts).length, c :: V, caps⟩ =
          (Regex.cat (.one (.lit c)) .endText).run
            ⟨n + (R.takeWhile blank.accepts).length + 1
                + (V.takeWhile (CharClass.noneOf [c]).accepts).length,
              V.dropWhile (CharClass.noneOf [c]).accepts,
              (2, V.take (n + (R.takeWhile blank.accepts).length + 1
                + (V.takeWhile (CharClass.noneOf [c]).accepts).length
                - (n + (R.takeWhile blank.accepts).length + 1))) :: caps⟩ := by
        rw [← hflat]
        simp [quotedTail, Regex.run, CharClass.accepts, List.flatMap_map]
      rw [hrun, Nat.add_sub_cancel_left, take_length_takeWhile]
      cases hV : V.dropWhile (CharClass.noneOf [c]).accepts with
      | nil => simp [Regex.run, hV]
      | cons d E =>
        by_cases hd : d = c
        · subst hd
          cases E with
          | nil => simp [Regex.run, CharClass.accepts, hV]
          | cons e E => simp [Regex.run, CharClass.accepts, hV]
        · simp [Regex.run, CharClass.accepts, hd, hV]
    · simp [quotedTail, Regex.run, CharClass.accepts, hc]

theorem run_capture_plus_head (a : CharClass) (i : Nat) (p : Nat) (r : Str)
    (caps : List (Nat × Str)) :
    ((Regex.capture i (.plus a)).run ⟨p, r, caps⟩).head?.map (fun st => st.caps) =
      match r with
      | c :: cs => if a.accepts c then some ((i, (c :: cs).takeWhile a.accepts) :: caps) else none
      | [] => none := by
  cases r with
  | nil => simp [Regex.run]
  | cons c cs =>
    by_cases h : a.accepts c = true
    · obtain ⟨tl, htl⟩ := starFrom_head a caps (p + 1) cs
      have htake : (c :: cs).take (p + 1 + (cs.takeWhile a.accepts).length - p)
          = c :: cs.takeWhile a.accepts := by
        have : p + 1 + (cs.takeWhile a.accepts).length - p
            = (cs.takeWhile a.accepts).length + 1 := by omega
        rw [this, List.take_succ_cons, take_length_takeWhile]
      simp [Regex.run, h, htl, htake]
    · simp [Regex.run, h]

theorem run_star_cat_nil (a : CharClass) (s : Regex) (pos : Nat) (caps : List (Nat × Str)) :
    (Regex.cat (.star a) s).run ⟨pos, [], caps⟩ = s.run ⟨pos, [], caps⟩ := by
  simp [Regex.run, starFrom]

theorem run_star_cat_reject (a : CharClass) (s : Regex) (pos : Nat) (c : Char) (cs : Str)
    (caps : List (Nat × Str)) (h : a.accepts c = false) :
    (Regex.cat (.star a) s).run ⟨pos, c :: cs, caps⟩ = s.run ⟨pos, c :: cs, caps⟩ := by
  simp [Regex.run, starFrom, h]

theorem run_star_cat_accept (a : CharClass) (s : Regex) (pos : Nat) (c : Char) (cs : Str)
    (caps : List (Nat × Str)) (h : a.accepts c = true) :
    (Regex.cat (.star a) s).run ⟨pos, c :: cs, caps⟩ =
      (Regex.cat (.star a) s).run ⟨pos + 1, cs, caps⟩ ++ s.run ⟨pos, c :: cs, caps⟩ := by
  simp [Regex.run, starFrom, h]

theorem run_noQuote (n : Nat) (R : Str) (caps : List (Nat × Str)) :
    ((Regex.cat (.star blank) (.capture 2 (.plus valueChar))).run ⟨n, R, caps⟩).head?.map
        (fun st => st.caps) =
      (noQuoteValue R).map (fun v => (2, v) :: caps) := by
  induction R generalizing n with
  | nil =>
    rw [run_star_cat_nil, run_capture_plus_head]
    rfl
  | cons c cs ih =>
    have hG := run_capture_plus_head valueChar 2 n (c :: cs) caps
    by_cases hb : blank.accepts c = true
    · have hv := (blank_ne c hb).2.2.2.1
      have ih1 := ih (n + 1)
      simp only [hv, if_true] at hG
      rw [run_star_cat_accept _ _ _ _ _ _ hb, List.head?_append]
      simp only [noQuoteValue, hb, if_true]
      cases hq : noQuoteValue cs with
      | some v =>
        rw [hq] at ih1
        cases hX : ((Regex.cat (.star blank) (.capture 2 (.plus valueChar))).run
            ⟨n + 1, cs, caps⟩).head? with
        | none => simp [hX] at ih1
        | some st =>
          rw [hX] at ih1
          simpa using ih1
      | none =>
        rw [hq] at ih1
        cases hX : ((Regex.cat (.star blank) (.capture 2 (.plus valueChar))).run
            ⟨n + 1, cs, caps⟩).head? with
        | none =>
          simp only [Option.none_or, Option.map_some']
          exact hG
        | some st => simp [hX] at ih1
    · have hb1 : blank.accepts c = false := by simpa using hb
      rw [run_star_cat_reject _ _ _ _ _ _ hb1, hG]
      by_cases hv : valueChar.accepts c = true
      · simp [noQuoteValue, hb1, hv]
      · simp [noQuoteValue, hb1, hv]

theorem noQuoteValue_trim (R : Str) :
    (match noQuoteValue R with
      | some v => TrimFunc IsSpace v
      | none => []) = TrimFunc IsSpace (R.takeWhile valueChar.accepts) := by
  induction R with
  | nil => simp [noQuoteValue, TrimFunc, List.rdropWhile]
  | cons c cs ih =>
    by_cases hb : blank.accepts c = true
    · have hv := (blank_ne c hb).2.2.2.1
      have hs := (blank_ne c hb).2.2.2.2
      have hdrop : TrimFunc IsSpace ((c :: cs).takeWhile valueChar.accepts)
          = TrimFunc IsSpace (cs.takeWhile valueChar.accepts) := by
        simp [TrimFunc, hv, hs]
      simp only [noQuoteValue, hb, if_true]
      cases hq : noQuoteValue cs with
      | some v =>
        rw [hq] at ih
        simp only [hdrop]
        exact ih
      | none => rfl
    · by_cases hv : valueChar.accepts c = true
      · simp [noQuoteValue, hb, hv]
      · simp [noQuoteValue, hb, hv, TrimFunc, List.rdropWhile]

theorem run_noValue (n : Nat) (R : Str) (caps : List (Nat × Str)) :
    ∃ st tl, (Regex.cat (.star blank)
        (.quest (.capture 2 (.cat (.one (.oneOf ['#', ';'])) (.star .anyCharNotNL))))).run
        ⟨n, R, caps⟩ = st :: tl ∧ st.caps.lookup 1 = caps.lookup 1 := by
  have hq : ∀ (p : Nat) (r : Str), ∃ st tl,
      (Regex.quest (.capture 2 (.cat (.one (.oneOf ['#', ';'])) (.star .anyCharNotNL)))).run
        ⟨p, r, caps⟩ = st :: tl ∧ st.caps.lookup 1 = caps.lookup 1 := by
    intro p r
    cases r with
    | nil => exact ⟨⟨p, [], caps⟩, [], by simp [Regex.run], rfl⟩
    | cons c cs =>
      by_cases hc : (CharClass.oneOf ['#', ';']).accepts c = true
      · obtain ⟨tl, htl⟩ := starFrom_head .anyCharNotNL caps (p + 1) cs
        refine ⟨_, _, by simp only [Regex.run, hc, if_true, List.flatMap_cons,
          List.flatMap_nil, List.append_nil, htl, List.map_cons, List.cons_append]; rfl, ?_⟩
        simp [List.lookup]
      · exact ⟨⟨p, c :: cs, caps⟩, [], by simp [Regex.run, hc], rfl⟩
  induction R generalizing n with
  | nil =>
    rw [run_star_cat_nil]
    exact hq n []
  | cons c cs ih =>
    by_cases hb : blank.accepts c = true
    · rw [run_star_cat_accept _ _ _ _ _ _ hb]
      obtain ⟨st, tl, h1, h2⟩ := ih (n + 1)
      exact ⟨st, tl ++ _, by rw [h1]; rfl, h2⟩
    · have hb1 : blank.accepts c = false := by simpa using hb
      rw [run_star_cat_reject _ _ _ _ _ _ hb1]
      exact hq n (c :: cs)

theorem FindAllStringSubmatch_groups (re : Regex) (s : Str) :
    (FindAllStringSubmatch re s).map (fun m => (m.getD 1 [], m.getD 2 [])) =
      ((re.run ⟨0, s, []⟩).head?.map (fun st => st.caps)).map
        (fun c => ((c.lookup 1).getD [], (c.lookup 2).getD [])) := by
  unfold FindAllStringSubmatch
  cases re.run ⟨0, s, []⟩ <;> simp

theorem groups_quoted (q : Char) (hq : blank.accepts q = false) (line : Str) :
    (FindAllStringSubmatch (keyEquals (quotedTail q)) line).map
        (fun m => (m.getD 1 [], m.getD 2 [])) =
      match scanKey line with
      | none => none
      | some (K, _, R) => (quotedValue q R).map (fun v => (K, v)) := by
  rw [FindAllStringSubmatch_groups, run_keyEquals]
  cases scanKey line with
  | none => rfl
  | some p =>
    obtain ⟨K, n, R⟩ := p
    have h := run_quoted q hq n R [(1, K)]
    simp only [← List.head?_map, h]
    cases quotedValue q R <;> simp [List.lookup]

theorem groups_noQuote (line : Str) :
    (FindAllStringSubmatch regNoQuote line).map (fun m => (m.getD 1 [], m.getD 2 [])) =
      match scanKey line with
      | none => none
      | some (K, _, R) => (noQuoteValue R).map (fun v => (K, v)) := by
  rw [FindAllStringSubmatch_groups, regNoQuote, run_keyEquals]
  cases scanKey line with
  | none => rfl
  | some p =>
    obtain ⟨K, n, R⟩ := p
    simp only [run_noQuote]
    cases noQuoteValue R <;> simp [List.lookup]

theorem groups_noValue (line : Str) :
    (FindAllStringSubmatch regNoValue line).map (fun m => m.getD 1 []) =
      (scanKey line).map (fun p => p.1) := by
  have h := FindAllStringSubmatch_groups regNoValue line
  have h1 : (FindAllStringSubmatch regNoValue line).map (fun m => m.getD 1 []) =
      ((FindAllStringSubmatch regNoValue line).map
        (fun m => (m.getD 1 [], m.getD 2 []))).map Prod.fst := by
    simp [Function.comp_def]
  rw [h1, h, regNoValue, run_keyEquals]
  cases scanKey line with
  | none => rfl
  | some p =>
    obtain ⟨K, n, R⟩ := p
    obtain ⟨st, tl, h1, h2⟩ := run_noValue n R [(1, K)]
    simp [h1, h2, List.lookup]

theorem extractKV_eq_scan (line : Str) :
    extractKV line =
      match scanKey line with
      | none => none
      | some (K, _, R) => some (K, scanValue R) := by
  have hd := groups_quoted dquote (by decide) line
  have hs := groups_quoted squote (by decide) line
  have hn := groups_noQuote line
  have hv := groups_noValue line
  rw [← regDoubleQuote_eq] at hd
  rw [← regSingleQuote_eq] at hs
  unfold extractKV scanValue
  cases hk : scanKey line with
  | none =>
    rw [hk] at hd hs hn hv
    simp only [Option.map_eq_none', Option.map_none'] at hd hs hn hv
    simp [hd, hs, hn, hv]
  | some p =>
    obtain ⟨K, n, R⟩ := p
    rw [hk] at hd hs hn hv
    simp only at hd hs hn hv
    cases h1 : FindAllStringSubmatch regDoubleQuote line with
    | some m =>
      rw [h1] at hd
      cases h1q : quotedValue dquote R with
      | none => simp [h1q] at hd
      | some v => simp_all
    | none =>
      rw [h1] at hd
      cases h1q : quotedValue dquote R with
      | some v => simp [h1q] at hd
      | none =>
        cases h2 : FindAllStringSubmatch regSingleQuote line with
        | some m =>
          rw [h2] at hs
          cases h2q : quotedValue squote R with
          | none => simp [h2q] at hs
          | some v => simp_all
        | none =>
          rw [h2] at hs
          cases h2q : quotedValue squote R with
          | some v => simp [h2q] at hs
          | none =>
            cases h3 : FindAllStringSubmatch regNoQuote line with
            | some m =>
              rw [h3] at hn
              cases h3q : noQuoteValue R with
              | none => simp [h3q] at hn
              | some v => simp_all
            | none =>
              rw [h3] at hn
              cases h3q : noQuoteValue R with
              | some v => simp [h3q] at hn
              | none =>
                cases h4 : FindAllStringSubmatch regNoValue line with
                | some m =>
                  rw [h4] at hv
                  simp_all
                | none =>
                  rw [h4] at hv
                  simp at hv



theorem keyChar_accepts_iff (c : Char) :
    keyChar.accepts c = true ↔ (c ≠ '=' ∧ c ≠ ' ' ∧ c ≠ '\t') := by
  simp [keyChar, CharClass.accepts]

theorem blank_accepts_iff (c : Char) : blank.accepts c = true ↔ (c = ' ' ∨ c = '\t') := by
  simp [blank, CharClass.accepts]

theorem valueChar_accepts_eq :
    valueChar.accepts = fun c => decide (c ≠ '#' ∧ c ≠ ';') := by
  funext c
  by_cases h1 : c = '#' <;> by_cases h2 : c = ';' <;>
    simp [valueChar, CharClass.accepts, h1, h2]

theorem scanKey_mk (K B R : Str) (hK : K ≠ [])
    (hkey : ∀ c ∈ K, c ≠ '=' ∧ c ≠ ' ' ∧ c ≠ '\t') (hB : ∀ c ∈ B, c = ' ' ∨ c = '\t') :
    scanKey (K ++ (B ++ '=' :: R)) = some (K, K.length + B.length + 1, R) := by
  have hk1 : ∀ c ∈ K, keyChar.accepts c = true := fun c hc => (keyChar_accepts_iff c).mpr (hkey c hc)
  have hb1 : ∀ c ∈ B, blank.accepts c = true := fun c hc => (blank_accepts_iff c).mpr (hB c hc)
  have hT : (B ++ '=' :: R).takeWhile keyChar.accepts = [] := by
    cases B with
    | nil => simp [keyChar, CharClass.accepts]
    | cons b B =>
      have := hB b (List.mem_cons_self _ _)
      rcases this with h | h <;> subst h <;> simp [keyChar, CharClass.accepts]
  have hT2 : (B ++ '=' :: R).dropWhile keyChar.accepts = B ++ '=' :: R := by
    cases B with
    | nil => simp [keyChar, CharClass.accepts]
    | cons b B =>
      have := hB b (List.mem_cons_self _ _)
      rcases this with h | h <;> subst h <;> simp [keyChar, CharClass.accepts]
  have h1 : (K ++ (B ++ '=' :: R)).takeWhile keyChar.accepts = K := by
    rw [List.takeWhile_append_of_pos hk1, hT, List.append_nil]
  have h2 : (K ++ (B ++ '=' :: R)).dropWhile keyChar.accepts = B ++ '=' :: R := by
    rw [List.dropWhile_append_of_pos hk1, hT2]
  have h3 : (B ++ '=' :: R).dropWhile blank.accepts = '=' :: R := by
    rw [List.dropWhile_append_of_pos hb1]
    simp [blank, CharClass.accepts]
  have h4 : (B ++ '=' :: R).takeWhile blank.accepts = B := by
    rw [List.takeWhile_append_of_pos hb1]
    simp [blank, CharClass.accepts]
  simp only [scanKey, h1, h2, h3, h4, if_neg hK, if_true]

theorem quotedValue_mk (q : Char) (B v : Str) (hq : blank.accepts q = false)
    (hB : ∀ c ∈ B, c = ' ' ∨ c = '\t') (hv : q ∉ v) :
    quotedValue q (B ++ q :: (v ++ [q])) = some v := by
  have hb1 : ∀ c ∈ B, blank.accepts c = true := fun c hc => (blank_accepts_iff c).mpr (hB c hc)
  have hv1 : ∀ c ∈ v, (CharClass.noneOf [q]).accepts c = true := by
    intro c hc
    have : c ≠ q := fun e => hv (e ▸ hc)
    simp [CharClass.accepts, this]
  have h1 : (B ++ q :: (v ++ [q])).dropWhile blank.accepts = q :: (v ++ [q]) := by
    rw [List.dropWhile_append_of_pos hb1, List.dropWhile_cons_of_neg (by simp [hq])]
  have h2 : (v ++ [q]).dropWhile (CharClass.noneOf [q]).accepts = [q] := by
    rw [List.dropWhile_append_of_pos hv1]
    simp [CharClass.accepts]
  have h3 : (v ++ [q]).takeWhile (CharClass.noneOf [q]).accepts = v := by
    rw [List.takeWhile_append_of_pos hv1]
    simp [CharClass.accepts]
  simp only [quotedValue, h1, h2, h3, and_self, if_true]

theorem quotedValue_blanks (q : Char) (B : Str) (hB : ∀ c ∈ B, c = ' ' ∨ c = '\t') :
    quotedValue q B = none := by
  have hb1 : ∀ c ∈ B, blank.accepts c = true := fun c hc => (blank_accepts_iff c).mpr (hB c hc)
  have h1 : B.dropWhile blank.accepts = [] := by
    have h := @List.dropWhile_append_of_pos Char blank.accepts B [] hb1
    simpa using h
  simp only [quotedValue, h1]

theorem quotedValue_other (q c : Char) (B rest : Str) (hB : ∀ c ∈ B, c = ' ' ∨ c = '\t')
    (hc : c ≠ q) (hcb : blank.accepts c = false) :
    quotedValue q (B ++ c :: rest) = none := by
  have hb1 : ∀ c ∈ B, blank.accepts c = true := fun c hc => (blank_accepts_iff c).mpr (hB c hc)
  have h1 : (B ++ c :: rest).dropWhile blank.accepts = c :: rest := by
    rw [List.dropWhile_append_of_pos hb1, List.dropWhile_cons_of_neg (by simp [hcb])]
  simp only [quotedValue, h1, hc, false_and, if_false]

theorem TrimFunc_blanks (B : Str) (hB : ∀ c ∈ B, c = ' ' ∨ c = '\t') :
    TrimFunc IsSpace B = [] := by
  have hs : ∀ c ∈ B, IsSpace c = true := by
    intro c hc
    rcases hB c hc with h | h <;> subst h <;> decide
  have h1 : B.dropWhile IsSpace = [] := by
    have h := @List.dropWhile_append_of_pos Char IsSpace B [] hs
    simpa using h
  simp [TrimFunc, h1, List.rdropWhile]

theorem parseLine_mk (lower : Char → Char) (ini : QIni) (K B R : Str) (hK : K ≠ [])
    (hkey : ∀ c ∈ K, c ≠ '=' ∧ c ≠ ' ' ∧ c ≠ '\t')
    (hfirst : K.head? ≠ some ';' ∧ K.head? ≠ some '#') (hB : ∀ c ∈ B, c = ' ' ∨ c = '\t')
    (hhead : ¬ ((K ++ (B ++ '=' :: R)).head? = some '[' ∧
      (K ++ (B ++ '=' :: R)).getLast? = some ']')) :
    parseLine lower ini (K ++ (B ++ '=' :: R)) = addValue lower ini K (scanValue R) := by
  cases K with
  | nil => exact absurd rfl hK
  | cons k0 K1 =>
    have hc : ¬ (k0 = ';' ∨ k0 = '#') := by
      rintro (h | h)
      · exact hfirst.1 (by rw [h]; rfl)
      · exact hfirst.2 (by rw [h]; rfl)
    have hh : ¬ (k0 = '[' ∧ (k0 :: K1 ++ (B ++ '=' :: R)).getLast? = some ']') := by
      rintro ⟨h1, h2⟩
      exact hhead ⟨by rw [h1]; rfl, h2⟩
    rw [parseLine_keyValue lower ini (k0 :: K1 ++ (B ++ '=' :: R)) k0 rfl hc hh,
      extractKV_eq_scan, scanKey_mk (k0 :: K1) B R hK hkey hB]

theorem addValue_stores (lower : Char → Char) (ini : QIni) (key value : Str) (m : Section)
    (hm : ini.data ini.currSection = some m) :
    ∃ ini1, addValue lower ini key value = some ini1 ∧
      ini1.currSection = ini.currSection ∧
      ∃ m1, ini1.data ini.currSection = some m1 ∧ m1 (ToLower lower key) = some value := by
  obtain ⟨ini1, h1, h2, h3, -⟩ := addValue_eq_some lower ini key value m hm
  exact ⟨ini1, h1, h2, _, h3, by simp⟩

theorem quotedValue_none_of_no_match (q : Char) (hq : blank.accepts q = false)
    (K B R : Str) (hK : K ≠ []) (hkey : ∀ c ∈ K, c ≠ '=' ∧ c ≠ ' ' ∧ c ≠ '\t')
    (hB : ∀ c ∈ B, c = ' ' ∨ c = '\t')
    (h : FindAllStringSubmatch (keyEquals (quotedTail q)) (K ++ (B ++ '=' :: R)) = none) :
    quotedValue q R = none := by
  have hg := groups_quoted q hq (K ++ (B ++ '=' :: R))
  rw [h, scanKey_mk K B R hK hkey hB] at hg
  cases hv : quotedValue q R with
  | none => rfl
  | some v => simp [hv] at hg

theorem scanValue_unquoted (R : Str) (hd : quotedValue dquote R = none)
    (hs : quotedValue squote R = none) :
    scanValue R = TrimFunc IsSpace (R.takeWhile (fun c => decide (c ≠ '#' ∧ c ≠ ';'))) := by
  rw [← valueChar_accepts_eq, ← noQuoteValue_trim]
  simp only [scanValue, hd, hs]

theorem scanValue_bare (B C : Str) (hB : ∀ c ∈ B, c = ' ' ∨ c = '\t')
    (hC : C = [] ∨ ∃ c rest, C = c :: rest ∧ (c = '#' ∨ c = ';')) :
    scanValue (B ++ C) = [] := by
  have hq : ∀ q : Char, (q = dquote ∨ q = squote) → quotedValue q (B ++ C) = none := by
    intro q hq
    rcases hC with h | ⟨c, rest, h, hc⟩
    · rw [h, List.append_nil]
      exact quotedValue_blanks q B hB
    · rw [h]
      apply quotedValue_other q c B rest hB
      · rcases hq with e | e <;> rcases hc with f | f <;> subst e <;> subst f <;> decide
      · rcases hc with f | f <;> subst f <;> decide
  have hb1 : ∀ c ∈ B, (fun c => decide (c ≠ '#' ∧ c ≠ ';')) c = true := by
    intro c hc
    rcases hB c hc with h | h <;> subst h <;> decide
  have hcut : (B ++ C).takeWhile (fun c => decide (c ≠ '#' ∧ c ≠ ';')) = B := by
    rw [List.takeWhile_append_of_pos hb1]
    rcases hC with h | ⟨c, rest, h, hc⟩
    · simp [h]
    · rcases hc with f | f <;> subst f <;> simp [h]
  rw [scanValue_unquoted _ (hq dquote (Or.inl rfl)) (hq squote (Or.inr rfl)), hcut,
    TrimFunc_blanks B hB]



theorem ToUpper_ascii_eq (upper : Char → Char)
    (hascii : ∀ c : Char, c.toNat < 128 → upper c = c.toUpper) (s t : Str)
    (hs : ∀ c ∈ s, c.toNat < 128) (ht : s.map Char.toUpper = t) : ToUpper upper s = t := by
  rw [← ht]
  exact List.map_congr_left (fun c hc => hascii c (hs c hc))

theorem DefaultBool_found (lower upper : Char → Char) (ini : QIni) (s k v : Str) (b : Bool)
    (h : GetValue lower ini s k = (v, none)) :
    DefaultBool lower upper ini s k b =
      decide (ToUpper upper v = "T".toList ∨ ToUpper upper v = "TRUE".toList ∨
        ToUpper upper v = "Y".toList ∨ ToUpper upper v = "YES".toList ∨
        ToUpper upper v = "1".toList) := by
  simp only [DefaultBool, h]
  split <;> simp_all

theorem DefaultBool_not_found (lower upper : Char → Char) (ini : QIni) (s k : Str) (b : Bool)
    (h : (GetValue lower ini s k).2 ≠ none) : DefaultBool lower upper ini s k b = b := by
  unfold DefaultBool
  split
  · next v hv => rw [hv] at h; exact absurd rfl h
  · rfl

theorem parseDigits_eq (ds : Str) (hd : ∀ c ∈ ds, 48 ≤ c.toNat ∧ c.toNat ≤ 57) (acc : Nat) :
    parseDigits acc ds = some (acc * 10 ^ ds.length + decimalValue ds) := by
  induction ds generalizing acc with
  | nil => simp [parseDigits, decimalValue]
  | cons c cs ih =>
    have hc := hd c (List.mem_cons_self _ _)
    have hcs : ∀ x ∈ cs, 48 ≤ x.toNat ∧ x.toNat ≤ 57 :=
      fun x hx => hd x (List.mem_cons_of_mem _ hx)
    simp only [parseDigits, digitVal, hc, and_self, if_true, ih hcs]
    simp only [decimalValue, List.map_cons, List.reverse_cons, Nat.ofDigits_append,
      Nat.ofDigits_singleton, List.length_reverse, List.length_map, List.length_cons]
    congr 1
    ring

theorem parseDigits_digits (ds : Str) (acc n : Nat) (h : parseDigits acc ds = some n) :
    ∀ c ∈ ds, 48 ≤ c.toNat ∧ c.toNat ≤ 57 := by
  induction ds generalizing acc with
  | nil => simp
  | cons c cs ih =>
    simp only [parseDigits, digitVal] at h
    by_cases hc : 48 ≤ c.toNat ∧ c.toNat ≤ 57
    · simp only [hc, and_self, if_true] at h
      intro x hx
      rcases List.mem_cons.mp hx with e | e
      · rw [e]; exact hc
      · exact ih _ h x e
    · simp [hc] at h

theorem ParseInt_unsigned (c : Char) (cs : Str) (w : Nat) (hp : c ≠ '+') (hm : c ≠ '-') :
    ParseInt (c :: cs) w =
      match parseDigits 0 (c :: cs) with
      | none => none
      | some un => if 2 ^ (w - 1) ≤ un then none else some (un : Int) := by
  simp only [ParseInt, hp, hm, or_self, if_false, decide_False, Bool.not_false,
    Bool.true_and, Bool.false_and, decide_eq_true_eq]
  cases parseDigits 0 (c :: cs) <;> simp

theorem ParseInt_plus (cs : Str) (w : Nat) :
    ParseInt ('+' :: cs) w =
      match cs with
      | [] => none
      | _ :: _ =>
        match parseDigits 0 cs with
        | none => none
        | some un => if 2 ^ (w - 1) ≤ un then none else some (un : Int) := by
  cases cs with
  | nil => simp [ParseInt]
  | cons d ds =>
    simp only [ParseInt, true_or, if_true]
    cases parseDigits 0 (d :: ds) <;> simp

theorem ParseInt_minus (cs : Str) (w : Nat) :
    ParseInt ('-' :: cs) w =
      match cs with
      | [] => none
      | _ :: _ =>
        match parseDigits 0 cs with
        | none => none
        | some un => if 2 ^ (w - 1) < un then none else some (-(un : Int)) := by
  cases cs with
  | nil => simp [ParseInt]
  | cons d ds =>
    simp only [ParseInt, or_true, if_true]
    cases parseDigits 0 (d :: ds) <;> simp

theorem digit_not_sign (c : Char) (h : 48 ≤ c.toNat ∧ c.toNat ≤ 57) : c ≠ '+' ∧ c ≠ '-' := by
  constructor <;> rintro rfl <;> revert h <;> decide

theorem ParseInt_of_literal (s : Str) (n : Int) (w : Nat) (hl : IntLiteral s n)
    (hlo : -(2 ^ (w - 1) : Int) ≤ n) (hhi : n < (2 ^ (w - 1) : Int)) :
    ParseInt s w = some n := by
  obtain ⟨ds, hne, hd, h⟩ := hl
  have hpd := parseDigits_eq ds hd 0
  simp only [Nat.zero_mul, Nat.zero_add] at hpd
  obtain ⟨c, cs, rfl⟩ : ∃ c cs, ds = c :: cs := List.exists_cons_of_ne_nil hne
  rcases h with ⟨hs, hn⟩ | ⟨hs, hn⟩ | ⟨hs, hn⟩
  · subst hs
    obtain ⟨hp, hm⟩ := digit_not_sign c (hd c (List.mem_cons_self _ _))
    rw [ParseInt_unsigned c cs w hp hm, hpd]
    have : ¬ 2 ^ (w - 1) ≤ decimalValue (c :: cs) := by
      intro hle
      have : ((2 ^ (w - 1) : Nat) : Int) ≤ (decimalValue (c :: cs) : Int) := by exact_mod_cast hle
      rw [hn] at hhi
      push_cast at this
      omega
    simp only [this, if_false, hn]
  · subst hs
    rw [ParseInt_plus, hpd]
    have : ¬ 2 ^ (w - 1) ≤ decimalValue (c :: cs) := by
      intro hle
      have : ((2 ^ (w - 1) : Nat) : Int) ≤ (decimalValue (c :: cs) : Int) := by exact_mod_cast hle
      rw [hn] at hhi
      push_cast at this
      omega
    simp only [this, if_false, hn]
  · subst hs
    rw [ParseInt_minus, hpd]
    have : ¬ 2 ^ (w - 1) < decimalValue (c :: cs) := by
      intro hle
      have : ((2 ^ (w - 1) : Nat) : Int) < (decimalValue (c :: cs) : Int) := by exact_mod_cast hle
      rw [hn] at hlo
      push_cast at this
      omega
    simp only [this, if_false, hn]

theorem literal_of_ParseInt (s : Str) (n : Int) (w : Nat) (h : ParseInt s w = some n) :
    IntLiteral s n ∧ -(2 ^ (w - 1) : Int) ≤ n ∧ n < (2 ^ (w - 1) : Int) := by
  have hpos : (0 : Int) < 2 ^ (w - 1) := by positivity
  cases s with
  | nil => simp [ParseInt] at h
  | cons c cs =>
    by_cases hp : c = '+'
    · subst hp
      rw [ParseInt_plus] at h
      cases cs with
      | nil => simp at h
      | cons d ds =>
        simp only at h
        cases hpd : parseDigits 0 (d :: ds) with
        | none => simp [hpd] at h
        | some un =>
          have hd := parseDigits_digits _ _ _ hpd
          have he := parseDigits_eq (d :: ds) hd 0
          rw [hpd] at he
          simp only [Nat.zero_mul, Nat.zero_add, Option.some.injEq] at he
          rw [hpd] at h
          simp only at h
          split at h
          · cases h
          · next hlt =>
            simp only [Option.some.injEq] at h
            subst h
            have : ((un : Nat) : Int) < ((2 ^ (w - 1) : Nat) : Int) := by
              exact_mod_cast Nat.lt_of_not_le hlt
            push_cast at this
            refine ⟨⟨d :: ds, by simp, hd, Or.inr (Or.inl ⟨rfl, by rw [he]⟩)⟩, by omega, this⟩
    · by_cases hm : c = '-'
      · subst hm
        rw [ParseInt_minus] at h
        cases cs with
        | nil => simp at h
        | cons d ds =>
          simp only at h
          cases hpd : parseDigits 0 (d :: ds) with
          | none => simp [hpd] at h
          | some un =>
            have hd := parseDigits_digits _ _ _ hpd
            have he := parseDigits_eq (d :: ds) hd 0
            rw [hpd] at he
            simp only [Nat.zero_mul, Nat.zero_add, Option.some.injEq] at he
            rw [hpd] at h
            simp only at h
            split at h
            · cases h
            · next hlt =>
              simp only [Option.some.injEq] at h
              subst h
              have : ((un : Nat) : Int) ≤ ((2 ^ (w - 1) : Nat) : Int) := by
                exact_mod_cast Nat.le_of_not_lt hlt
              push_cast at this
              refine ⟨⟨d :: ds, by simp, hd, Or.inr (Or.inr ⟨rfl, by rw [he]⟩)⟩, by omega,
                by omega⟩
      · rw [ParseInt_unsigned c cs w hp hm] at h
        cases hpd : parseDigits 0 (c :: cs) with
        | none => simp [hpd] at h
        | some un =>
          have hd := parseDigits_digits _ _ _ hpd
          have he := parseDigits_eq (c :: cs) hd 0
          rw [hpd] at he
          simp only [Nat.zero_mul, Nat.zero_add, Option.some.injEq] at he
          rw [hpd] at h
          simp only at h
          split at h
          · cases h
          · next hlt =>
            simp only [Option.some.injEq] at h
            subst h
            have : ((un : Nat) : Int) < ((2 ^ (w - 1) : Nat) : Int) := by
              exact_mod_cast Nat.lt_of_not_le hlt
            push_cast at this
            refine ⟨⟨c :: cs, by simp, hd, Or.inl ⟨rfl, by rw [he]⟩⟩, by omega, this⟩

theorem DefaultInt_found (lower : Char → Char) (intSize : Nat) (ini : QIni) (s k v : Str)
    (n0 : Int) (h : GetValue lower ini s k = (v, none)) :
    DefaultInt lower intSize ini s k n0 = (Atoi intSize v).getD n0 := by
  simp only [DefaultInt, h]
  cases Atoi intSize v <;> rfl

theorem DefaultInt_not_found (lower : Char → Char) (intSize : Nat) (ini : QIni) (s k : Str)
    (n0 : Int) (h : (GetValue lower ini s k).2 ≠ none) :
    DefaultInt lower intSize ini s k n0 = n0 := by
  unfold DefaultInt
  split
  · next v hv => rw [hv] at h; exact absurd rfl h
  · rfl

theorem addSection_initial_data (lower : Char → Char) (sec : Str) :
    (addSection lower initial sec).data (ToLower lower sec) = some (fun _ => none) := by
  simp only [addSection]
  split
  · next m h =>
    simp only [initial] at h ⊢
    split at h
    · next e => rw [if_pos e]
    · cases h
  · simp



theorem parseLine_cases (lower : Char → Char) (ini ini1 : QIni) (line : Str)
    (h : parseLine lower ini line = some ini1) :
    ini1 = ini ∨ (∃ sec, ini1 = addSection lower ini sec) ∨
      (∃ k v, addValue lower ini k v = some ini1) := by
  cases line with
  | nil => simp [parseLine] at h
  | cons c cs =>
    by_cases hc : c = ';' ∨ c = '#'
    · rw [parseLine_comment lower ini c cs hc] at h
      exact Or.inl (Option.some.inj h).symm
    · by_cases hh : c = '[' ∧ (c :: cs).getLast? = some ']'
      · rw [parseLine_header lower ini _ (by rw [hh.1]; rfl) hh.2] at h
        exact Or.inr (Or.inl ⟨_, (Option.some.inj h).symm⟩)
      · rw [parseLine_keyValue lower ini (c :: cs) c rfl hc hh] at h
        cases hk : extractKV (c :: cs) with
        | none =>
          rw [hk] at h
          exact Or.inl (Option.some.inj h).symm
        | some p =>
          rw [hk] at h
          exact Or.inr (Or.inr ⟨p.1, p.2, h⟩)

theorem addSection_keeps (lower : Char → Char) (ini : QIni) (sec s : Str) (m : Section)
    (h : ini.data s = some m) : (addSection lower ini sec).data s = some m := by
  simp only [addSection]
  split
  · exact h
  · next hnone =>
    have : s ≠ ToLower lower sec := fun e => by
      rw [e, hnone] at h
      cases h
    simp [this, h]

theorem addValue_keeps (lower : Char → Char) (ini ini1 : QIni) (k v s : Str) (m : Section)
    (ha : addValue lower ini k v = some ini1) (h : ini.data s = some m) :
    ∃ m1, ini1.data s = some m1 := by
  unfold addValue at ha
  cases hm : ini.data ini.currSection with
  | none => simp [hm] at ha
  | some m0 =>
    simp only [hm, Option.some.injEq] at ha
    subst ha
    by_cases e : s = ini.currSection
    · exact ⟨fun k1 => if k1 = ToLower lower k then some v else m0 k1,
        by simp only [e, if_true]⟩
    · exact ⟨m, by simp only [e, if_false, h]⟩

/-- Parsing a line never removes a section. -/
theorem parseLine_keeps (lower : Char → Char) (ini ini1 : QIni) (line s : Str)
    (h : parseLine lower ini line = some ini1) (hs : ∃ m, ini.data s = some m) :
    ∃ m, ini1.data s = some m := by
  obtain ⟨m, hm⟩ := hs
  rcases parseLine_cases lower ini ini1 line h with e | ⟨sec, e⟩ | ⟨k, v, e⟩
  · rw [e]; exact ⟨m, hm⟩
  · rw [e]; exact ⟨m, addSection_keeps lower ini sec s m hm⟩
  · exact addValue_keeps lower ini ini1 k v s m e hm

theorem parseLine_total (lower : Char → Char) (ini : QIni) (line : Str) (hne : line ≠ [])
    (hok : CursorOk ini) : ∃ ini1, parseLine lower ini line = some ini1 ∧ CursorOk ini1 := by
  obtain ⟨m, hm⟩ := hok
  cases line with
  | nil => exact absurd rfl hne
  | cons c cs =>
    by_cases hc : c = ';' ∨ c = '#'
    · exact ⟨ini, parseLine_comment lower ini c cs hc, m, hm⟩
    · by_cases hh : c = '[' ∧ (c :: cs).getLast? = some ']'
      · refine ⟨_, parseLine_header lower ini _ (by rw [hh.1]; rfl) hh.2, ?_⟩
        obtain ⟨m1, h1⟩ := addSection_data_curr lower ini
          (TrimFunc IsSpace (c :: cs).tail.dropLast)
        exact ⟨m1, by rw [addSection_currSection]; exact h1⟩
      · rw [parseLine_keyValue lower ini (c :: cs) c rfl hc hh]
        cases hk : extractKV (c :: cs) with
        | none => exact ⟨ini, rfl, m, hm⟩
        | some p =>
          obtain ⟨ini1, h1, h2, h3, -⟩ := addValue_eq_some lower ini p.1 p.2 m hm
          exact ⟨ini1, h1, _, by rw [h2]; exact h3⟩

theorem parseReaderWith_invariant {σ : Type} (f : σ → Str → Option σ) (P : σ → Prop)
    (hf : ∀ st l st1, P st → f st l = some st1 → P st1) (reader : List Str) (st st1 : σ)
    (hst : P st) (h : parseReaderWith f st reader = some st1) : P st1 := by
  suffices H : ∀ (n : Nat) (reader : List Str), reader.length ≤ n → ∀ st : σ, P st →
      parseReaderWith f st reader = some st1 → P st1 from H _ reader le_rfl st hst h
  intro n
  induction n with
  | zero =>
    intro reader hn st hst h
    have : reader = [] := List.length_eq_zero.mp (Nat.le_zero.mp hn)
    subst this
    rw [parseReaderWith_nil] at h
    exact (Option.some.inj h) ▸ hst
  | succ n ih =>
    intro reader hn st hst h
    cases reader with
    | nil =>
      rw [parseReaderWith_nil] at h
      exact (Option.some.inj h) ▸ hst
    | cons b rest =>
      have hrest : rest.length ≤ n := by
        rw [List.length_cons] at hn
        omega
      rw [parseReaderWith_cons] at h
      split at h
      · cases hfl : forLoop (TrimFunc IsSpace b) rest with
        | none => simp [hfl] at h
        | some p =>
          obtain ⟨l, r⟩ := p
          rw [hfl] at h
          simp only at h
          cases hfs : f st l with
          | none => simp [hfs] at h
          | some st2 =>
            rw [hfs] at h
            exact ih r ((forLoop_length _ _ _ _ hfl).trans hrest) st2 (hf st l st2 hst hfs) h
      · exact ih rest hrest st hst h

theorem foldlM_parseLine_total (lower : Char → Char) (ls : List Str)
    (hls : ∀ l ∈ ls, l ≠ []) (ini : QIni) (hok : CursorOk ini) (s : Str)
    (hs : ∃ m, ini.data s = some m) :
    ∃ ini1, ls.foldlM (parseLine lower) ini = some ini1 ∧ CursorOk ini1 ∧
      ∃ m, ini1.data s = some m := by
  induction ls generalizing ini with
  | nil => exact ⟨ini, rfl, hok, hs⟩
  | cons l ls ih =>
    obtain ⟨ini1, h1, hok1⟩ := parseLine_total lower ini l (hls l (List.mem_cons_self _ _)) hok
    obtain ⟨ini2, h2, hok2, hs2⟩ := ih (fun x hx => hls x (List.mem_cons_of_mem _ hx)) ini1 hok1
      (parseLine_keeps lower ini ini1 l s h1 hs)
    exact ⟨ini2, by simp only [List.foldlM_cons, h1, Option.bind_eq_bind, Option.some_bind, h2],
      hok2, hs2⟩



theorem parseLine_of_not_header (lower : Char → Char) (ini : QIni) (line : Str)
    (hne : line ≠ []) (hc : ¬ IsComment line) (hh : ¬ IsHeader line) :
    parseLine lower ini line =
      match extractKV line with
      | some (k, v) => addValue lower ini k v
      | none => some ini := by
  cases line with
  | nil => exact absurd rfl hne
  | cons c cs =>
    apply parseLine_keyValue lower ini (c :: cs) c rfl
    · rintro (h | h)
      · exact hc (Or.inl (by rw [h]; rfl))
      · exact hc (Or.inr (by rw [h]; rfl))
    · rintro ⟨h1, h2⟩
      exact hh ⟨by rw [h1]; rfl, h2⟩

theorem parseLine_of_KeyValueLine (lower : Char → Char) (ini : QIni) (line K v : Str)
    (h : KeyValueLine line K v) : parseLine lower ini line = addValue lower ini K v := by
  obtain ⟨hne, hc, hh, he⟩ := h
  rw [parseLine_of_not_header lower ini line hne hc hh, he]

theorem parseLine_of_IsComment (lower : Char → Char) (ini : QIni) (line : Str)
    (h : IsComment line) : parseLine lower ini line = some ini := by
  cases line with
  | nil => rcases h with h | h <;> simp at h
  | cons c cs =>
    apply parseLine_comment
    rcases h with h | h
    · exact Or.inl (Option.some.inj h)
    · exact Or.inr (Option.some.inj h)

theorem scanKey_sound (line K R : Str) (n : Nat) (h : scanKey line = some (K, n, R)) :
    ∃ B : Str, K ≠ [] ∧ (∀ c ∈ K, c ≠ '=' ∧ c ≠ ' ' ∧ c ≠ '\t') ∧
      (∀ c ∈ B, c = ' ' ∨ c = '\t') ∧ line = K ++ (B ++ '=' :: R) := by
  unfold scanKey at h
  simp only at h
  split at h
  · cases h
  · next hK =>
    cases hT : List.dropWhile blank.accepts (List.dropWhile keyChar.accepts line) with
    | nil => simp [hT] at h
    | cons c R1 =>
      rw [hT] at h
      simp only at h
      split at h
      · next hc =>
        simp only [Option.some.injEq, Prod.mk.injEq] at h
        obtain ⟨h1, -, h3⟩ := h
        subst hc
        refine ⟨(line.dropWhile keyChar.accepts).takeWhile blank.accepts, ?_, ?_, ?_, ?_⟩
        · rw [← h1]; exact hK
        · intro x hx
          rw [← h1] at hx
          exact (keyChar_accepts_iff x).mp (List.mem_takeWhile_imp hx)
        · intro x hx
          exact (blank_accepts_iff x).mp (List.mem_takeWhile_imp hx)
        · rw [← h1, ← h3, ← hT, List.takeWhile_append_dropWhile,
            List.takeWhile_append_dropWhile]
      · cases h

theorem parseLine_nonheader_frame (lower : Char → Char) (ini : QIni) (line : Str)
    (hne : line ≠ []) (hh : ¬ IsHeader line) (m : Section)
    (hm : ini.data ini.currSection = some m) :
    ∃ ini1 m1, parseLine lower ini line = some ini1 ∧
      ini1.currSection = ini.currSection ∧ ini1.data ini.currSection = some m1 ∧
      (∀ kk, (∀ K1 v1, KeyValueLine line K1 v1 → ToLower lower K1 ≠ kk) → m1 kk = m kk) ∧
      (∀ s, s ≠ ini.currSection → ini1.data s = ini.data s) := by
  by_cases hc : IsComment line
  · exact ⟨ini, m, parseLine_of_IsComment lower ini line hc, rfl, hm, fun _ _ => rfl,
      fun _ _ => rfl⟩
  · rw [parseLine_of_not_header lower ini line hne hc hh]
    cases he : extractKV line with
    | none => exact ⟨ini, m, rfl, rfl, hm, fun _ _ => rfl, fun _ _ => rfl⟩
    | some p =>
      obtain ⟨k, v⟩ := p
      obtain ⟨ini1, h1, h2, h3, h4⟩ := addValue_eq_some lower ini k v m hm
      refine ⟨ini1, _, h1, h2, h3, ?_, h4⟩
      intro kk hkk
      have : kk ≠ ToLower lower k := fun e => hkk k v ⟨hne, hc, hh, he⟩ e.symm
      simp only [this, if_false]

theorem foldlM_nonheader (lower : Char → Char) (xs : List Str)
    (hxs : ∀ x ∈ xs, x ≠ [] ∧ ¬ IsHeader x) (ini : QIni) (hok : CursorOk ini) :
    ∃ ini1, xs.foldlM (parseLine lower) ini = some ini1 ∧
      ini1.currSection = ini.currSection ∧ CursorOk ini1 := by
  induction xs generalizing ini with
  | nil => exact ⟨ini, rfl, rfl, hok⟩
  | cons x xs ih =>
    obtain ⟨m, hm⟩ := hok
    obtain ⟨hx1, hx2⟩ := hxs x (List.mem_cons_self _ _)
    obtain ⟨ini1, m1, h1, h2, h3, -, -⟩ := parseLine_nonheader_frame lower ini x hx1 hx2 m hm
    obtain ⟨ini2, g1, g2, g3⟩ := ih (fun y hy => hxs y (List.mem_cons_of_mem _ hy)) ini1
      ⟨m1, by rw [h2]; exact h3⟩
    exact ⟨ini2, by simp only [List.foldlM_cons, h1, Option.bind_eq_bind, Option.some_bind, g1],
      g2.trans h2, g3⟩

theorem foldlM_keeps_key (lower : Char → Char) (xs : List Str) (kk v : Str)
    (hxs : ∀ x ∈ xs, x ≠ [] ∧ ¬ IsHeader x ∧
      ∀ K1 v1, KeyValueLine x K1 v1 → ToLower lower K1 ≠ kk)
    (ini : QIni) (m : Section) (hm : ini.data ini.currSection = some m) (hv : m kk = some v) :
    ∃ ini1 m1, xs.foldlM (parseLine lower) ini = some ini1 ∧
      ini1.currSection = ini.currSection ∧ ini1.data ini.currSection = some m1 ∧
      m1 kk = some v := by
  induction xs generalizing ini m with
  | nil => exact ⟨ini, m, rfl, rfl, hm, hv⟩
  | cons x xs ih =>
    obtain ⟨hx1, hx2, hx3⟩ := hxs x (List.mem_cons_self _ _)
    obtain ⟨ini1, m1, h1, h2, h3, h4, -⟩ := parseLine_nonheader_frame lower ini x hx1 hx2 m hm
    obtain ⟨ini2, m2, g1, g2, g3, g4⟩ := ih (fun y hy => hxs y (List.mem_cons_of_mem _ hy))
      ini1 m1 (by rw [h2]; exact h3) (by rw [h4 kk hx3]; exact hv)
    refine ⟨ini2, m2, ?_, g2.trans h2, ?_, g4⟩
    · simp only [List.foldlM_cons, h1, Option.bind_eq_bind, Option.some_bind, g1]
    · rw [← h2]; exact g3

theorem last_declaration_wins (lower : Char → Char) (ini : QIni) (line K v : Str)
    (hkv : KeyValueLine line K v) (hok : CursorOk ini) (pre post : List Str)
    (hpre : ∀ x ∈ pre, x ≠ [] ∧ ¬ IsHeader x)
    (hpost : ∀ x ∈ post, x ≠ [] ∧ ¬ IsHeader x ∧
      ∀ K1 v1, KeyValueLine x K1 v1 → ToLower lower K1 ≠ ToLower lower K) :
    ∃ ini2, (pre ++ line :: post).foldlM (parseLine lower) ini = some ini2 ∧
      ∀ s, ToLower lower s = ini.currSection → GetValue lower ini2 s K = (v, none) := by
  obtain ⟨ini1, h1, h2, ⟨m1, hm1⟩⟩ := foldlM_nonheader lower pre hpre ini hok
  obtain ⟨ini1a, ha1, ha2, ha3, -⟩ := addValue_eq_some lower ini1 K v m1 hm1
  obtain ⟨ini2, m2, g1, g2, g3, g4⟩ := foldlM_keeps_key lower post (ToLower lower K) v hpost
    ini1a _ (by rw [ha2]; exact ha3) (by simp)
  refine ⟨ini2, ?_, ?_⟩
  · simp only [List.foldlM_append, h1, Option.bind_eq_bind, Option.some_bind,
      List.foldlM_cons, parseLine_of_KeyValueLine lower ini1 line K v hkv, ha1, g1]
  · intro s hs
    apply GetValue_found lower ini2 s K m2 v _ g4
    rw [hs, ← h2, ← ha2]
    exact g3



theorem Char_toLower_idem (c : Char) : c.toLower.toLower = c.toLower := by
  by_cases h : 65 ≤ c.toNat ∧ c.toNat ≤ 90
  · have hc : c = Char.ofNat c.toNat := (Char.ofNat_toNat c).symm
    obtain ⟨h1, h2⟩ := h
    generalize c.toNat = n at hc h1 h2
    subst hc
    interval_cases n <;> decide
  · have : c.toLower = c := by
      unfold Char.toLower
      simp only [ge_iff_le]
      rw [if_neg]
      simpa [Char.toNat] using h
    rw [this, this]

theorem eofLoop_good (s l : Str) (h : eofLoop s = some l) :
    l ≠ [] ∧ l.getLast? ≠ some backslash := by
  induction s with
  | nil => simp [eofLoop] at h
  | cons c r ih =>
    simp only [eofLoop] at h
    split at h
    · exact ih h
    · next hc =>
      simp only [Option.some.injEq] at h
      subst h
      constructor
      · simp
      · rw [List.getLast?_reverse, List.head?_cons]
        exact fun e => hc (Option.some.inj e)

/-- The continuation loop only ends on a line that is not empty and does not end in the
marker. -/
theorem forLoop_good (line : Str) (reader : List Str) (l : Str) (r : List Str)
    (h : forLoop line reader = some (l, r)) : l ≠ [] ∧ l.getLast? ≠ some backslash := by
  induction reader generalizing line with
  | nil =>
    simp only [forLoop, Option.map_eq_some'] at h
    obtain ⟨a, ha, hb⟩ := h
    simp only [Prod.mk.injEq] at hb
    rw [← hb.1]
    exact eofLoop_good _ _ ha
  | cons b reader ih =>
    simp only [forLoop] at h
    split at h
    · cases h
    · next c hc =>
      split at h
      · exact ih _ h
      · next hne =>
        simp only [Option.some.injEq, Prod.mk.injEq] at h
        rw [← h.1]
        constructor
        · rintro rfl
          simp at hc
        · rw [hc]
          exact fun e => hne (Option.some.inj e)

/-- The result of the reader depends on its classifier only through the lines that are
not empty and do not end in the marker. -/
theorem parseReaderWith_congr {σ : Type} (f g : σ → Str → Option σ)
    (hfg : ∀ st l, l ≠ [] → l.getLast? ≠ some backslash → f st l = g st l)
    (reader : List Str) (st : σ) : parseReaderWith f st reader = parseReaderWith g st reader := by
  suffices H : ∀ (n : Nat) (reader : List Str), reader.length ≤ n → ∀ st : σ,
      parseReaderWith f st reader = parseReaderWith g st reader from H _ reader le_rfl st
  intro n
  induction n with
  | zero =>
    intro reader hn st
    have : reader = [] := List.length_eq_zero.mp (Nat.le_zero.mp hn)
    subst this
    rw [parseReaderWith_nil, parseReaderWith_nil]
  | succ n ih =>
    intro reader hn st
    cases reader with
    | nil => rw [parseReaderWith_nil, parseReaderWith_nil]
    | cons b rest =>
      have hrest : rest.length ≤ n := by
        rw [List.length_cons] at hn
        omega
      rw [parseReaderWith_cons, parseReaderWith_cons]
      split
      · cases hfl : forLoop (TrimFunc IsSpace b) rest with
        | none => rfl
        | some p =>
          obtain ⟨l, r⟩ := p
          obtain ⟨h1, h2⟩ := forLoop_good _ _ _ _ hfl
          simp only [hfg st l h1 h2]
          cases g st l with
          | none => rfl
          | some st1 => exact ih r ((forLoop_length _ _ _ _ hfl).trans hrest) st1
      · exact ih rest hrest st

/-- The reader folds its classifier over the logical lines. -/
theorem parseReaderWith_eq_foldlM {σ : Type} (f : σ → Str → Option σ) (reader : List Str)
    (st : σ) :
    parseReaderWith f st reader = (logicalLines reader).bind (fun ls => ls.foldlM f st) := by
  suffices H : ∀ (n : Nat) (reader : List Str), reader.length ≤ n → ∀ st : σ,
      parseReaderWith f st reader = (logicalLines reader).bind (fun ls => ls.foldlM f st)
    from H _ reader le_rfl st
  intro n
  induction n with
  | zero =>
    intro reader hn st
    have : reader = [] := List.length_eq_zero.mp (Nat.le_zero.mp hn)
    subst this
    simp [logicalLines, parseReaderWith_nil]
  | succ n ih =>
    intro reader hn st
    cases reader with
    | nil => simp [logicalLines, parseReaderWith_nil]
    | cons b rest =>
      have hrest : rest.length ≤ n := by
        rw [List.length_cons] at hn
        omega
      unfold logicalLines
      rw [parseReaderWith_cons, parseReaderWith_cons]
      split
      · cases hfl : forLoop (TrimFunc IsSpace b) rest with
        | none => rfl
        | some p =>
          obtain ⟨l, r⟩ := p
          simp only [List.nil_append]
          rw [parseReaderWith_record r [l]]
          cases hf : f st l with
          | none =>
            cases logicalLines r <;> simp [hf]
          | some st1 =>
            simp only []
            rw [ih r ((forLoop_length _ _ _ _ hfl).trans hrest) st1]
            cases logicalLines r <;> simp [hf]
      · exact ih rest hrest st

theorem logicalLines_good (reader : List Str) (ls : List Str)
    (h : logicalLines reader = some ls) :
    ∀ l ∈ ls, l ≠ [] ∧ l.getLast? ≠ some backslash := by
  unfold logicalLines at h
  rw [parseReaderWith_congr (fun acc l => some (acc ++ [l]))
    (fun acc l => if l ≠ [] ∧ l.getLast? ≠ some backslash then some (acc ++ [l]) else none)
    (fun st l h1 h2 => by simp only [h1, h2, ne_eq, not_false_eq_true, and_self, if_true])] at h
  refine parseReaderWith_invariant _ (fun acc => ∀ l ∈ acc, l ≠ [] ∧ l.getLast? ≠ some backslash)
    ?_ reader [] ls (by simp) h
  intro acc l acc1 hacc hstep
  simp only at hstep
  split at hstep
  · next hg =>
    simp only [Option.some.injEq] at hstep
    subst hstep
    intro x hx
    rcases List.mem_append.mp hx with hx | hx
    · exact hacc x hx
    · rw [List.mem_singleton.mp hx]
      exact hg
  · cases hstep

theorem parseLine_CursorOk (lower : Char → Char) (ini ini1 : QIni) (line : Str)
    (hok : CursorOk ini) (h : parseLine lower ini line = some ini1) : CursorOk ini1 := by
  have hne : line ≠ [] := by
    rintro rfl
    simp [parseLine] at h
  obtain ⟨ini2, h2, hok2⟩ := parseLine_total lower ini line hne hok
  rw [h] at h2
  rw [Option.some.inj h2]
  exact hok2

theorem foldlM_parseLine_CursorOk (lower : Char → Char) (ls : List Str)
    (hls : ∀ l ∈ ls, l ≠ []) (ini : QIni) (hok : CursorOk ini) :
    ∃ ini1, ls.foldlM (parseLine lower) ini = some ini1 ∧ CursorOk ini1 := by
  obtain ⟨ini1, h1, h2, -⟩ := foldlM_parseLine_total lower ls hls ini hok ini.currSection hok
  exact ⟨ini1, h1, h2⟩

theorem Load_of_logicalLines (lower : Char → Char) (reader : List Str) (ls : List Str)
    (h : logicalLines reader = some ls) :
    Load lower (some reader) = ls.foldlM (parseLine lower) initial := by
  simp only [Load, parseReader]
  rw [parseReaderWith_eq_foldlM, h, Option.some_bind]

theorem ToLower_idem (lower : Char → Char) (hidem : ∀ c, lower (lower c) = lower c)
    (s : Str) : ToLower lower (ToLower lower s) = ToLower lower s := by
  simp only [ToLower, List.map_map]
  exact List.map_congr_left (fun c _ => hidem c)

theorem addSection_data_cases (lower : Char → Char) (ini : QIni) (sec s : Str) (m : Section)
    (h : (addSection lower ini sec).data s = some m) :
    ini.data s = some m ∨ (s = ToLower lower sec ∧ m = fun _ => none) := by
  simp only [addSection] at h
  split at h
  · exact Or.inl h
  · simp only at h
    split at h
    · next e => exact Or.inr ⟨e, (Option.some.inj h).symm⟩
    · exact Or.inl h

theorem addValue_data_cases (lower : Char → Char) (ini ini1 : QIni) (k v s : Str)
    (m1 : Section) (ha : addValue lower ini k v = some ini1) (h : ini1.data s = some m1) :
    (∃ m, ini.data s = some m ∧ s = ini.currSection ∧
      m1 = fun x => if x = ToLower lower k then some v else m x) ∨
    (s ≠ ini.currSection ∧ ini.data s = some m1) := by
  unfold addValue at ha
  cases hm : ini.data ini.currSection with
  | none => simp [hm] at ha
  | some m0 =>
    simp only [hm, Option.some.injEq] at ha
    subst ha
    simp only at h
    split at h
    · next e => exact Or.inl ⟨m0, by rw [e]; exact hm, e, (Option.some.inj h).symm⟩
    · next e => exact Or.inr ⟨e, h⟩

theorem parseLine_Canonical (lower : Char → Char) (hidem : ∀ c, lower (lower c) = lower c)
    (ini ini1 : QIni) (line : Str) (hc : Canonical lower ini)
    (h : parseLine lower ini line = some ini1) : Canonical lower ini1 := by
  rcases parseLine_cases lower ini ini1 line h with e | ⟨sec, e⟩ | ⟨k, v, e⟩
  · rw [e]; exact hc
  · subst e
    intro s m hs
    rcases addSection_data_cases lower ini sec s m hs with h1 | ⟨h1, h2⟩
    · exact hc s m h1
    · subst h1 h2
      exact ⟨ToLower_idem lower hidem sec, fun k v hk => by cases hk⟩
  · intro s m1 hs
    rcases addValue_data_cases lower ini ini1 k v s m1 e hs with ⟨m, h1, -, h3⟩ | ⟨-, h1⟩
    · refine ⟨(hc s m h1).1, ?_⟩
      intro k1 v1 hk
      subst h3
      simp only at hk
      split at hk
      · next e1 => rw [e1]; exact ToLower_idem lower hidem k
      · exact (hc s m h1).2 k1 v1 hk
    · exact hc s m1 h1

theorem foldlM_invariant (lower : Char → Char) (P : QIni → Prop)
    (hP : ∀ ini l ini1, P ini → parseLine lower ini l = some ini1 → P ini1)
    (ls : List Str) (ini ini1 : QIni) (h0 : P ini)
    (h : ls.foldlM (parseLine lower) ini = some ini1) : P ini1 := by
  induction ls generalizing ini with
  | nil =>
    simp only [List.foldlM_nil, Option.pure_def, Option.some.injEq] at h
    rw [← h]; exact h0
  | cons l ls ih =>
    simp only [List.foldlM_cons, Option.bind_eq_bind] at h
    cases hl : parseLine lower ini l with
    | none => simp [hl] at h
    | some ini2 =>
      rw [hl, Option.some_bind] at h
      exact ih ini2 (hP ini l ini2 h0 hl) h

theorem initial_Canonical (lower : Char → Char)
    (hdef : ToLower lower "default".toList = "default".toList) : Canonical lower initial := by
  intro s m hs
  simp only [initial] at hs
  split at hs
  · next e =>
    rw [e]
    refine ⟨hdef, ?_⟩
    intro k v hk
    rw [← Option.some.inj hs] at hk
    cases hk
  · cases hs



theorem step_default_key (lower : Char → Char) (ini : QIni) (x kk v : Str)
    (hne : x ≠ []) (hok : CursorOk ini) (md : Section)
    (hd : ini.data "default".toList = some md) (hv : md kk = some v)
    (hno : ¬ (ini.currSection = "default".toList ∧
      ∃ K1 v1, KeyValueLine x K1 v1 ∧ ToLower lower K1 = kk)) :
    ∃ ini1 md1, parseLine lower ini x = some ini1 ∧ CursorOk ini1 ∧
      ini1.currSection = cursorAfter lower ini.currSection x ∧
      ini1.data "default".toList = some md1 ∧ md1 kk = some v := by
  by_cases hh : IsHeader x
  · refine ⟨_, md, parseLine_header lower ini x hh.1 hh.2, ?_, ?_,
      addSection_keeps lower ini _ _ md hd, hv⟩
    · obtain ⟨m1, h1⟩ := addSection_data_curr lower ini (TrimFunc IsSpace x.tail.dropLast)
      exact ⟨m1, by rw [addSection_currSection]; exact h1⟩
    · rw [addSection_currSection, cursorAfter, if_pos hh]
  · obtain ⟨m, hm⟩ := hok
    obtain ⟨ini1, m1, h1, h2, h3, h4, h5⟩ := parseLine_nonheader_frame lower ini x hne hh m hm
    have hcur : ini1.currSection = cursorAfter lower ini.currSection x := by
      rw [h2, cursorAfter, if_neg hh]
    by_cases hc : ini.currSection = "default".toList
    · have hmd : m = md := by
        rw [hc] at hm
        exact Option.some.inj (hm.symm.trans hd)
      refine ⟨ini1, m1, h1, ⟨m1, by rw [h2]; exact h3⟩, hcur, by rw [← hc]; exact h3, ?_⟩
      rw [h4 kk (fun K1 v1 hk e => hno ⟨hc, K1, v1, hk, e⟩), hmd]
      exact hv
    · refine ⟨ini1, md, h1, ⟨m1, by rw [h2]; exact h3⟩, hcur, ?_, hv⟩
      rw [h5 _ (fun e => hc e.symm)]
      exact hd

theorem foldlM_default_key (lower : Char → Char) (K v : Str) (xs : List Str)
    (hne : ∀ x ∈ xs, x ≠ []) (ini : QIni) (hok : CursorOk ini) (md : Section)
    (hd : ini.data "default".toList = some md) (hv : md (ToLower lower K) = some v)
    (hno : NoRedeclare lower K ini.currSection xs) :
    ∃ ini1 md1, xs.foldlM (parseLine lower) ini = some ini1 ∧
      ini1.data "default".toList = some md1 ∧ md1 (ToLower lower K) = some v := by
  induction xs generalizing ini md with
  | nil => exact ⟨ini, md, rfl, hd, hv⟩
  | cons x xs ih =>
    obtain ⟨hno1, hno2⟩ := hno
    obtain ⟨ini1, md1, h1, h2, h3, h4, h5⟩ := step_default_key lower ini x (ToLower lower K) v
      (hne x (List.mem_cons_self _ _)) hok md hd hv hno1
    obtain ⟨ini2, md2, g1, g2, g3⟩ := ih (fun y hy => hne y (List.mem_cons_of_mem _ hy)) ini1
      h2 md1 h4 h5 (by rw [h3]; exact hno2)
    exact ⟨ini2, md2,
      by simp only [List.foldlM_cons, h1, Option.bind_eq_bind, Option.some_bind, g1], g2, g3⟩

theorem default_key_kept (lower : Char → Char)
    (hdef : ToLower lower "default".toList = "default".toList) (pre post : List Str)
    (line K v : Str) (hpre : ∀ x ∈ pre, x ≠ [] ∧ ¬ IsHeader x) (hkv : KeyValueLine line K v)
    (hpost : ∀ x ∈ post, x ≠ []) (hno : NoRedeclare lower K "default".toList post) :
    ∃ ini, (pre ++ line :: post).foldlM (parseLine lower) initial = some ini ∧
      GetValue lower ini "default".toList K = (v, none) := by
  obtain ⟨ini1, h1, h2, ⟨m1, hm1⟩⟩ := foldlM_nonheader lower pre hpre initial
    ⟨_, initial_data_curr⟩
  obtain ⟨ini1a, ha1, ha2, ha3, -⟩ := addValue_eq_some lower ini1 K v m1 hm1
  have hcur : ini1a.currSection = "default".toList := by rw [ha2, h2]; rfl
  have hda : ini1a.data "default".toList
      = some (fun k => if k = ToLower lower K then some v else m1 k) := by
    rw [← hcur, ha2]
    exact ha3
  obtain ⟨ini2, md2, g1, g2, g3⟩ := foldlM_default_key lower K v post hpost ini1a
    ⟨_, by rw [ha2]; exact ha3⟩ _ hda (by simp) (by rw [hcur]; exact hno)
  refine ⟨ini2, ?_, ?_⟩
  · simp only [List.foldlM_append, h1, Option.bind_eq_bind, Option.some_bind,
      List.foldlM_cons, parseLine_of_KeyValueLine lower ini1 line K v hkv, ha1, g1]
  · exact GetValue_found lower ini2 _ K md2 v (by rw [hdef]; exact g2) g3



theorem takeWhile_append_stop (p : Char → Bool) (A C : Str) (c : Char)
    (hA : ∀ x ∈ A, p x = true) (hc : p c = false) : (A ++ c :: C).takeWhile p = A := by
  rw [List.takeWhile_append_of_pos hA, List.takeWhile_cons_of_neg (by simp [hc]),
    List.append_nil]

theorem TrimFunc_strip (B W mid : Str) (a z : Char) (hB : ∀ c ∈ B, c = ' ' ∨ c = '\t')
    (hW : ∀ c ∈ W, c = ' ' ∨ c = '\t') (ha : IsSpace a = false) (hz : IsSpace z = false) :
    TrimFunc IsSpace (B ++ (a :: (mid ++ z :: W))) = a :: (mid ++ [z]) := by
  have hsB : ∀ c ∈ B, IsSpace c = true := by
    intro c hc
    rcases hB c hc with h | h <;> subst h <;> decide
  have hsW : ∀ c ∈ W.reverse, IsSpace c = true := by
    intro c hc
    rcases hW c (List.mem_reverse.mp hc) with h | h <;> subst h <;> decide
  have h1 : (B ++ (a :: (mid ++ z :: W))).dropWhile IsSpace = a :: (mid ++ z :: W) := by
    rw [List.dropWhile_append_of_pos hsB, List.dropWhile_cons_of_neg (by simp [ha])]
  have h2 : (a :: (mid ++ z :: W)).reverse = W.reverse ++ z :: (a :: mid).reverse := by
    simp
  have h3 : (W.reverse ++ z :: (a :: mid).reverse).dropWhile IsSpace
      = z :: (a :: mid).reverse := by
    rw [List.dropWhile_append_of_pos hsW, List.dropWhile_cons_of_neg (by simp [hz])]
  simp only [TrimFunc, h1, List.rdropWhile, h2, h3]
  simp

theorem forLoop_nil_concat (L : Str) : forLoop (L ++ [backslash]) [] = forLoop L [] := by
  simp only [forLoop, List.reverse_append, List.reverse_singleton, List.singleton_append,
    eofLoop, if_true]

theorem forLoop_empty (reader : List Str) : forLoop [] reader = none := by
  cases reader <;> simp [forLoop, eofLoop]

theorem forLoopFuel_eq (fuel : Nat) (line : Str) (reader : List Str)
    (h : loopMeasure line reader < fuel) :
    forLoopFuel fuel line reader = some (forLoop line reader) := by
  induction fuel generalizing line reader with
  | zero => exact absurd h (Nat.not_lt_zero _)
  | succ fuel ih =>
    rcases List.eq_nil_or_concat line with rfl | ⟨L, c, rfl⟩
    · simp only [forLoopFuel, List.getLast?_nil, forLoop_empty]
    · rw [List.concat_eq_append] at h ⊢
      by_cases hc : c = backslash
      · subst hc
        cases reader with
        | nil =>
          simp only [forLoopFuel, List.getLast?_concat, if_true, List.dropLast_concat]
          rw [ih L [] (by simp [loopMeasure] at h ⊢; omega), forLoop_nil_concat]
        | cons b rest =>
          simp only [forLoopFuel, List.getLast?_concat, if_true, List.dropLast_concat]
          rw [ih _ rest (by simp [loopMeasure] at h ⊢; omega), forLoop_continue]
      · simp only [forLoopFuel, List.getLast?_concat, if_neg hc]
        rw [forLoop_stop (L ++ [c]) reader (by simp)
          (by rw [List.getLast?_concat]; exact fun e => hc (Option.some.inj e))]

theorem parseReaderFuel_eq {σ : Type} (f : σ → Str → Option σ) (fuel : Nat) (st : σ)
    (reader : List Str) (h : reader.length < fuel) :
    parseReaderFuel f fuel st reader = some (parseReaderWith f st reader) := by
  induction fuel generalizing st reader with
  | zero => exact absurd h (Nat.not_lt_zero _)
  | succ fuel ih =>
    cases reader with
    | nil => simp only [parseReaderFuel, parseReaderWith_nil]
    | cons b rest =>
      have hrest : rest.length < fuel := by
        rw [List.length_cons] at h
        omega
      rw [parseReaderWith_cons]
      simp only [parseReaderFuel]
      split
      · cases hfl : forLoop (TrimFunc IsSpace b) rest with
        | none => rfl
        | some p =>
          obtain ⟨l, r⟩ := p
          simp only
          cases f st l with
          | none => rfl
          | some st1 =>
            exact ih st1 r (Nat.lt_of_le_of_lt (forLoop_length _ _ _ _ hfl) hrest)
      · exact ih st rest hrest

/-! ## The claims -/

/-- C1. Lookup is case-insensitive: two lookups whose section names and whose key names
have equal lower-cased forms both fail or both succeed with the same value; after
loading `[Wine]` and `Grape = Cabernet Sauvignon` the lookups `wine/grape`,
`WINE/GRAPE` and `Wine/Grape` all succeed with `Cabernet Sauvignon`. -/
theorem C1_lookup_case_insensitive (lower : Char → Char)
    (hascii : ∀ c : Char, c.toNat < 128 → lower c = c.toLower) :
    (∀ (ini : QIni) (s1 s2 k1 k2 : Str),
      ToLower lower s1 = ToLower lower s2 → ToLower lower k1 = ToLower lower k2 →
      ((GetValue lower ini s1 k1).2 ≠ none ∧ (GetValue lower ini s2 k2).2 ≠ none) ∨
      (∃ v, GetValue lower ini s1 k1 = (v, none) ∧ GetValue lower ini s2 k2 = (v, none))) ∧
    (∃ ini, Load lower (some ["[Wine]".toList, "Grape = Cabernet Sauvignon".toList]) = some ini ∧
      GetValue lower ini "wine".toList "grape".toList = ("Cabernet Sauvignon".toList, none) ∧
      GetValue lower ini "WINE".toList "GRAPE".toList = ("Cabernet Sauvignon".toList, none) ∧
      GetValue lower ini "Wine".toList "Grape".toList = ("Cabernet Sauvignon".toList, none)) := by
  constructor
  · intro ini s1 s2 k1 k2 hs hk
    cases hd : ini.data (ToLower lower s2) with
    | none =>
      left
      rw [GetValue_no_section lower ini s1 k1 (hs ▸ hd), GetValue_no_section lower ini s2 k2 hd]
      simp
    | some m =>
      cases hv : m (ToLower lower k2) with
      | none =>
        left
        rw [GetValue_no_key lower ini s1 k1 m (hs ▸ hd) (hk ▸ hv),
          GetValue_no_key lower ini s2 k2 m hd hv]
        simp
      | some v =>
        right
        exact ⟨v, GetValue_found lower ini s1 k1 m v (hs ▸ hd) (hk ▸ hv),
          GetValue_found lower ini s2 k2 m v hd hv⟩
  · obtain ⟨ini2, h2⟩ := addValue_after_addSection lower initial "Wine".toList
      "Grape".toList "Cabernet Sauvignon".toList
    refine ⟨ini2, ?_, ?_, ?_, ?_⟩
    · have e1 : parseLine lower initial "[Wine]".toList
          = some (addSection lower initial "Wine".toList) := by
        rw [parseLine_header lower initial _ (by decide) (by decide)]
        exact congrArg (fun s => some (addSection lower initial s)) (by decide)
      have e2 : parseLine lower (addSection lower initial "Wine".toList)
          "Grape = Cabernet Sauvignon".toList = some ini2 := by
        rw [parseLine_keyValue lower _ _ 'G' (by decide) (by decide) (by decide)]
        have : extractKV "Grape = Cabernet Sauvignon".toList
            = some ("Grape".toList, "Cabernet Sauvignon".toList) := by decide
        rw [this]
        exact h2
      simp only [Load, parseReader]
      rw [parseReaderWith_line _ _ _ _ "[Wine]".toList ["Grape = Cabernet Sauvignon".toList]
        (by decide) (by decide), e1, Option.some_bind,
        parseReaderWith_line _ _ _ _ "Grape = Cabernet Sauvignon".toList []
        (by decide) (by decide), e2, Option.some_bind, parseReaderWith_nil]
    all_goals
      apply GetValue_after_addValue lower _ ini2 _ _ h2
      · refine Eq.trans ?_ (addSection_currSection lower initial "Wine".toList).symm
        exact (ToLower_ascii_eq lower hascii _ "wine".toList (by decide) (by decide)).trans
          (ToLower_ascii_eq lower hascii _ "wine".toList (by decide) (by decide)).symm
      · exact (ToLower_ascii_eq lower hascii _ "grape".toList (by decide) (by decide)).trans
          (ToLower_ascii_eq lower hascii _ "grape".toList (by decide) (by decide)).symm

/-- C1, at the ASCII case table. -/
theorem C1_lookup_case_insensitive_witness :
    (∀ c : Char, c.toNat < 128 → Char.toLower c = c.toLower) ∧
    ∃ ini, Load Char.toLower (some ["[Wine]".toList, "Grape = Cabernet Sauvignon".toList])
        = some ini ∧
      GetValue Char.toLower ini "wine".toList "grape".toList
        = ("Cabernet Sauvignon".toList, none) ∧
      GetValue Char.toLower ini "WINE".toList "GRAPE".toList
        = ("Cabernet Sauvignon".toList, none) ∧
      GetValue Char.toLower ini "Wine".toList "Grape".toList
        = ("Cabernet Sauvignon".toList, none) :=
  ⟨fun _ _ => rfl, (C1_lookup_case_insensitive Char.toLower (fun _ _ => rfl)).2⟩

/-- C2. `GetValue` fails, with the empty string as value, exactly when the lower-cased
section is absent or lacks the lower-cased key; otherwise it returns the stored string
and no error. The message of a failure is built from the two names as the caller gave
them, so it contains both (`Wine` and `Missing` in the example). -/
theorem C2_lookup_failure (lower : Char → Char) (ini : QIni) (s k : Str) :
    ((GetValue lower ini s k).2 ≠ none ↔
      (ini.data (ToLower lower s) = none ∨
        ∃ m, ini.data (ToLower lower s) = some m ∧ m (ToLower lower k) = none)) ∧
    ((GetValue lower ini s k).2 ≠ none →
      GetValue lower ini s k =
        ([], some ("the section ".toList ++ s ++ " not exists the key ".toList ++ k)) ∧
      ∃ msg, (GetValue lower ini s k).2 = some msg ∧ s <:+: msg ∧ k <:+: msg) ∧
    (∀ m v, ini.data (ToLower lower s) = some m → m (ToLower lower k) = some v →
      GetValue lower ini s k = (v, none)) ∧
    ((GetValue lower ini "Wine".toList "Missing".toList).2 ≠ none →
      ∃ msg, GetValue lower ini "Wine".toList "Missing".toList = ([], some msg) ∧
        msg = "the section Wine not exists the key Missing".toList ∧
        "Wine".toList <:+: msg ∧ "Missing".toList <:+: msg) := by
  have key : ∀ s k : Str, (GetValue lower ini s k).2 ≠ none →
      GetValue lower ini s k =
        ([], some ("the section ".toList ++ s ++ " not exists the key ".toList ++ k)) := by
    intro s k h
    cases hd : ini.data (ToLower lower s) with
    | none => exact GetValue_no_section lower ini s k hd
    | some m =>
      cases hv : m (ToLower lower k) with
      | none => exact GetValue_no_key lower ini s k m hd hv
      | some v =>
        rw [GetValue_found lower ini s k m v hd hv] at h
        exact absurd rfl h
  refine ⟨?_, ?_, ?_, ?_⟩
  · cases hd : ini.data (ToLower lower s) with
    | none => simp [GetValue_no_section lower ini s k hd]
    | some m =>
      cases hv : m (ToLower lower k) with
      | none => simp [GetValue_no_key lower ini s k m hd hv, hv]
      | some v => simp [GetValue_found lower ini s k m v hd hv, hv]
  · intro h
    refine ⟨key s k h, _, by rw [key s k h], ?_, ?_⟩
    · exact ⟨"the section ".toList, " not exists the key ".toList ++ k, by simp⟩
    · exact ⟨"the section ".toList ++ s ++ " not exists the key ".toList, [], by simp⟩
  · intro m v hm hv
    exact GetValue_found lower ini s k m v hm hv
  · intro h
    refine ⟨_, key _ _ h, by decide, by decide, by decide⟩

/-- C3, as amended. When a physical line whose trimmed text is `L` followed by the
marker starts a logical line (the reader is positioned at it when `parseReader` begins
a line) and the next physical line has the non-empty trimmed text `M` not ending in
the marker, the logical line is `L ++ M`, it is the text handed to the classifier, and
reading goes on after the two lines. The document `key = abc\`, `def` gives
`GetValue("default", "key") = "abcdef"`. -/
theorem C3_continuation_joining (lower : Char → Char)
    (hascii : ∀ c : Char, c.toNat < 128 → lower c = c.toLower) :
    (∀ (ini : QIni) (b c : Str) (post : List Str) (L M : Str),
      TrimFunc IsSpace b = L ++ [backslash] → TrimFunc IsSpace c = M → M ≠ [] →
      M.getLast? ≠ some backslash →
      parseReader lower ini (b :: c :: post) =
        (parseLine lower ini (L ++ M)).bind (fun ini1 => parseReader lower ini1 post)) ∧
    (∀ (b c : Str) (post : List Str) (L M : Str),
      TrimFunc IsSpace b = L ++ [backslash] → TrimFunc IsSpace c = M → M ≠ [] →
      M.getLast? ≠ some backslash →
      logicalLines (b :: c :: post) = (logicalLines post).map (fun ls => (L ++ M) :: ls)) ∧
    (∃ ini, Load lower (some ["key = abc\\".toList, "def".toList]) = some ini ∧
      GetValue lower ini "default".toList "key".toList = ("abcdef".toList, none)) := by
  refine ⟨?_, ?_, ?_⟩
  · intro ini b c post L M hb hc hM hlast
    exact parseReaderWith_join (parseLine lower) ini b c post L M hb hc hM hlast
  · intro b c post L M hb hc hM hlast
    unfold logicalLines
    rw [parseReaderWith_join _ _ b c post L M hb hc hM hlast, Option.some_bind,
      List.nil_append, parseReaderWith_record]
    rfl
  · obtain ⟨ini1, h1, -, h3, -⟩ := addValue_eq_some lower initial "key".toList
      "abcdef".toList (fun _ => none) initial_data_curr
    refine ⟨ini1, ?_, ?_⟩
    · simp only [Load, parseReader]
      rw [parseReaderWith_join _ _ _ _ [] "key = abc".toList "def".toList (by decide)
        (by decide) (by decide) (by decide),
        parseLine_keyValue lower _ _ 'k' (by decide) (by decide) (by decide)]
      have : extractKV ("key = abc".toList ++ "def".toList)
          = some ("key".toList, "abcdef".toList) := by decide
      rw [this]
      simp only [h1, Option.some_bind, parseReaderWith_nil]
    · apply GetValue_after_addValue lower _ ini1 _ _ h1
      · exact ToLower_ascii_eq lower hascii _ _ (by decide) (by decide)
      · rfl

/-- C3 as amended, at the ASCII case table and the two lines `key = abc\`, `def`. -/
theorem C3_continuation_joining_witness :
    (∀ c : Char, c.toNat < 128 → Char.toLower c = c.toLower) ∧
    logicalLines ["key = abc\\".toList, "def".toList] =
      (logicalLines []).map (fun ls => ("key = abc".toList ++ "def".toList) :: ls) :=
  ⟨fun _ _ => rfl,
    (C3_continuation_joining Char.toLower (fun _ _ => rfl)).2.1 "key = abc\\".toList
      "def".toList [] "key = abc".toList "def".toList (by decide) (by decide) (by decide)
      (by decide)⟩

/-- C3 as stated fails when the line with the marker is itself a continuation: in
`k = a\`, `x = b\`, `c` the second line has the trimmed text `x = b` followed by the
marker and the third the trimmed text `c`, yet the only logical line is
`k = ax = bc`; the text `x = bc` is never produced and no key `x` is stored. -/
theorem C3_counterexample :
    TrimFunc IsSpace "x = b\\".toList = "x = b".toList ++ [backslash] ∧
    TrimFunc IsSpace "c".toList = "c".toList ∧ "c".toList ≠ [] ∧
    "c".toList.getLast? ≠ some backslash ∧
    logicalLines ["k = a\\".toList, "x = b\\".toList, "c".toList]
      = some ["k = ax = bc".toList] ∧
    "x = b".toList ++ "c".toList ∉ ["k = ax = bc".toList] ∧
    ∃ ini, Load Char.toLower (some ["k = a\\".toList, "x = b\\".toList, "c".toList])
        = some ini ∧
      GetValue Char.toLower ini "default".toList "k".toList = ("ax = bc".toList, none) ∧
      (GetValue Char.toLower ini "default".toList "x".toList).2 ≠ none := by
  have hl : forLoop (TrimFunc IsSpace "k = a\\".toList) ["x = b\\".toList, "c".toList]
      = some ("k = ax = bc".toList, []) := by decide
  refine ⟨by decide, by decide, by decide, by decide, ?_, by decide, ?_⟩
  · unfold logicalLines
    rw [parseReaderWith_line _ _ _ _ _ _ (by decide) hl, Option.some_bind,
      parseReaderWith_nil]
    rfl
  · obtain ⟨ini1, h1, -, h3, -⟩ := addValue_eq_some Char.toLower initial "k".toList
      "ax = bc".toList (fun _ => none) initial_data_curr
    refine ⟨ini1, ?_, ?_, ?_⟩
    · simp only [Load, parseReader]
      rw [parseReaderWith_line _ _ _ _ _ _ (by decide) hl,
        parseLine_keyValue Char.toLower _ _ 'k' (by decide) (by decide) (by decide)]
      have : extractKV "k = ax = bc".toList = some ("k".toList, "ax = bc".toList) := by
        decide
      rw [this]
      simp only [h1, Option.some_bind, parseReaderWith_nil]
    · exact GetValue_after_addValue Char.toLower _ ini1 _ _ h1 _ _ (by decide) rfl
    · have h3a : ini1.data (ToLower Char.toLower "default".toList)
          = some (fun k => if k = ToLower Char.toLower "k".toList
              then some "ax = bc".toList else none) := h3
      rw [GetValue_no_key Char.toLower ini1 _ _ _ h3a (by decide)]
      simp

/-- C4. A line `K = q v q`, with `q` a quote character, `K` a key, any blanks around
`=` and `v` free of `q`, writes exactly `v` under the lower-cased key in the current
section: comment markers, the other quote and blanks inside the quotes are kept. The
line `key = "a#b;c"` gives the value `a#b;c`. -/
theorem C4_quoted_literal (lower : Char → Char) (ini : QIni) (q : Char) (K B1 B2 v : Str)
    (hq : q = dquote ∨ q = squote) (hK : K ≠ [])
    (hkey : ∀ c ∈ K, c ≠ '=' ∧ c ≠ ' ' ∧ c ≠ '\t')
    (hfirst : K.head? ≠ some ';' ∧ K.head? ≠ some '#')
    (hB1 : ∀ c ∈ B1, c = ' ' ∨ c = '\t') (hB2 : ∀ c ∈ B2, c = ' ' ∨ c = '\t')
    (hv : q ∉ v) :
    parseLine lower ini (K ++ B1 ++ ['='] ++ B2 ++ [q] ++ v ++ [q]) = addValue lower ini K v ∧
    (∀ m, ini.data ini.currSection = some m →
      ∃ ini1, parseLine lower ini (K ++ B1 ++ ['='] ++ B2 ++ [q] ++ v ++ [q]) = some ini1 ∧
        ini1.currSection = ini.currSection ∧
        ∃ m1, ini1.data ini.currSection = some m1 ∧ m1 (ToLower lower K) = some v) ∧
    parseLine lower ini "key = \"a#b;c\"".toList
      = addValue lower ini "key".toList "a#b;c".toList := by
  have main : ∀ (ini : QIni) (q : Char) (K B1 B2 v : Str), (q = dquote ∨ q = squote) →
      K ≠ [] → (∀ c ∈ K, c ≠ '=' ∧ c ≠ ' ' ∧ c ≠ '\t') →
      (K.head? ≠ some ';' ∧ K.head? ≠ some '#') →
      (∀ c ∈ B1, c = ' ' ∨ c = '\t') → (∀ c ∈ B2, c = ' ' ∨ c = '\t') → q ∉ v →
      parseLine lower ini (K ++ B1 ++ ['='] ++ B2 ++ [q] ++ v ++ [q])
        = addValue lower ini K v := by
    intro ini q K B1 B2 v hq hK hkey hfirst hB1 hB2 hv
    have hline : K ++ B1 ++ ['='] ++ B2 ++ [q] ++ v ++ [q]
        = K ++ (B1 ++ '=' :: (B2 ++ q :: (v ++ [q]))) := by simp
    have hqb : blank.accepts q = false := by
      rcases hq with h | h <;> subst h <;> decide
    have hval : scanValue (B2 ++ q :: (v ++ [q])) = v := by
      rcases hq with h | h
      · subst h
        simp only [scanValue, quotedValue_mk dquote B2 v hqb hB2 hv]
      · subst h
        simp only [scanValue, quotedValue_other dquote squote B2 _ hB2 (by decide) hqb,
          quotedValue_mk squote B2 v hqb hB2 hv]
    have hhead : ¬ ((K ++ (B1 ++ '=' :: (B2 ++ q :: (v ++ [q])))).head? = some '[' ∧
        (K ++ (B1 ++ '=' :: (B2 ++ q :: (v ++ [q])))).getLast? = some ']') := by
      rintro ⟨-, h2⟩
      rw [← hline, List.getLast?_concat] at h2
      rcases hq with h | h <;> subst h <;> exact absurd h2 (by decide)
    rw [hline, parseLine_mk lower ini K B1 _ hK hkey hfirst hB1 hhead, hval]
  refine ⟨main ini q K B1 B2 v hq hK hkey hfirst hB1 hB2 hv, ?_, ?_⟩
  · intro m hm
    rw [main ini q K B1 B2 v hq hK hkey hfirst hB1 hB2 hv]
    exact addValue_stores lower ini K v m hm
  · exact main ini dquote "key".toList " ".toList " ".toList "a#b;c".toList (Or.inl rfl)
      (by decide) (by decide) (by decide) (by decide) (by decide) (by decide)

/-- C4 at the line `key = ' a#b;"c '` read in the initial store. -/
theorem C4_quoted_literal_witness :
    parseLine Char.toLower initial
        ("key".toList ++ " ".toList ++ ['='] ++ "\t".toList ++ [squote] ++ " a#b;\"c ".toList
          ++ [squote])
      = addValue Char.toLower initial "key".toList " a#b;\"c ".toList :=
  (C4_quoted_literal Char.toLower initial squote "key".toList " ".toList "\t".toList
    " a#b;\"c ".toList (Or.inr rfl) (by decide) (by decide) (by decide) (by decide)
    (by decide) (by decide)).1

/-- C5. A key-value line `K`, blanks, `=`, `R` that is neither a section header nor of
one of the two quoted forms writes, under the lower-cased key, the text `R` cut before
its first `#` or `;` and then trimmed. The line `key = value # trailing comment` gives
the value `value`. -/
theorem C5_unquoted_truncation (lower : Char → Char) (ini : QIni) (K B R : Str)
    (hK : K ≠ []) (hkey : ∀ c ∈ K, c ≠ '=' ∧ c ≠ ' ' ∧ c ≠ '\t')
    (hfirst : K.head? ≠ some ';' ∧ K.head? ≠ some '#') (hB : ∀ c ∈ B, c = ' ' ∨ c = '\t')
    (hhead : ¬ ((K ++ B ++ ['='] ++ R).head? = some '[' ∧
      (K ++ B ++ ['='] ++ R).getLast? = some ']'))
    (hdq : FindAllStringSubmatch regDoubleQuote (K ++ B ++ ['='] ++ R) = none)
    (hsq : FindAllStringSubmatch regSingleQuote (K ++ B ++ ['='] ++ R) = none) :
    parseLine lower ini (K ++ B ++ ['='] ++ R) =
      addValue lower ini K
        (TrimFunc IsSpace (R.takeWhile (fun c => decide (c ≠ '#' ∧ c ≠ ';')))) ∧
    (∀ m, ini.data ini.currSection = some m →
      ∃ ini1, parseLine lower ini (K ++ B ++ ['='] ++ R) = some ini1 ∧
        ini1.currSection = ini.currSection ∧
        ∃ m1, ini1.data ini.currSection = some m1 ∧
          m1 (ToLower lower K) =
            some (TrimFunc IsSpace (R.takeWhile (fun c => decide (c ≠ '#' ∧ c ≠ ';'))))) ∧
    parseLine lower ini "key = value # trailing comment".toList
      = addValue lower ini "key".toList "value".toList := by
  have main : ∀ (K B R : Str), K ≠ [] → (∀ c ∈ K, c ≠ '=' ∧ c ≠ ' ' ∧ c ≠ '\t') →
      (K.head? ≠ some ';' ∧ K.head? ≠ some '#') → (∀ c ∈ B, c = ' ' ∨ c = '\t') →
      ¬ ((K ++ B ++ ['='] ++ R).head? = some '[' ∧
        (K ++ B ++ ['='] ++ R).getLast? = some ']') →
      FindAllStringSubmatch regDoubleQuote (K ++ B ++ ['='] ++ R) = none →
      FindAllStringSubmatch regSingleQuote (K ++ B ++ ['='] ++ R) = none →
      parseLine lower ini (K ++ B ++ ['='] ++ R) =
        addValue lower ini K
          (TrimFunc IsSpace (R.takeWhile (fun c => decide (c ≠ '#' ∧ c ≠ ';')))) := by
    intro K B R hK hkey hfirst hB hhead hdq hsq
    have hline : K ++ B ++ ['='] ++ R = K ++ (B ++ '=' :: R) := by simp
    rw [hline] at hhead hdq hsq ⊢
    rw [regDoubleQuote_eq] at hdq
    rw [regSingleQuote_eq] at hsq
    rw [parseLine_mk lower ini K B R hK hkey hfirst hB hhead,
      scanValue_unquoted R
        (quotedValue_none_of_no_match dquote (by decide) K B R hK hkey hB hdq)
        (quotedValue_none_of_no_match squote (by decide) K B R hK hkey hB hsq)]
  refine ⟨main K B R hK hkey hfirst hB hhead hdq hsq, ?_, ?_⟩
  · intro m hm
    rw [main K B R hK hkey hfirst hB hhead hdq hsq]
    exact addValue_stores lower ini K _ m hm
  · have h := main "key".toList " ".toList " value # trailing comment".toList (by decide)
      (by decide) (by decide) (by decide) (by decide) (by decide) (by decide)
    have hv : TrimFunc IsSpace (" value # trailing comment".toList.takeWhile
        (fun c => decide (c ≠ '#' ∧ c ≠ ';'))) = "value".toList := by decide
    rw [hv] at h
    exact h

/-- C5 at the line `key = value # trailing comment` read in the initial store. -/
theorem C5_unquoted_truncation_witness :
    parseLine Char.toLower initial
        ("key".toList ++ " ".toList ++ ['='] ++ " value # trailing comment".toList) =
      addValue Char.toLower initial "key".toList
        (TrimFunc IsSpace (" value # trailing comment".toList.takeWhile
          (fun c => decide (c ≠ '#' ∧ c ≠ ';')))) :=
  (C5_unquoted_truncation Char.toLower initial "key".toList " ".toList
    " value # trailing comment".toList (by decide) (by decide) (by decide) (by decide)
    (by decide) (by decide) (by decide)).1

/-- C6, as amended. A line `K`, blanks, `=`, blanks and then nothing or a comment,
that is not a section header (it does not both begin with `[` and end with `]`),
writes the empty string under the lower-cased key in the current section, and the
lookup of the key in that section then succeeds with the empty string. The line
`flag =` gives the value `""`. -/
theorem C6_bare_key (lower : Char → Char) (ini : QIni) (K B1 B2 C : Str)
    (hK : K ≠ []) (hkey : ∀ c ∈ K, c ≠ '=' ∧ c ≠ ' ' ∧ c ≠ '\t')
    (hfirst : K.head? ≠ some ';' ∧ K.head? ≠ some '#')
    (hB1 : ∀ c ∈ B1, c = ' ' ∨ c = '\t') (hB2 : ∀ c ∈ B2, c = ' ' ∨ c = '\t')
    (hC : C = [] ∨ ∃ c rest, C = c :: rest ∧ (c = '#' ∨ c = ';'))
    (hhead : ¬ ((K ++ B1 ++ ['='] ++ B2 ++ C).head? = some '[' ∧
      (K ++ B1 ++ ['='] ++ B2 ++ C).getLast? = some ']')) :
    parseLine lower ini (K ++ B1 ++ ['='] ++ B2 ++ C) = addValue lower ini K [] ∧
    (∀ m, ini.data ini.currSection = some m →
      ∃ ini1, parseLine lower ini (K ++ B1 ++ ['='] ++ B2 ++ C) = some ini1 ∧
        ∀ s, ToLower lower s = ini.currSection → GetValue lower ini1 s K = ([], none)) ∧
    parseLine lower ini "flag =".toList = addValue lower ini "flag".toList [] := by
  have main : ∀ (K B1 B2 C : Str), K ≠ [] → (∀ c ∈ K, c ≠ '=' ∧ c ≠ ' ' ∧ c ≠ '\t') →
      (K.head? ≠ some ';' ∧ K.head? ≠ some '#') → (∀ c ∈ B1, c = ' ' ∨ c = '\t') →
      (∀ c ∈ B2, c = ' ' ∨ c = '\t') →
      (C = [] ∨ ∃ c rest, C = c :: rest ∧ (c = '#' ∨ c = ';')) →
      ¬ ((K ++ B1 ++ ['='] ++ B2 ++ C).head? = some '[' ∧
        (K ++ B1 ++ ['='] ++ B2 ++ C).getLast? = some ']') →
      parseLine lower ini (K ++ B1 ++ ['='] ++ B2 ++ C) = addValue lower ini K [] := by
    intro K B1 B2 C hK hkey hfirst hB1 hB2 hC hhead
    have hline : K ++ B1 ++ ['='] ++ B2 ++ C = K ++ (B1 ++ '=' :: (B2 ++ C)) := by simp
    rw [hline] at hhead ⊢
    rw [parseLine_mk lower ini K B1 _ hK hkey hfirst hB1 hhead, scanValue_bare B2 C hB2 hC]
  refine ⟨main K B1 B2 C hK hkey hfirst hB1 hB2 hC hhead, ?_, ?_⟩
  · intro m hm
    rw [main K B1 B2 C hK hkey hfirst hB1 hB2 hC hhead]
    obtain ⟨ini1, h1, -⟩ := addValue_eq_some lower ini K [] m hm
    exact ⟨ini1, h1, fun s hs => GetValue_after_addValue lower ini ini1 K [] h1 s K hs rfl⟩
  · exact main "flag".toList " ".toList [] [] (by decide) (by decide) (by decide) (by decide)
      (by decide) (Or.inl rfl) (by decide)

/-- C6 as amended, at the line `flag = ; off` read in the initial store. -/
theorem C6_bare_key_witness :
    parseLine Char.toLower initial
        ("flag".toList ++ " ".toList ++ ['='] ++ " ".toList ++ "; off".toList) =
      addValue Char.toLower initial "flag".toList [] :=
  (C6_bare_key Char.toLower initial "flag".toList " ".toList " ".toList "; off".toList
    (by decide) (by decide) (by decide) (by decide) (by decide)
    (Or.inr ⟨';', " off".toList, rfl, Or.inr rfl⟩) (by decide)).1

/-- C6 as stated fails for a key that begins with `[` when the comment ends in `]`:
`[debug = ;]` is the key `[debug`, a blank, `=`, a blank and the comment `;]`, but the
line is classified as a section header. The cursor moves to the new section
`debug = ;` and no value is written: the lookup of `[debug` fails in the section that
was current and in the new one. -/
theorem C6_counterexample :
    "[debug = ;]".toList
      = "[debug".toList ++ " ".toList ++ ['='] ++ " ".toList ++ ";]".toList ∧
    (∀ c ∈ "[debug".toList, c ≠ '=' ∧ c ≠ ' ' ∧ c ≠ '\t') ∧
    ("[debug".toList.head? ≠ some ';' ∧ "[debug".toList.head? ≠ some '#') ∧
    ∃ ini1, parseLine Char.toLower initial "[debug = ;]".toList = some ini1 ∧
      ini1.currSection = "debug = ;".toList ∧
      (GetValue Char.toLower ini1 "default".toList "[debug".toList).2 ≠ none ∧
      (GetValue Char.toLower ini1 "debug = ;".toList "[debug".toList).2 ≠ none := by
  refine ⟨by decide, by decide, by decide, addSection Char.toLower initial "debug = ;".toList,
    ?_, ?_, ?_, ?_⟩
  · rw [parseLine_header Char.toLower initial _ (by decide) (by decide)]
    exact congrArg (fun s => some (addSection Char.toLower initial s)) (by decide)
  · rw [addSection_currSection]
    decide
  · have h : (addSection Char.toLower initial "debug = ;".toList).data
        (ToLower Char.toLower "default".toList) = some (fun _ => none) := by
      simp [addSection, initial, ToLower]
    rw [GetValue_no_key Char.toLower _ _ _ _ h rfl]
    simp
  · have h : (addSection Char.toLower initial "debug = ;".toList).data
        (ToLower Char.toLower "debug = ;".toList) = some (fun _ => none) := by
      simp [addSection, initial, ToLower]
    rw [GetValue_no_key Char.toLower _ _ _ _ h rfl]
    simp

/-- C7. When the key is present with the raw value `v`, `DefaultBool` is true exactly
when `v` equals, ignoring letter case, one of `T`, `TRUE`, `Y`, `YES`, `1`, and false for
every other value, whatever the fallback `b` is; when the lookup fails `DefaultBool`
returns `b`. `DefaultBool` returns the fallback (its result is `b` for every choice of
`b`, equivalently its result changes with `b`) if and only if the lookup fails. After
loading `[Pizza]`, `Ham = Yes`, `Olives = gibberish`:
`DefaultBool("Pizza", "Ham", false) = true`, `DefaultBool("Pizza", "Olives", true) = false`
and a missing key gives the fallback. -/
theorem C7_bool_coercion (lower upper : Char → Char)
    (hupper : ∀ c : Char, c.toNat < 128 → upper c = c.toUpper)
    (ini : QIni) (s k : Str) (b : Bool) :
    (∀ v, GetValue lower ini s k = (v, none) →
      (DefaultBool lower upper ini s k b = true ↔
        ∃ w ∈ ["T".toList, "TRUE".toList, "Y".toList, "YES".toList, "1".toList],
          ToUpper upper v = ToUpper upper w) ∧
      DefaultBool lower upper ini s k b = DefaultBool lower upper ini s k (!b) ∧
      (v ∈ ["T".toList, "TRUE".toList, "Y".toList, "YES".toList, "1".toList, "t".toList,
          "true".toList, "True".toList, "y".toList, "yes".toList, "Yes".toList] →
        DefaultBool lower upper ini s k b = true) ∧
      (v ∈ ["F".toList, "FALSE".toList, "N".toList, "NO".toList, "0".toList, [],
          "false".toList, "no".toList, "gibberish".toList] →
        DefaultBool lower upper ini s k b = false)) ∧
    ((GetValue lower ini s k).2 ≠ none → DefaultBool lower upper ini s k b = b) ∧
    ((∀ b1, DefaultBool lower upper ini s k b1 = b1) ↔ (GetValue lower ini s k).2 ≠ none) ∧
    (DefaultBool lower upper ini s k b ≠ DefaultBool lower upper ini s k (!b) ↔
      (GetValue lower ini s k).2 ≠ none) ∧
    ((∀ c : Char, c.toNat < 128 → lower c = c.toLower) →
      ∃ ini1, Load lower
          (some ["[Pizza]".toList, "Ham = Yes".toList, "Olives = gibberish".toList]) =
          some ini1 ∧
        GetValue lower ini1 "Pizza".toList "Ham".toList = ("Yes".toList, none) ∧
        GetValue lower ini1 "Pizza".toList "Olives".toList = ("gibberish".toList, none) ∧
        DefaultBool lower upper ini1 "Pizza".toList "Ham".toList false = true ∧
        DefaultBool lower upper ini1 "Pizza".toList "Olives".toList true = false ∧
        DefaultBool lower upper ini1 "Pizza".toList "Missing".toList b = b) := by
  have hup : ∀ w t : Str, (∀ c ∈ w, c.toNat < 128) → w.map Char.toUpper = t →
      ToUpper upper w = t := fun w t => ToUpper_ascii_eq upper hupper w t
  have hconst : ∀ (st : QIni) (s1 k1 v : Str), GetValue lower st s1 k1 = (v, none) →
      ∀ b1 b2, DefaultBool lower upper st s1 k1 b1 = DefaultBool lower upper st s1 k1 b2 := by
    intro st s1 k1 v hv b1 b2
    rw [DefaultBool_found lower upper st s1 k1 v b1 hv,
      DefaultBool_found lower upper st s1 k1 v b2 hv]
  have hshape : (GetValue lower ini s k).2 ≠ none ∨
      ∃ v, GetValue lower ini s k = (v, none) := by
    rcases hg : GetValue lower ini s k with ⟨v, e⟩
    cases e with
    | none => exact Or.inr ⟨v, rfl⟩
    | some m => exact Or.inl (by simp)
  have htrue : ∀ (st : QIni) (s1 k1 v : Str) (b1 : Bool), GetValue lower st s1 k1 = (v, none) →
      v ∈ ["T".toList, "TRUE".toList, "Y".toList, "YES".toList, "1".toList, "t".toList,
          "true".toList, "True".toList, "y".toList, "yes".toList, "Yes".toList] →
      DefaultBool lower upper st s1 k1 b1 = true := by
    intro st s1 k1 v b1 hv hmem
    rw [DefaultBool_found lower upper st s1 k1 v b1 hv]
    have htab : ∀ w ∈ ["T".toList, "TRUE".toList, "Y".toList, "YES".toList, "1".toList,
        "t".toList, "true".toList, "True".toList, "y".toList, "yes".toList, "Yes".toList],
        (∀ c ∈ w, c.toNat < 128) ∧
        (w.map Char.toUpper = "T".toList ∨ w.map Char.toUpper = "TRUE".toList ∨
          w.map Char.toUpper = "Y".toList ∨ w.map Char.toUpper = "YES".toList ∨
          w.map Char.toUpper = "1".toList) := by decide
    obtain ⟨h1, h2⟩ := htab v hmem
    rw [hup v _ h1 rfl]
    exact decide_eq_true h2
  have hfalse : ∀ (st : QIni) (s1 k1 v : Str) (b1 : Bool),
      GetValue lower st s1 k1 = (v, none) →
      v ∈ ["F".toList, "FALSE".toList, "N".toList, "NO".toList, "0".toList, [],
          "false".toList, "no".toList, "gibberish".toList] →
      DefaultBool lower upper st s1 k1 b1 = false := by
    intro st s1 k1 v b1 hv hmem
    rw [DefaultBool_found lower upper st s1 k1 v b1 hv]
    have htab : ∀ w ∈ ["F".toList, "FALSE".toList, "N".toList, "NO".toList, "0".toList, [],
        "false".toList, "no".toList, "gibberish".toList],
        (∀ c ∈ w, c.toNat < 128) ∧
        ¬ (w.map Char.toUpper = "T".toList ∨ w.map Char.toUpper = "TRUE".toList ∨
          w.map Char.toUpper = "Y".toList ∨ w.map Char.toUpper = "YES".toList ∨
          w.map Char.toUpper = "1".toList) := by decide
    obtain ⟨h1, h2⟩ := htab v hmem
    rw [hup v _ h1 rfl]
    exact decide_eq_false h2
  refine ⟨?_, DefaultBool_not_found lower upper ini s k b, ?_, ?_, ?_⟩
  · intro v hv
    refine ⟨?_, hconst ini s k v hv b (!b), htrue ini s k v b hv, hfalse ini s k v b hv⟩
    rw [DefaultBool_found lower upper ini s k v b hv]
    simp only [decide_eq_true_eq, List.mem_cons, List.mem_singleton, exists_eq_or_imp,
      exists_eq_left, List.not_mem_nil, false_and, exists_false, or_false,
      hup "T".toList "T".toList (by decide) (by decide),
      hup "TRUE".toList "TRUE".toList (by decide) (by decide),
      hup "Y".toList "Y".toList (by decide) (by decide),
      hup "YES".toList "YES".toList (by decide) (by decide),
      hup "1".toList "1".toList (by decide) (by decide)]
  · constructor
    · intro hall
      rcases hshape with h | ⟨v, hv⟩
      · exact h
      · have h1 := hall true
        have h2 := hall false
        rw [hconst ini s k v hv true false, h2] at h1
        cases h1
    · intro h b1
      exact DefaultBool_not_found lower upper ini s k b1 h
  · constructor
    · intro hne
      rcases hshape with h | ⟨v, hv⟩
      · exact h
      · exact absurd (hconst ini s k v hv b (!b)) hne
    · intro h
      rw [DefaultBool_not_found lower upper ini s k b h,
        DefaultBool_not_found lower upper ini s k (!b) h]
      cases b <;> decide
  · intro hascii
    have hm := addSection_initial_data lower "Pizza".toList
    rw [← addSection_currSection lower initial "Pizza".toList] at hm
    obtain ⟨ini2, h2, hc2, hd2, -⟩ := addValue_eq_some lower _ "Ham".toList "Yes".toList _ hm
    rw [← hc2] at hd2
    obtain ⟨ini3, h3, hc3, hd3, -⟩ :=
      addValue_eq_some lower ini2 "Olives".toList "gibberish".toList _ hd2
    have hP : ToLower lower "Pizza".toList = "pizza".toList :=
      ToLower_ascii_eq lower hascii _ _ (by decide) (by decide)
    have hH : ToLower lower "Ham".toList = "ham".toList :=
      ToLower_ascii_eq lower hascii _ _ (by decide) (by decide)
    have hO : ToLower lower "Olives".toList = "olives".toList :=
      ToLower_ascii_eq lower hascii _ _ (by decide) (by decide)
    have hM : ToLower lower "Missing".toList = "missing".toList :=
      ToLower_ascii_eq lower hascii _ _ (by decide) (by decide)
    have hcur : ini2.currSection = ToLower lower "Pizza".toList := by
      rw [hc2, addSection_currSection]
    rw [hcur] at hd3
    have hgH : GetValue lower ini3 "Pizza".toList "Ham".toList = ("Yes".toList, none) := by
      apply GetValue_found lower ini3 _ _ _ _ hd3
      rw [hH, hO]
      decide
    have hgO : GetValue lower ini3 "Pizza".toList "Olives".toList =
        ("gibberish".toList, none) :=
      GetValue_after_addValue lower ini2 ini3 _ _ h3 _ _ hcur.symm rfl
    refine ⟨ini3, ?_, hgH, hgO, htrue ini3 _ _ _ false hgH (by decide),
      hfalse ini3 _ _ _ true hgO (by decide), ?_⟩
    · have e1 : parseLine lower initial "[Pizza]".toList
          = some (addSection lower initial "Pizza".toList) := by
        rw [parseLine_header lower initial _ (by decide) (by decide)]
        exact congrArg (fun s => some (addSection lower initial s)) (by decide)
      have e2 : parseLine lower (addSection lower initial "Pizza".toList)
          "Ham = Yes".toList = some ini2 := by
        rw [parseLine_keyValue lower _ _ 'H' (by decide) (by decide) (by decide)]
        have : extractKV "Ham = Yes".toList = some ("Ham".toList, "Yes".toList) := by
          decide
        rw [this]
        exact h2
      have e3 : parseLine lower ini2 "Olives = gibberish".toList = some ini3 := by
        rw [parseLine_keyValue lower _ _ 'O' (by decide) (by decide) (by decide)]
        have : extractKV "Olives = gibberish".toList =
            some ("Olives".toList, "gibberish".toList) := by
          decide
        rw [this]
        exact h3
      simp only [Load, parseReader]
      rw [parseReaderWith_line _ _ _ _ "[Pizza]".toList
        ["Ham = Yes".toList, "Olives = gibberish".toList]
        (by decide) (by decide), e1, Option.some_bind,
        parseReaderWith_line _ _ _ _ "Ham = Yes".toList ["Olives = gibberish".toList]
        (by decide) (by decide), e2, Option.some_bind,
        parseReaderWith_line _ _ _ _ "Olives = gibberish".toList []
        (by decide) (by decide), e3, Option.some_bind, parseReaderWith_nil]
    · apply DefaultBool_not_found
      rw [GetValue_no_key lower ini3 _ _ _ hd3 (by rw [hM, hO, hH]; decide)]
      simp

/-- C7 at the ASCII case tables, on the store loaded from `[Pizza]`, `Ham = Yes`,
`Olives = gibberish`: the key `Ham` is present with the value `Yes`, so `DefaultBool`
with the fallback `false` is true by the table and does not change with the fallback;
the key `Olives` is present with a value outside the table, so `DefaultBool` with the
fallback `true` is false. -/
theorem C7_bool_coercion_witness :
    (∀ c : Char, c.toNat < 128 → Char.toUpper c = c.toUpper) ∧
    ∃ ini1, Load Char.toLower
        (some ["[Pizza]".toList, "Ham = Yes".toList, "Olives = gibberish".toList]) =
        some ini1 ∧
      GetValue Char.toLower ini1 "Pizza".toList "Ham".toList = ("Yes".toList, none) ∧
      GetValue Char.toLower ini1 "Pizza".toList "Olives".toList =
        ("gibberish".toList, none) ∧
      DefaultBool Char.toLower Char.toUpper ini1 "Pizza".toList "Ham".toList false = true ∧
      DefaultBool Char.toLower Char.toUpper ini1 "Pizza".toList "Ham".toList false =
        DefaultBool Char.toLower Char.toUpper ini1 "Pizza".toList "Ham".toList true ∧
      DefaultBool Char.toLower Char.toUpper ini1 "Pizza".toList "Olives".toList true =
        false := by
  obtain ⟨ini1, hl, hgH, hgO, -⟩ :=
    (C7_bool_coercion Char.toLower Char.toUpper (fun _ _ => rfl) initial [] [] false).2.2.2.2
      (fun _ _ => rfl)
  have hH := (C7_bool_coercion Char.toLower Char.toUpper (fun _ _ => rfl) ini1
    "Pizza".toList "Ham".toList false).1 "Yes".toList hgH
  have hO := (C7_bool_coercion Char.toLower Char.toUpper (fun _ _ => rfl) ini1
    "Pizza".toList "Olives".toList true).1 "gibberish".toList hgO
  exact ⟨fun _ _ => rfl, ini1, hl, hgH, hgO, hH.2.2.1 (by decide), hH.2.1,
    hO.2.2.2 (by decide)⟩

/-- C8. `DefaultInt` returns the integer that the raw value denotes when the key is
present and the value is a base-10 integer literal within the range of `int`; in every
other case (absent section or key, or a value that does not parse) it returns the
fallback unchanged. After loading `[Wine]` and `Year = 1989`,
`DefaultInt("Wine", "Year", 0) = 1989`, and a missing key gives the fallback.
`DefaultInt64` is `DefaultInt` at 64 bits. -/
theorem C8_numeric_fallback (lower : Char → Char) (intSize : Nat)
    (hascii : ∀ c : Char, c.toNat < 128 → lower c = c.toLower)
    (hsize : intSize = 32 ∨ intSize = 64) (ini : QIni) (s k : Str) (n0 : Int) :
    (∀ v n, GetValue lower ini s k = (v, none) → IntLiteral v n →
      -(2 ^ (intSize - 1) : Int) ≤ n → n < (2 ^ (intSize - 1) : Int) →
      DefaultInt lower intSize ini s k n0 = n) ∧
    (∀ v, GetValue lower ini s k = (v, none) →
      (¬ ∃ n, IntLiteral v n ∧ -(2 ^ (intSize - 1) : Int) ≤ n ∧ n < (2 ^ (intSize - 1) : Int)) →
      DefaultInt lower intSize ini s k n0 = n0) ∧
    ((GetValue lower ini s k).2 ≠ none → DefaultInt lower intSize ini s k n0 = n0) ∧
    (∃ ini1, Load lower (some ["[Wine]".toList, "Year = 1989".toList]) = some ini1 ∧
      DefaultInt lower intSize ini1 "Wine".toList "Year".toList 0 = 1989 ∧
      DefaultInt lower intSize ini1 "Wine".toList "Missing".toList n0 = n0) ∧
    DefaultInt64 lower ini s k n0 = DefaultInt lower 64 ini s k n0 := by
  refine ⟨?_, ?_, DefaultInt_not_found lower intSize ini s k n0, ?_, rfl⟩
  · intro v n hv hl hlo hhi
    rw [DefaultInt_found lower intSize ini s k v n0 hv, Atoi,
      ParseInt_of_literal v n intSize hl hlo hhi]
    rfl
  · intro v hv hno
    rw [DefaultInt_found lower intSize ini s k v n0 hv, Atoi]
    cases hp : ParseInt v intSize with
    | none => rfl
    | some n => exact absurd ⟨n, literal_of_ParseInt v n intSize hp⟩ hno
  · have hm := addSection_initial_data lower "Wine".toList
    rw [← addSection_currSection lower initial "Wine".toList] at hm
    obtain ⟨ini2, h2, -, h3, -⟩ := addValue_eq_some lower _ "Year".toList "1989".toList _ hm
    have hW : ToLower lower "Wine".toList = "wine".toList :=
      ToLower_ascii_eq lower hascii _ _ (by decide) (by decide)
    have hY : ToLower lower "Year".toList = "year".toList :=
      ToLower_ascii_eq lower hascii _ _ (by decide) (by decide)
    have hM : ToLower lower "Missing".toList = "missing".toList :=
      ToLower_ascii_eq lower hascii _ _ (by decide) (by decide)
    refine ⟨ini2, ?_, ?_, ?_⟩
    · have e1 : parseLine lower initial "[Wine]".toList
          = some (addSection lower initial "Wine".toList) := by
        rw [parseLine_header lower initial _ (by decide) (by decide)]
        exact congrArg (fun s => some (addSection lower initial s)) (by decide)
      have e2 : parseLine lower (addSection lower initial "Wine".toList)
          "Year = 1989".toList = some ini2 := by
        rw [parseLine_keyValue lower _ _ 'Y' (by decide) (by decide) (by decide)]
        have : extractKV "Year = 1989".toList = some ("Year".toList, "1989".toList) := by
          decide
        rw [this]
        exact h2
      simp only [Load, parseReader]
      rw [parseReaderWith_line _ _ _ _ "[Wine]".toList ["Year = 1989".toList]
        (by decide) (by decide), e1, Option.some_bind,
        parseReaderWith_line _ _ _ _ "Year = 1989".toList []
        (by decide) (by decide), e2, Option.some_bind, parseReaderWith_nil]
    · have hg : GetValue lower ini2 "Wine".toList "Year".toList = ("1989".toList, none) :=
        GetValue_after_addValue lower _ ini2 _ _ h2 _ _
          (addSection_currSection lower initial "Wine".toList).symm rfl
      rw [DefaultInt_found lower intSize ini2 _ _ _ 0 hg]
      rcases hsize with h | h <;> subst h <;> decide
    · apply DefaultInt_not_found
      rw [addSection_currSection] at h3
      rw [GetValue_no_key lower ini2 _ _ _ h3 (by rw [hM, hY]; decide)]
      simp

/-- C8 at the ASCII case table, 64-bit `int` and the initial store. -/
theorem C8_numeric_fallback_witness :
    (∀ c : Char, c.toNat < 128 → Char.toLower c = c.toLower) ∧ ((64 : Nat) = 32 ∨ (64 : Nat) = 64) ∧
    ((GetValue Char.toLower initial "Wine".toList "Year".toList).2 ≠ none →
      DefaultInt Char.toLower 64 initial "Wine".toList "Year".toList 7 = 7) :=
  ⟨fun _ _ => rfl, Or.inr rfl,
    (C8_numeric_fallback Char.toLower 64 (fun _ _ => rfl) (Or.inr rfl) initial "Wine".toList
      "Year".toList 7).2.2.1⟩

/-- C9. The store that the load pass builds always has the section `default`: in every
store that `Load` returns, and after any sequence of (non-empty) logical lines parsed
from the initial store, which always succeeds. For the empty input and for a file that
cannot be opened the store has exactly one section, `default`, and it has no key. -/
theorem C9_default_section (lower : Char → Char) :
    (∀ (file : Option (List Str)) (ini : QIni), Load lower file = some ini →
      ∃ m, ini.data "default".toList = some m) ∧
    (∀ ls : List Str, (∀ l ∈ ls, l ≠ []) →
      ∃ ini, ls.foldlM (parseLine lower) initial = some ini ∧
        ∃ m, ini.data "default".toList = some m) ∧
    (Load lower none = some initial ∧ Load lower (some []) = some initial) ∧
    (∀ s, (∃ m, initial.data s = some m) ↔ s = "default".toList) ∧
    (∀ m, initial.data "default".toList = some m → ∀ k, m k = none) := by
  have hinit : ∃ m, initial.data "default".toList = some m := ⟨_, initial_data_curr⟩
  refine ⟨?_, ?_, ⟨rfl, ?_⟩, ?_, ?_⟩
  · intro file ini h
    cases file with
    | none =>
      simp only [Load, Option.some.injEq] at h
      rw [← h]
      exact hinit
    | some reader =>
      exact parseReaderWith_invariant (parseLine lower)
        (fun st => ∃ m, st.data "default".toList = some m)
        (fun st l st1 hst hl => parseLine_keeps lower st st1 l _ hl hst) reader initial ini
        hinit h
  · intro ls hls
    obtain ⟨ini, h1, -, h2⟩ := foldlM_parseLine_total lower ls hls initial
      ⟨_, initial_data_curr⟩ "default".toList hinit
    exact ⟨ini, h1, h2⟩
  · simp only [Load, parseReader, parseReaderWith_nil]
  · intro s
    simp only [initial]
    constructor
    · rintro ⟨m, hm⟩
      by_contra hne
      rw [if_neg hne] at hm
      cases hm
    · intro e
      exact ⟨_, by rw [if_pos e]⟩
  · intro m hm k
    rw [initial_data_curr.symm.trans hm |> Option.some.inj |>.symm]

/-- C10 fails on the code. A file whose only line is the marker `\` makes the
continuation loop test the last rune of the empty line, which panics; the same
happens when only blank lines follow the marker and when the marker line comes after
other lines. A dangling marker after some text is harmless. -/
theorem C10_dangling_marker_panics (lower : Char → Char) :
    forLoop (TrimFunc IsSpace "\\".toList) [] = none ∧
    Load lower (some ["\\".toList]) = none ∧
    Load lower (some ["\\".toList, "   ".toList]) = none ∧
    Load lower (some ["# settings".toList, "\\".toList]) = none ∧
    logicalLines ["abc\\".toList] = some ["abc".toList] := by
  refine ⟨by decide, ?_, ?_, ?_, ?_⟩
  · simp only [Load, parseReader]
    exact parseReaderWith_panic _ _ _ _ (by decide) (by decide)
  · simp only [Load, parseReader]
    exact parseReaderWith_panic _ _ _ _ (by decide) (by decide)
  · simp only [Load, parseReader]
    rw [parseReaderWith_line _ _ _ _ "# settings".toList ["\\".toList] (by decide) (by decide),
      show parseLine lower initial "# settings".toList = some initial from
        parseLine_comment lower initial '#' " settings".toList (Or.inr rfl), Option.some_bind]
    exact parseReaderWith_panic _ _ _ _ (by decide) (by decide)
  · unfold logicalLines
    rw [parseReaderWith_line _ _ _ _ "abc".toList [] (by decide) (by decide), Option.some_bind,
      parseReaderWith_nil]
    rfl

/-- C11. A line of at least two runes that begins with `[` and ends with `]` moves the
cursor to the lower-cased, trimmed interior text; a section of that name is added,
empty, when the store had none; every section that existed keeps its map unchanged and
no other section appears. This holds also for `[k] = [v]`: the line is a header and no
key-value is written. -/
theorem C11_section_header (lower : Char → Char) (ini : QIni) (line : Str)
    (_hlen : 2 ≤ line.length) (h1 : line.head? = some '[') (h2 : line.getLast? = some ']') :
    (∃ ini1, parseLine lower ini line = some ini1 ∧
      ini1.currSection = ToLower lower (TrimFunc IsSpace line.tail.dropLast) ∧
      (ini.data (ToLower lower (TrimFunc IsSpace line.tail.dropLast)) = none →
        ini1.data (ToLower lower (TrimFunc IsSpace line.tail.dropLast))
          = some (fun _ => none)) ∧
      (∀ s m, ini.data s = some m → ini1.data s = some m) ∧
      (∀ s, s ≠ ToLower lower (TrimFunc IsSpace line.tail.dropLast) →
        ini1.data s = ini.data s)) ∧
    (∃ ini2, parseLine lower ini "[k] = [v]".toList = some ini2 ∧
      ini2.currSection = ToLower lower "k] = [v".toList ∧
      (∀ s m, ini.data s = some m → ini2.data s = some m) ∧
      (∀ s, s ≠ ToLower lower "k] = [v".toList → ini2.data s = ini.data s) ∧
      (ini.data (ToLower lower "k] = [v".toList) = none →
        ini2.data (ToLower lower "k] = [v".toList) = some (fun _ => none))) := by
  have main : ∀ sec : Str,
      (addSection lower ini sec).currSection = ToLower lower sec ∧
      (ini.data (ToLower lower sec) = none →
        (addSection lower ini sec).data (ToLower lower sec) = some (fun _ => none)) ∧
      (∀ s m, ini.data s = some m → (addSection lower ini sec).data s = some m) ∧
      (∀ s, s ≠ ToLower lower sec → (addSection lower ini sec).data s = ini.data s) := by
    intro sec
    refine ⟨addSection_currSection lower ini sec, ?_,
      fun s m hm => addSection_keeps lower ini sec s m hm, ?_⟩
    · intro hnone
      simp only [addSection, hnone, if_true]
    · intro s hs
      simp only [addSection]
      split
      · rfl
      · simp only [hs, if_false]
  constructor
  · obtain ⟨a, b, c, d⟩ := main (TrimFunc IsSpace line.tail.dropLast)
    exact ⟨_, parseLine_header lower ini line h1 h2, a, b, c, d⟩
  · obtain ⟨a, b, c, d⟩ := main "k] = [v".toList
    refine ⟨_, ?_, a, c, d, b⟩
    rw [parseLine_header lower ini _ (by decide) (by decide)]
    exact congrArg (fun s => some (addSection lower ini s)) (by decide)

/-- C11 at the line `[Wine]` read in the initial store. -/
theorem C11_section_header_witness :
    ∃ ini1, parseLine Char.toLower initial "[Wine]".toList = some ini1 ∧
      ini1.currSection = ToLower Char.toLower (TrimFunc IsSpace "[Wine]".toList.tail.dropLast) :=
  let ⟨ini1, h, hc, _⟩ := (C11_section_header Char.toLower initial "[Wine]".toList
    (by decide) (by decide) (by decide)).1
  ⟨ini1, h, hc⟩

/-- C12. A line classified as a key-value line with key `K` and value `v` makes the
current section map the lower-cased key to `v`; every other key of the current
section, every other section and the cursor are unchanged. Among several declarations
of a key in one section the last one wins. -/
theorem C12_last_write_wins (lower : Char → Char) (ini : QIni) (line K v : Str)
    (m : Section) (hkv : KeyValueLine line K v) (hm : ini.data ini.currSection = some m) :
    (∃ ini1, parseLine lower ini line = some ini1 ∧
      ini1.currSection = ini.currSection ∧
      (∃ m1, ini1.data ini.currSection = some m1 ∧ m1 (ToLower lower K) = some v ∧
        ∀ k, k ≠ ToLower lower K → m1 k = m k) ∧
      (∀ s, s ≠ ini.currSection → ini1.data s = ini.data s)) ∧
    (∀ pre post : List Str, (∀ x ∈ pre, x ≠ [] ∧ ¬ IsHeader x) →
      (∀ x ∈ post, x ≠ [] ∧ ¬ IsHeader x ∧
        ∀ K1 v1, KeyValueLine x K1 v1 → ToLower lower K1 ≠ ToLower lower K) →
      ∃ ini2, (pre ++ line :: post).foldlM (parseLine lower) ini = some ini2 ∧
        ∀ s, ToLower lower s = ini.currSection → GetValue lower ini2 s K = (v, none)) ∧
    (∃ ini3, ["k = 1".toList, "# note".toList, "k = 2".toList, "other = 3".toList].foldlM
        (parseLine lower) initial = some ini3 ∧
      ∀ s, ToLower lower s = "default".toList →
        GetValue lower ini3 s "k".toList = ("2".toList, none)) := by
  refine ⟨?_, ?_, ?_⟩
  · obtain ⟨ini1, h1, h2, h3, h4⟩ := addValue_eq_some lower ini K v m hm
    refine ⟨ini1, by rw [parseLine_of_KeyValueLine lower ini line K v hkv]; exact h1, h2,
      ⟨_, h3, by simp, ?_⟩, h4⟩
    intro k hk
    simp only [hk, if_false]
  · intro pre post hpre hpost
    exact last_declaration_wins lower ini line K v hkv ⟨m, hm⟩ pre post hpre hpost
  · have hkv2 : KeyValueLine "k = 2".toList "k".toList "2".toList :=
      ⟨by decide, by decide, by decide, by decide⟩
    have h := last_declaration_wins lower initial "k = 2".toList "k".toList "2".toList hkv2
      ⟨_, initial_data_curr⟩ ["k = 1".toList, "# note".toList] ["other = 3".toList]
      (by
        intro x hx
        simp only [List.mem_cons, List.mem_singleton, List.not_mem_nil, or_false] at hx
        rcases hx with rfl | rfl <;> exact ⟨by decide, by decide⟩)
      (by
        intro x hx
        simp only [List.mem_singleton] at hx
        subst hx
        refine ⟨by decide, by decide, ?_⟩
        intro K1 v1 hk e
        have he : extractKV "other = 3".toList = some ("other".toList, "3".toList) := by
          decide
        have := hk.2.2.2
        rw [he] at this
        simp only [Option.some.injEq, Prod.mk.injEq] at this
        rw [← this.1] at e
        have hlen := congrArg List.length e
        simp [ToLower] at hlen)
    exact h

/-- C12 at the line `k = 2` read in the initial store. -/
theorem C12_last_write_wins_witness :
    ∃ ini1, parseLine Char.toLower initial "k = 2".toList = some ini1 ∧
      ini1.currSection = initial.currSection :=
  let ⟨ini1, h, hc, _⟩ := (C12_last_write_wins Char.toLower initial "k = 2".toList "k".toList
    "2".toList (fun _ => none) ⟨by decide, by decide, by decide, by decide⟩
    initial_data_curr).1
  ⟨ini1, h, hc⟩

/-- C13. A non-empty line that is a comment, or that is not a header and does not begin
with a key (a non-empty run of runes other than `=`, space and tab), optional blanks
and `=`, is parsed without error and leaves the store and the cursor as they were.
Conversely a line that is neither a comment nor a header and does begin with a key and
`=` is a key-value line and writes a value. -/
theorem C13_dropped_lines (lower : Char → Char) (ini : QIni) (line : Str) (hne : line ≠ [])
    (h : IsComment line ∨
      (¬ IsHeader line ∧ ¬ ∃ K B R : Str, K ≠ [] ∧ (∀ c ∈ K, c ≠ '=' ∧ c ≠ ' ' ∧ c ≠ '\t') ∧
        (∀ c ∈ B, c = ' ' ∨ c = '\t') ∧ line = K ++ B ++ ['='] ++ R)) :
    parseLine lower ini line = some ini ∧
    (∀ l ∈ ["# [s] k = v".toList, "; k = v".toList, "[unclosed".toList,
        "no equals sign".toList, "= v".toList, "my key = v".toList],
      parseLine lower ini l = some ini) ∧
    (∀ line2 K B R : Str, ¬ IsComment line2 → ¬ IsHeader line2 → K ≠ [] →
      (∀ c ∈ K, c ≠ '=' ∧ c ≠ ' ' ∧ c ≠ '\t') → (∀ c ∈ B, c = ' ' ∨ c = '\t') →
      line2 = K ++ B ++ ['='] ++ R →
      ∃ v, KeyValueLine line2 K v ∧ parseLine lower ini line2 = addValue lower ini K v ∧
        (∀ m, ini.data ini.currSection = some m →
          ∃ ini1 m1, parseLine lower ini line2 = some ini1 ∧
            ini1.data ini.currSection = some m1 ∧ m1 (ToLower lower K) = some v)) := by
  have drop : ∀ l : Str, l ≠ [] → ¬ IsComment l → ¬ IsHeader l → scanKey l = none →
      parseLine lower ini l = some ini := by
    intro l hne hc hh hs
    rw [parseLine_of_not_header lower ini l hne hc hh, extractKV_eq_scan, hs]
  refine ⟨?_, ?_, ?_⟩
  · rcases h with hc | ⟨hh, hno⟩
    · exact parseLine_of_IsComment lower ini line hc
    · by_cases hc : IsComment line
      · exact parseLine_of_IsComment lower ini line hc
      · apply drop line hne hc hh
        cases hs : scanKey line with
        | none => rfl
        | some p =>
          obtain ⟨K, n, R⟩ := p
          obtain ⟨B, h1, h2, h3, h4⟩ := scanKey_sound line K R n hs
          exact absurd ⟨K, B, R, h1, h2, h3, by rw [h4]; simp⟩ hno
  · intro l hl
    simp only [List.mem_cons, List.mem_singleton, List.not_mem_nil, or_false] at hl
    rcases hl with rfl | rfl | rfl | rfl | rfl | rfl
    · exact parseLine_of_IsComment lower ini _ (by decide)
    · exact parseLine_of_IsComment lower ini _ (by decide)
    · exact drop _ (by decide) (by decide) (by decide) (by decide)
    · exact drop _ (by decide) (by decide) (by decide) (by decide)
    · exact drop _ (by decide) (by decide) (by decide) (by decide)
    · exact drop _ (by decide) (by decide) (by decide) (by decide)
  · intro line2 K B R hc hh hK hkey hB hl
    have hl2 : line2 = K ++ (B ++ '=' :: R) := by rw [hl]; simp
    have hne2 : line2 ≠ [] := by
      rw [hl2]
      simp [hK]
    have he : extractKV line2 = some (K, scanValue R) := by
      rw [extractKV_eq_scan, hl2, scanKey_mk K B R hK hkey hB]
    have hkv : KeyValueLine line2 K (scanValue R) := ⟨hne2, hc, hh, he⟩
    refine ⟨scanValue R, hkv, parseLine_of_KeyValueLine lower ini line2 K _ hkv, ?_⟩
    intro m hm
    obtain ⟨ini1, h1, -, h3, -⟩ := addValue_eq_some lower ini K (scanValue R) m hm
    exact ⟨ini1, _, by rw [parseLine_of_KeyValueLine lower ini line2 K _ hkv]; exact h1, h3,
      by simp⟩

/-- C13 at the line `my key = v` read in the initial store. -/
theorem C13_dropped_lines_witness :
    parseLine Char.toLower initial "my key = v".toList = some initial :=
  (C13_dropped_lines Char.toLower initial "my key = v".toList (by decide)
    (Or.inr ⟨by decide, by
      rintro ⟨K, B, R, hK, hkey, hB, hl⟩
      have hs := scanKey_mk K B R hK hkey hB
      have hl2 : "my key = v".toList = K ++ (B ++ '=' :: R) := by rw [hl]; simp
      have hn : scanKey "my key = v".toList = none := by decide
      rw [← hl2, hn] at hs
      cases hs⟩)).1

/-- C14. For a case table that is idempotent (lower-casing a lower-cased rune changes
nothing) and ASCII lower-casing on ASCII, every section name and every key name of the
store is its own lower-cased form, after any sequence of logical lines and in every
store that `Load` returns. Values are stored as extracted: after `[Wine]` and
`Grape = Cabernet Sauvignon` the store has the section `wine` and not `Wine`, the key
`grape` and not `Grape`, and the value `Cabernet Sauvignon` with its capitals. -/
theorem C14_canonical_names (lower : Char → Char)
    (hascii : ∀ c : Char, c.toNat < 128 → lower c = c.toLower)
    (hidem : ∀ c : Char, lower (lower c) = lower c) :
    (∀ (ls : List Str) (ini : QIni), ls.foldlM (parseLine lower) initial = some ini →
      ∀ s m, ini.data s = some m →
        ToLower lower s = s ∧ ∀ k v, m k = some v → ToLower lower k = k) ∧
    (∀ (file : Option (List Str)) (ini : QIni), Load lower file = some ini →
      ∀ s m, ini.data s = some m →
        ToLower lower s = s ∧ ∀ k v, m k = some v → ToLower lower k = k) ∧
    (∃ ini, Load lower (some ["[Wine]".toList, "Grape = Cabernet Sauvignon".toList]) = some ini ∧
      ini.data "Wine".toList = none ∧
      ∃ m, ini.data "wine".toList = some m ∧ m "Grape".toList = none ∧
        m "grape".toList = some "Cabernet Sauvignon".toList) := by
  have hdef : ToLower lower "default".toList = "default".toList :=
    ToLower_ascii_eq lower hascii _ _ (by decide) (by decide)
  have h0 := initial_Canonical lower hdef
  have hstep : ∀ ini l ini1, Canonical lower ini → parseLine lower ini l = some ini1 →
      Canonical lower ini1 :=
    fun ini l ini1 hc h => parseLine_Canonical lower hidem ini ini1 l hc h
  have hload : ∀ (file : Option (List Str)) (ini : QIni), Load lower file = some ini →
      Canonical lower ini := by
    intro file ini h
    cases file with
    | none =>
      simp only [Load, Option.some.injEq] at h
      rw [← h]
      exact h0
    | some reader =>
      exact parseReaderWith_invariant (parseLine lower) (Canonical lower) hstep reader initial
        ini h0 h
  refine ⟨fun ls ini h => foldlM_invariant lower (Canonical lower) hstep ls initial ini h0 h,
    hload, ?_⟩
  have hW : ToLower lower "Wine".toList = "wine".toList :=
    ToLower_ascii_eq lower hascii _ _ (by decide) (by decide)
  have hG : ToLower lower "Grape".toList = "grape".toList :=
    ToLower_ascii_eq lower hascii _ _ (by decide) (by decide)
  have hm := addSection_initial_data lower "Wine".toList
  have hcur := addSection_currSection lower initial "Wine".toList
  rw [← hcur] at hm
  obtain ⟨ini2, h2, -, h3, h4⟩ := addValue_eq_some lower _ "Grape".toList
    "Cabernet Sauvignon".toList _ hm
  have hl : Load lower (some ["[Wine]".toList, "Grape = Cabernet Sauvignon".toList])
      = some ini2 := by
    have e1 : parseLine lower initial "[Wine]".toList
        = some (addSection lower initial "Wine".toList) := by
      rw [parseLine_header lower initial _ (by decide) (by decide)]
      exact congrArg (fun s => some (addSection lower initial s)) (by decide)
    have e2 : parseLine lower (addSection lower initial "Wine".toList)
        "Grape = Cabernet Sauvignon".toList = some ini2 := by
      rw [parseLine_keyValue lower _ _ 'G' (by decide) (by decide) (by decide)]
      have : extractKV "Grape = Cabernet Sauvignon".toList
          = some ("Grape".toList, "Cabernet Sauvignon".toList) := by decide
      rw [this]
      exact h2
    simp only [Load, parseReader]
    rw [parseReaderWith_line _ _ _ _ "[Wine]".toList ["Grape = Cabernet Sauvignon".toList]
      (by decide) (by decide), e1, Option.some_bind,
      parseReaderWith_line _ _ _ _ "Grape = Cabernet Sauvignon".toList []
      (by decide) (by decide), e2, Option.some_bind, parseReaderWith_nil]
  refine ⟨ini2, hl, ?_, ?_⟩
  · cases hd : ini2.data "Wine".toList with
    | none => rfl
    | some m =>
      have := (hload _ ini2 hl "Wine".toList m hd).1
      rw [hW] at this
      exact absurd this (by decide)
  · rw [hcur, hW] at h3
    refine ⟨_, h3, ?_, ?_⟩
    · simp only [hG]
      rw [if_neg (by decide)]
    · simp only [hG, if_true]

/-- C14 at the ASCII case table. -/
theorem C14_canonical_names_witness :
    (∀ c : Char, c.toNat < 128 → Char.toLower c = c.toLower) ∧
    (∀ c : Char, Char.toLower (Char.toLower c) = Char.toLower c) ∧
    ∃ ini, Load Char.toLower (some ["[Wine]".toList, "Grape = Cabernet Sauvignon".toList])
        = some ini ∧
      ini.data "Wine".toList = none ∧
      ∃ m, ini.data "wine".toList = some m ∧ m "Grape".toList = none ∧
        m "grape".toList = some "Cabernet Sauvignon".toList :=
  ⟨fun _ _ => rfl, Char_toLower_idem,
    (C14_canonical_names Char.toLower (fun _ _ => rfl) Char_toLower_idem).2.2⟩

/-- C15, as amended. When a key-value line with key `K` and value `v` comes before the
first section header and no later line re-declares `K` while the current section is
`default` (neither before that header nor after a later header that re-opens
`default`), then after loading `GetValue("default", K)` succeeds and returns `v`. -/
theorem C15_default_section_keys (lower : Char → Char)
    (hascii : ∀ c : Char, c.toNat < 128 → lower c = c.toLower) (pre post : List Str)
    (line K v : Str) (hpre : ∀ x ∈ pre, x ≠ [] ∧ ¬ IsHeader x) (hkv : KeyValueLine line K v)
    (hpost : ∀ x ∈ post, x ≠ []) (hno : NoRedeclare lower K "default".toList post) :
    (∃ ini, (pre ++ line :: post).foldlM (parseLine lower) initial = some ini ∧
      GetValue lower ini "default".toList K = (v, none)) ∧
    (∀ reader : List Str, logicalLines reader = some (pre ++ line :: post) →
      ∃ ini, Load lower (some reader) = some ini ∧
        GetValue lower ini "default".toList K = (v, none)) := by
  have hdef : ToLower lower "default".toList = "default".toList :=
    ToLower_ascii_eq lower hascii _ _ (by decide) (by decide)
  have h := default_key_kept lower hdef pre post line K v hpre hkv hpost hno
  refine ⟨h, ?_⟩
  intro reader hr
  rw [Load_of_logicalLines lower reader _ hr]
  exact h

/-- C15 as amended, at the lines `# c`, `k = 1`, `[s]`, `k = 2`: the second declaration
is made in the section `s`. -/
theorem C15_default_section_keys_witness :
    ∃ ini, (["# c".toList] ++ "k = 1".toList :: ["[s]".toList, "k = 2".toList]).foldlM
        (parseLine Char.toLower) initial = some ini ∧
      GetValue Char.toLower ini "default".toList "k".toList = ("1".toList, none) :=
  (C15_default_section_keys Char.toLower (fun _ _ => rfl) ["# c".toList]
    ["[s]".toList, "k = 2".toList] "k = 1".toList "k".toList "1".toList
    (by
      intro x hx
      rw [List.mem_singleton.mp hx]
      exact ⟨by decide, by decide⟩)
    ⟨by decide, by decide, by decide, by decide⟩
    (by
      intro x hx
      simp only [List.mem_cons, List.mem_singleton, List.not_mem_nil, or_false] at hx
      rcases hx with rfl | rfl <;> decide)
    ⟨fun h => by
        obtain ⟨-, K1, v1, hk, -⟩ := h
        exact hk.2.2.1 (by decide),
      fun h => absurd h.1 (by decide), trivial⟩).1

/-- C15 as stated fails when a later header re-opens `default`: in `k = 1`,
`[default]`, `k = 2` the line `k = 1` is a key-value line before the first header and
`k` is not declared again before that header, yet after loading
`GetValue("default", "k")` returns `2`. -/
theorem C15_counterexample :
    KeyValueLine "k = 1".toList "k".toList "1".toList ∧ IsHeader "[default]".toList ∧
    KeyValueLine "k = 2".toList "k".toList "2".toList ∧
    ∃ ini, Load Char.toLower (some ["k = 1".toList, "[default]".toList, "k = 2".toList])
        = some ini ∧
      GetValue Char.toLower ini "default".toList "k".toList = ("2".toList, none) := by
  have hk1 : KeyValueLine "k = 1".toList "k".toList "1".toList :=
    ⟨by decide, by decide, by decide, by decide⟩
  have hk2 : KeyValueLine "k = 2".toList "k".toList "2".toList :=
    ⟨by decide, by decide, by decide, by decide⟩
  refine ⟨hk1, by decide, hk2, ?_⟩
  obtain ⟨ini1, h1, -⟩ := addValue_eq_some Char.toLower initial "k".toList "1".toList _
    initial_data_curr
  obtain ⟨m2, hm2⟩ := addSection_data_curr Char.toLower ini1 "default".toList
  rw [← addSection_currSection Char.toLower ini1 "default".toList] at hm2
  obtain ⟨ini3, h3, -⟩ := addValue_eq_some Char.toLower _ "k".toList "2".toList m2 hm2
  refine ⟨ini3, ?_, ?_⟩
  · have e2 : parseLine Char.toLower ini1 "[default]".toList
        = some (addSection Char.toLower ini1 "default".toList) := by
      rw [parseLine_header Char.toLower ini1 _ (by decide) (by decide)]
      exact congrArg (fun s => some (addSection Char.toLower ini1 s)) (by decide)
    simp only [Load, parseReader]
    rw [parseReaderWith_line _ _ _ _ "k = 1".toList ["[default]".toList, "k = 2".toList]
        (by decide) (by decide),
      parseLine_of_KeyValueLine Char.toLower initial _ _ _ hk1, h1, Option.some_bind,
      parseReaderWith_line _ _ _ _ "[default]".toList ["k = 2".toList] (by decide) (by decide),
      e2, Option.some_bind,
      parseReaderWith_line _ _ _ _ "k = 2".toList [] (by decide) (by decide),
      parseLine_of_KeyValueLine Char.toLower _ _ _ _ hk2, h3, Option.some_bind,
      parseReaderWith_nil]
  · exact GetValue_after_addValue Char.toLower _ ini3 _ _ h3 _ _
      (addSection_currSection Char.toLower ini1 "default".toList).symm rfl

/-- C16, as amended. For an unquoted key-value line `K = R` the stored value is the
text after `=` up to, and not including, the first `#` or `;`, escaped or not, trimmed
of surrounding whitespace: a backslash before the marker does not protect it and stays
in the value. The line `key = a\#b ; c` stores `a\`. -/
theorem C16_comment_markers (lower : Char → Char) (ini : QIni) (K B R : Str)
    (hK : K ≠ []) (hkey : ∀ c ∈ K, c ≠ '=' ∧ c ≠ ' ' ∧ c ≠ '\t')
    (hfirst : K.head? ≠ some ';' ∧ K.head? ≠ some '#') (hB : ∀ c ∈ B, c = ' ' ∨ c = '\t')
    (hhead : ¬ IsHeader (K ++ B ++ ['='] ++ R))
    (hdq : FindAllStringSubmatch regDoubleQuote (K ++ B ++ ['='] ++ R) = none)
    (hsq : FindAllStringSubmatch regSingleQuote (K ++ B ++ ['='] ++ R) = none) :
    parseLine lower ini (K ++ B ++ ['='] ++ R) =
      addValue lower ini K
        (TrimFunc IsSpace (R.takeWhile (fun c => decide (c ≠ '#' ∧ c ≠ ';')))) ∧
    (∀ (P S : Str) (c : Char), R = P ++ [backslash] ++ [c] ++ S →
      (∀ x ∈ P, x ≠ '#' ∧ x ≠ ';') → (c = '#' ∨ c = ';') →
      parseLine lower ini (K ++ B ++ ['='] ++ R) =
        addValue lower ini K (TrimFunc IsSpace (P ++ [backslash]))) ∧
    parseLine lower ini "key = a\\#b ; c".toList
      = addValue lower ini "key".toList "a\\".toList := by
  have main : ∀ (K B R : Str), K ≠ [] → (∀ c ∈ K, c ≠ '=' ∧ c ≠ ' ' ∧ c ≠ '\t') →
      (K.head? ≠ some ';' ∧ K.head? ≠ some '#') → (∀ c ∈ B, c = ' ' ∨ c = '\t') →
      ¬ IsHeader (K ++ B ++ ['='] ++ R) →
      FindAllStringSubmatch regDoubleQuote (K ++ B ++ ['='] ++ R) = none →
      FindAllStringSubmatch regSingleQuote (K ++ B ++ ['='] ++ R) = none →
      parseLine lower ini (K ++ B ++ ['='] ++ R) =
        addValue lower ini K
          (TrimFunc IsSpace (R.takeWhile (fun c => decide (c ≠ '#' ∧ c ≠ ';')))) := by
    intro K B R hK hkey hfirst hB hhead hdq hsq
    have hline : K ++ B ++ ['='] ++ R = K ++ (B ++ '=' :: R) := by simp
    rw [hline] at hhead hdq hsq ⊢
    rw [regDoubleQuote_eq] at hdq
    rw [regSingleQuote_eq] at hsq
    rw [parseLine_mk lower ini K B R hK hkey hfirst hB hhead,
      scanValue_unquoted R
        (quotedValue_none_of_no_match dquote (by decide) K B R hK hkey hB hdq)
        (quotedValue_none_of_no_match squote (by decide) K B R hK hkey hB hsq)]
  refine ⟨main K B R hK hkey hfirst hB hhead hdq hsq, ?_, ?_⟩
  · intro P S c hR hP hc
    rw [main K B R hK hkey hfirst hB hhead hdq hsq]
    have hR2 : R = (P ++ [backslash]) ++ c :: S := by rw [hR]; simp
    have hcut : R.takeWhile (fun c => decide (c ≠ '#' ∧ c ≠ ';')) = P ++ [backslash] := by
      rw [hR2]
      apply takeWhile_append_stop
      · intro x hx
        rcases List.mem_append.mp hx with hx | hx
        · simp [(hP x hx).1, (hP x hx).2]
        · rw [List.mem_singleton.mp hx]; decide
      · rcases hc with h | h <;> subst h <;> decide
    rw [hcut]
  · have h := main "key".toList " ".toList " a\\#b ; c".toList (by decide) (by decide)
      (by decide) (by decide) (by decide) (by decide) (by decide)
    have hv : TrimFunc IsSpace (" a\\#b ; c".toList.takeWhile
        (fun c => decide (c ≠ '#' ∧ c ≠ ';'))) = "a\\".toList := by decide
    rw [hv] at h
    exact h

/-- C16 as amended, at the line `key = a\#b ; c` read in the initial store. -/
theorem C16_comment_markers_witness :
    parseLine Char.toLower initial
        ("key".toList ++ " ".toList ++ ['='] ++ " a\\#b ; c".toList) =
      addValue Char.toLower initial "key".toList
        (TrimFunc IsSpace (" a\\#b ; c".toList.takeWhile
          (fun c => decide (c ≠ '#' ∧ c ≠ ';')))) :=
  (C16_comment_markers Char.toLower initial "key".toList " ".toList " a\\#b ; c".toList
    (by decide) (by decide) (by decide) (by decide) (by decide) (by decide) (by decide)).1

/-- C16 as stated fails on its own example: in `key = a\#b ; c` the text up to the
first unescaped marker is ` a\#b `, trimmed `a\#b`, but the line is an unquoted
key-value line whose stored value is `a\`: the value ends at the escaped `#`. -/
theorem C16_counterexample :
    KeyValueLine "key = a\\#b ; c".toList "key".toList "a\\".toList ∧
    FindAllStringSubmatch regDoubleQuote "key = a\\#b ; c".toList = none ∧
    FindAllStringSubmatch regSingleQuote "key = a\\#b ; c".toList = none ∧
    TrimFunc IsSpace (cutUnescaped " a\\#b ; c".toList) = "a\\#b".toList ∧
    "a\\".toList ≠ "a\\#b".toList ∧
    ∃ ini, parseLine Char.toLower initial "key = a\\#b ; c".toList = some ini ∧
      GetValue Char.toLower ini "default".toList "key".toList = ("a\\".toList, none) := by
  have hk : KeyValueLine "key = a\\#b ; c".toList "key".toList "a\\".toList :=
    ⟨by decide, by decide, by decide, by decide⟩
  refine ⟨hk, by decide, by decide, by decide, by decide, ?_⟩
  obtain ⟨ini1, h1, -⟩ := addValue_eq_some Char.toLower initial "key".toList "a\\".toList _
    initial_data_curr
  refine ⟨ini1, ?_, ?_⟩
  · rw [parseLine_of_KeyValueLine Char.toLower initial _ _ _ hk]
    exact h1
  · exact GetValue_after_addValue Char.toLower _ ini1 _ _ h1 _ _ (by decide) rfl

/-- C17. The load pass terminates. The continuation loop, run as written with a bound
on its iterations, ends within `loopMeasure + 1` tests of its condition with the result
of `forLoop`, because every iteration lowers the measure: it consumes a physical line
or shortens the accumulated line. Once the stream has ended the loop ends within the
length of the line plus one tests. The recursion of `parseReader` ends within the
number of physical lines plus one calls with the result of `parseReader`. -/
theorem C17_load_terminates :
    (∀ (fuel : Nat) (line : Str) (reader : List Str), loopMeasure line reader < fuel →
      forLoopFuel fuel line reader = some (forLoop line reader)) ∧
    (∀ (L b : Str) (rest : List Str),
      loopMeasure (L ++ TrimFunc IsSpace b) rest < loopMeasure (L ++ [backslash]) (b :: rest)) ∧
    (∀ L : Str, loopMeasure L [] < loopMeasure (L ++ [backslash]) []) ∧
    (∀ (fuel : Nat) (line : Str), line.length < fuel →
      forLoopFuel fuel line [] = some (forLoop line [])) ∧
    (∀ (lower : Char → Char) (fuel : Nat) (ini : QIni) (reader : List Str),
      reader.length < fuel →
      parseReaderFuel (parseLine lower) fuel ini reader = some (parseReader lower ini reader)) ∧
    (∀ (lower : Char → Char) (reader : List Str),
      parseReaderFuel (parseLine lower) (reader.length + 1) initial reader
        = some (Load lower (some reader))) ∧
    forLoopFuel 6 "abc\\\\".toList [] = some (some ("abc".toList, [])) ∧
    forLoopFuel 2 "\\".toList [] = some none := by
  refine ⟨forLoopFuel_eq, ?_, ?_, ?_, ?_, ?_, by decide, by decide⟩
  · intro L b rest
    simp [loopMeasure]
    omega
  · intro L
    simp [loopMeasure]
  · intro fuel line h
    exact forLoopFuel_eq fuel line [] (by simpa [loopMeasure] using h)
  · intro lower fuel ini reader h
    exact parseReaderFuel_eq (parseLine lower) fuel ini reader h
  · intro lower reader
    exact parseReaderFuel_eq (parseLine lower) _ initial reader (Nat.lt_succ_self _)

/-- C18. The line `K = "v" # comment`, with `K` a key and `v` free of `"`, `#` and
`;`, stores under the lower-cased key the value `"v"` with both quote characters:
the double-quoted pattern does not match the line and the unquoted pattern applies.
The same holds for any blanks around `=` and before the marker, for `;` as the marker
and for any comment text, as long as the line is not a section header. -/
theorem C18_quoted_then_comment (lower : Char → Char) (ini : QIni) (K v : Str)
    (hK : K ≠ []) (hkey : ∀ c ∈ K, c ≠ '=' ∧ c ≠ ' ' ∧ c ≠ '\t')
    (hfirst : K.head? ≠ some ';' ∧ K.head? ≠ some '#')
    (hv : ∀ c ∈ v, c ≠ dquote ∧ c ≠ '#' ∧ c ≠ ';') :
    parseLine lower ini (K ++ " = \"".toList ++ v ++ "\" # comment".toList)
      = addValue lower ini K ([dquote] ++ v ++ [dquote]) ∧
    (∀ m, ini.data ini.currSection = some m →
      ∃ ini1 m1, parseLine lower ini (K ++ " = \"".toList ++ v ++ "\" # comment".toList)
          = some ini1 ∧
        ini1.data ini.currSection = some m1 ∧
        m1 (ToLower lower K) = some ([dquote] ++ v ++ [dquote])) ∧
    FindAllStringSubmatch regDoubleQuote
      (K ++ " = \"".toList ++ v ++ "\" # comment".toList) = none ∧
    [dquote] ++ v ++ [dquote] ≠ v ∧
    (∀ (B1 B2 W C : Str) (c : Char), (∀ x ∈ B1, x = ' ' ∨ x = '\t') →
      (∀ x ∈ B2, x = ' ' ∨ x = '\t') → (∀ x ∈ W, x = ' ' ∨ x = '\t') → (c = '#' ∨ c = ';') →
      ¬ IsHeader (K ++ B1 ++ ['='] ++ B2 ++ [dquote] ++ v ++ [dquote] ++ W ++ [c] ++ C) →
      parseLine lower ini (K ++ B1 ++ ['='] ++ B2 ++ [dquote] ++ v ++ [dquote] ++ W ++ [c] ++ C)
        = addValue lower ini K ([dquote] ++ v ++ [dquote])) := by
  have hq : ∀ (B2 W C : Str) (c : Char), (∀ x ∈ B2, x = ' ' ∨ x = '\t') →
      (∀ x ∈ W, x = ' ' ∨ x = '\t') → (c = '#' ∨ c = ';') →
      quotedValue dquote (B2 ++ dquote :: (v ++ dquote :: (W ++ c :: C))) = none ∧
      scanValue (B2 ++ dquote :: (v ++ dquote :: (W ++ c :: C))) = dquote :: (v ++ [dquote]) := by
    intro B2 W C c hB2 hW hc
    have hb1 : ∀ x ∈ B2, blank.accepts x = true :=
      fun x hx => (blank_accepts_iff x).mpr (hB2 x hx)
    have hv1 : ∀ x ∈ v, (CharClass.noneOf [dquote]).accepts x = true := by
      intro x hx
      simp [CharClass.accepts, (hv x hx).1]
    have h1 : (B2 ++ dquote :: (v ++ dquote :: (W ++ c :: C))).dropWhile blank.accepts
        = dquote :: (v ++ dquote :: (W ++ c :: C)) := by
      rw [List.dropWhile_append_of_pos hb1, List.dropWhile_cons_of_neg (by decide)]
    have h2 : (v ++ dquote :: (W ++ c :: C)).dropWhile (CharClass.noneOf [dquote]).accepts
        = dquote :: (W ++ c :: C) := by
      rw [List.dropWhile_append_of_pos hv1, List.dropWhile_cons_of_neg (by decide)]
    have hdq : quotedValue dquote (B2 ++ dquote :: (v ++ dquote :: (W ++ c :: C))) = none := by
      simp only [quotedValue, h1, h2]
      rw [if_neg]
      rintro ⟨-, h⟩
      have := congrArg List.length h
      simp at this
    have hsq : quotedValue squote (B2 ++ dquote :: (v ++ dquote :: (W ++ c :: C))) = none :=
      quotedValue_other squote dquote B2 _ hB2 (by decide) (by decide)
    refine ⟨hdq, ?_⟩
    rw [scanValue_unquoted _ hdq hsq]
    have hcut : (B2 ++ dquote :: (v ++ dquote :: (W ++ c :: C))).takeWhile
        (fun x => decide (x ≠ '#' ∧ x ≠ ';')) = B2 ++ dquote :: (v ++ dquote :: W) := by
      have : B2 ++ dquote :: (v ++ dquote :: (W ++ c :: C))
          = (B2 ++ dquote :: (v ++ dquote :: W)) ++ c :: C := by simp
      rw [this]
      apply takeWhile_append_stop
      · intro x hx
        simp only [List.mem_append, List.mem_cons] at hx
        rcases hx with hx | hx | hx | hx | hx
        · rcases hB2 x hx with h | h <;> subst h <;> decide
        · subst hx; decide
        · simp [(hv x hx).2.1, (hv x hx).2.2]
        · subst hx; decide
        · rcases hW x hx with h | h <;> subst h <;> decide
      · rcases hc with h | h <;> subst h <;> decide
    rw [hcut]
    exact TrimFunc_strip B2 W v dquote dquote hB2 hW (by decide) (by decide)
  have gen : ∀ (B1 B2 W C : Str) (c : Char), (∀ x ∈ B1, x = ' ' ∨ x = '\t') →
      (∀ x ∈ B2, x = ' ' ∨ x = '\t') → (∀ x ∈ W, x = ' ' ∨ x = '\t') → (c = '#' ∨ c = ';') →
      ¬ IsHeader (K ++ B1 ++ ['='] ++ B2 ++ [dquote] ++ v ++ [dquote] ++ W ++ [c] ++ C) →
      parseLine lower ini (K ++ B1 ++ ['='] ++ B2 ++ [dquote] ++ v ++ [dquote] ++ W ++ [c] ++ C)
        = addValue lower ini K ([dquote] ++ v ++ [dquote]) := by
    intro B1 B2 W C c hB1 hB2 hW hc hh
    have hline : K ++ B1 ++ ['='] ++ B2 ++ [dquote] ++ v ++ [dquote] ++ W ++ [c] ++ C
        = K ++ (B1 ++ '=' :: (B2 ++ dquote :: (v ++ dquote :: (W ++ c :: C)))) := by simp
    rw [hline] at hh ⊢
    rw [parseLine_mk lower ini K B1 _ hK hkey hfirst hB1 hh, (hq B2 W C c hB2 hW hc).2]
    simp
  have hlit : K ++ " = \"".toList ++ v ++ "\" # comment".toList
      = K ++ " ".toList ++ ['='] ++ " ".toList ++ [dquote] ++ v ++ [dquote] ++ " ".toList
        ++ ['#'] ++ " comment".toList := by
    simp [dquote]
  have hnh : ¬ IsHeader (K ++ " ".toList ++ ['='] ++ " ".toList ++ [dquote] ++ v ++ [dquote]
      ++ " ".toList ++ ['#'] ++ " comment".toList) := by
    rintro ⟨-, h⟩
    have e : K ++ " ".toList ++ ['='] ++ " ".toList ++ [dquote] ++ v ++ [dquote] ++ " ".toList
        ++ ['#'] ++ " comment".toList
        = (K ++ " ".toList ++ ['='] ++ " ".toList ++ [dquote] ++ v ++ [dquote] ++ " ".toList
          ++ ['#'] ++ " commen".toList) ++ ['t'] := by simp
    rw [e, List.getLast?_concat] at h
    exact absurd h (by decide)
  have hmain := gen " ".toList " ".toList " ".toList " comment".toList '#' (by decide)
    (by decide) (by decide) (Or.inl rfl) hnh
  rw [← hlit] at hmain
  refine ⟨hmain, ?_, ?_, ?_, gen⟩
  · intro m hm
    obtain ⟨ini1, h1, -, h3, -⟩ := addValue_eq_some lower ini K ([dquote] ++ v ++ [dquote]) m hm
    exact ⟨ini1, _, by rw [hmain]; exact h1, h3, by simp⟩
  · have hg := groups_quoted dquote (by decide) (K ++ " = \"".toList ++ v ++ "\" # comment".toList)
    rw [← regDoubleQuote_eq] at hg
    have hl2 : K ++ " = \"".toList ++ v ++ "\" # comment".toList
        = K ++ (" ".toList ++ '=' :: (" ".toList ++ dquote :: (v ++ dquote ::
          (" ".toList ++ '#' :: " comment".toList)))) := by
      rw [hlit]; simp
    have hqv := (hq " ".toList " ".toList " comment".toList '#' (by decide) (by decide)
      (Or.inl rfl)).1
    rw [hl2, scanKey_mk K " ".toList _ hK hkey (by decide)] at hg
    simp only [hqv, Option.map_none', Option.map_eq_none'] at hg
    rw [hl2]
    exact hg
  · intro h
    have := congrArg List.length h
    simp only [List.length_append, List.length_singleton] at this
    omega

/-- C18 at the key `name` and the text `a b`. -/
theorem C18_quoted_then_comment_witness :
    parseLine Char.toLower initial
        ("name".toList ++ " = \"".toList ++ "a b".toList ++ "\" # comment".toList)
      = addValue Char.toLower initial "name".toList ([dquote] ++ "a b".toList ++ [dquote]) :=
  (C18_quoted_then_comment Char.toLower initial "name".toList "a b".toList (by decide)
    (by decide) (by decide) (by decide)).1

/-- C19. The cursor always names a section of the store: in the initial store, after
any sequence of non-empty logical lines parsed from it (which never fails), and in
every store that `Load` returns; `Load` completes whenever the assembler does. With
such a cursor the write of a key-value line finds its section map. -/
theorem C19_cursor_names_section (lower : Char → Char) :
    CursorOk initial ∧
    (∀ ls : List Str, (∀ l ∈ ls, l ≠ []) →
      ∃ ini, ls.foldlM (parseLine lower) initial = some ini ∧ CursorOk ini) ∧
    (∀ (file : Option (List Str)) (ini : QIni), Load lower file = some ini → CursorOk ini) ∧
    (∀ (reader : List Str) (ls : List Str), logicalLines reader = some ls →
      ∃ ini, Load lower (some reader) = some ini ∧ CursorOk ini) ∧
    (∀ (ini : QIni), CursorOk ini → ∀ k v : Str,
      ∃ ini1, addValue lower ini k v = some ini1 ∧ CursorOk ini1) ∧
    (∀ (ini : QIni) (line : Str), CursorOk ini → line ≠ [] →
      ∃ ini1, parseLine lower ini line = some ini1 ∧ CursorOk ini1) := by
  have h0 : CursorOk initial := ⟨_, initial_data_curr⟩
  refine ⟨h0, ?_, ?_, ?_, ?_, ?_⟩
  · intro ls hls
    exact foldlM_parseLine_CursorOk lower ls hls initial h0
  · intro file ini h
    cases file with
    | none =>
      simp only [Load, Option.some.injEq] at h
      rw [← h]
      exact h0
    | some reader =>
      exact parseReaderWith_invariant (parseLine lower) CursorOk
        (fun st l st1 hst hl => parseLine_CursorOk lower st st1 l hst hl) reader initial ini
        h0 h
  · intro reader ls h
    rw [Load_of_logicalLines lower reader ls h]
    exact foldlM_parseLine_CursorOk lower ls (fun l hl => (logicalLines_good reader ls h l hl).1)
      initial h0
  · intro ini hok k v
    obtain ⟨m, hm⟩ := hok
    obtain ⟨ini1, h1, h2, h3, -⟩ := addValue_eq_some lower ini k v m hm
    exact ⟨ini1, h1, _, by rw [h2]; exact h3⟩
  · intro ini line hok hne
    exact parseLine_total lower ini line hne hok

/-- C20. Every logical line that the reader hands to its classifier is not empty and
does not end in the marker: this holds for the lines of a completed pass, and the
result of a pass (completed or not) does not depend on what the classifier does with
any other line. When the stream ends on `abc\\` both markers are removed and `abc` is
classified. -/
theorem C20_logical_lines_clean :
    (∀ (reader : List Str) (ls : List Str), logicalLines reader = some ls →
      ∀ l ∈ ls, l ≠ [] ∧ l.getLast? ≠ some backslash) ∧
    (∀ (line : Str) (reader : List Str) (l : Str) (r : List Str),
      forLoop line reader = some (l, r) → l ≠ [] ∧ l.getLast? ≠ some backslash) ∧
    (∀ (lower : Char → Char) (g : QIni → Str → Option QIni),
      (∀ ini l, l ≠ [] → l.getLast? ≠ some backslash → parseLine lower ini l = g ini l) →
      ∀ (reader : List Str) (ini : QIni),
        parseReader lower ini reader = parseReaderWith g ini reader) ∧
    logicalLines ["abc\\\\".toList] = some ["abc".toList] ∧
    logicalLines ["key = v\\\\\\".toList, "  ".toList] = some ["key = v".toList] := by
  refine ⟨logicalLines_good, forLoop_good, ?_, ?_, ?_⟩
  · intro lower g hg reader ini
    exact parseReaderWith_congr (parseLine lower) g hg reader ini
  · unfold logicalLines
    rw [parseReaderWith_line _ _ _ _ "abc".toList [] (by decide) (by decide), Option.some_bind,
      parseReaderWith_nil]
    rfl
  · unfold logicalLines
    rw [parseReaderWith_line _ _ _ _ "key = v".toList [] (by decide) (by decide),
      Option.some_bind, parseReaderWith_nil]
    rfl

end Qini
